import Mathlib

/-!
# Dominance frontier (`lib/frontier.js`)

A shallow embedding of the `Frontier` object of `lib/frontier.js` and a
verification of its enumeration, dominator solve, dominance-frontier
construction and loop-depth marking.

Conventions of the embedding.

* A block reference is the position of the block in `pipeline.blocks`; the
  `blockIndex` of a block is that position, and the entry block is position `0`.
* A JavaScript array of numbers or block references is a map `Nat → Option Nat`;
  `none` stands for `null` (and for a slot that was never written).
* A traversal stack (`queue`, used with `push`/`pop` at the end of the array) is
  a list whose head is the top of the stack.
* Every `while` loop runs under a fuel bound: `none` is returned when the bound
  is exhausted, and also when the program would dereference `null`. The theorems
  show that on a well-formed CFG some fuel suffices and that the result does not
  depend on the fuel.
* The calls made on the collaborating pipeline (`addChild`, `addFrontier`) are
  recorded, in call order, in the lists `children` and `frontiers`; the
  `loopDepth` fields of the blocks are the map `loopDepth`.
* Two collaborators are not part of `lib/frontier.js`: the bit set `HBitField`,
  modelled from its contract in the spec (`bitSet`, `bitEmpty`), and the `dominates`
  test of the pipeline, which is a parameter of `computeLoops` and `compute`
  (`treeDominates` is the instance that the spec describes).

The file has three parts: the program (`enumerate` ... `compute`), the vocabulary of
the specification and of the invariants (paths, dominance, the forest held in `doms`),
and the theorems: the lemmas on each part of the program, each group followed by the
numbered claims that rest on it.
-/

namespace DominanceFrontier

/-! # The program

## Data model -/

/-- A basic block as the core consumes it: ordered predecessor and successor references. -/
structure Block where
  predecessors : List Nat
  successors : List Nat

/-- The pipeline (CFG collaborator): its list of blocks. -/
structure Pipeline where
  blocks : List Block

/-- The block behind a reference. -/
def Pipeline.block (p : Pipeline) (r : Nat) : Block :=
  p.blocks.getD r ⟨[], []⟩

/-- Array write `a[i] = v`. -/
def setAt {α : Type} (a : Nat → α) (i : Nat) (v : α) : Nat → α :=
  fun x => if x = i then v else a x

/-- Modelled from the spec: `set(i)` of the bit set `HBitField` (the package
`hierarchical-bitfield.js`, which is not part of `lib/frontier.js`). The spec gives it
as `insert(i) -> boolean`: it returns true iff `i` was not already a member, and adds it.
The result is the returned flag and the bit set afterwards. -/
def bitSet (bits : Nat → Bool) (i : Nat) : Bool × (Nat → Bool) :=
  (!bits i, setAt bits i true)

/-- Modelled from the spec: a bit set `HBitField` as constructed, or after `wipe()`, has
no member. -/
def bitEmpty : Nat → Bool := fun _ => false

/-- A `while (cond) body` loop under a fuel bound. -/
def whileLoop {σ : Type} (cond : σ → Bool) (body : σ → Option σ) : Nat → σ → Option σ
  | 0, _ => none
  | fuel + 1, s => if cond s then (body s).bind (whileLoop cond body fuel) else some s

/-- The `Frontier` object together with the effects it has on the pipeline. -/
structure Frontier where
  vertex : Nat → Option Nat
  index : Nat → Option Nat
  doms : Nat → Option Nat
  frontier : Nat → Nat → Bool
  count : Nat
  children : List (Nat × Nat)
  frontiers : List (Nat × Nat)
  loopDepth : Nat → Nat

/-- The constructor `new Frontier(pipeline)`: every slot `null`, every bit field empty. -/
def Frontier.create (_g : Pipeline) : Frontier :=
  { vertex := fun _ => none
    index := fun _ => none
    doms := fun _ => none
    frontier := fun _ => bitEmpty
    count := 0
    children := []
    frontiers := []
    loopDepth := fun _ => 0 }

/-! ## `enumerate` -/

/-- The variables of the `while` loop of `enumerate`. -/
structure EnumState where
  queue : List Nat
  index : Nat → Option Nat
  vertex : Nat → Option Nat
  next : Nat

/-- The variables of the inner `for` loop over the successors of the top block. -/
structure Scan where
  index : Nat → Option Nat
  queue : List Nat
  leaving : Bool

/-- One iteration of the inner `for` loop of `enumerate`. -/
def pushSuccessor (succ : Nat) (acc : Scan) : Scan :=
  if acc.index succ ≠ none then acc
  else { index := setAt acc.index succ (some 0), queue := succ :: acc.queue, leaving := false }

/-- The inner `for` loop of `enumerate`, from the last successor down to the first. -/
def scanSuccessors (succs : List Nat) (acc : Scan) : Scan :=
  succs.foldr pushSuccessor acc

/-- The body of the `while` loop of `enumerate`. -/
def enumStep (g : Pipeline) (s : EnumState) : Option EnumState :=
  match s.queue with
  | [] => none
  | block :: _ =>
    let r := scanSuccessors (g.block block).successors ⟨s.index, s.queue, true⟩
    if r.leaving then
      some { queue := r.queue.tail
             vertex := setAt s.vertex s.next (some block)
             index := setAt r.index block (some s.next)
             next := s.next + 1 }
    else
      some { s with index := r.index, queue := r.queue }

/-- The loop of `enumerate`, started on the entry block. -/
def enumLoop (fuel : Nat) (g : Pipeline) (s : Frontier) : Option EnumState :=
  whileLoop (fun e => !e.queue.isEmpty) (enumStep g) fuel
    { queue := [0], index := setAt s.index 0 (some 0), vertex := s.vertex, next := 0 }

/-- The method `Frontier.prototype.enumerate`. -/
def enumerate (fuel : Nat) (g : Pipeline) (s : Frontier) : Option Frontier :=
  (enumLoop fuel g s).map fun e =>
    { s with
      vertex := e.vertex
      index := e.index
      count := e.next
      doms := setAt s.doms (e.next - 1) (some (e.next - 1)) }

/-! ## `intersect` and the dominator solve -/

/-- The inner loop `while (finger < bound) finger = doms[finger]` of `intersect`. -/
def advance (doms : Nat → Option Nat) (fuel : Nat) (bound finger : Nat) : Option Nat :=
  whileLoop (fun f => decide (f < bound)) doms fuel finger

/-- The method `Frontier.prototype.intersect`. -/
def intersect (doms : Nat → Option Nat) (fuel : Nat) (b1 b2 : Nat) : Option Nat :=
  (whileLoop (fun (f : Nat × Nat) => decide (f.1 ≠ f.2))
    (fun f => (advance doms fuel f.2 f.1).bind fun f1 =>
      (advance doms fuel f1 f.2).bind fun f2 => some (f1, f2))
    fuel (b1, b2)).map Prod.fst

/-- One iteration of the loop of `computeOne` over the predecessors of a block. -/
def foldIdom (fuel : Nat) (s : Frontier) (newIdom : Option Nat) (pred : Nat) :
    Option (Option Nat) :=
  match s.index pred with
  | none => some newIdom
  | some p =>
    match s.doms p with
    | none => some newIdom
    | some _ =>
      match newIdom with
      | none => some (some p)
      | some cur => (intersect s.doms fuel p cur).map some

/-- The body of the outer `for` loop of `computeOne`, at postorder index `i`. -/
def computeOneAt (fuel : Nat) (g : Pipeline) (st : Frontier × Bool) (i : Nat) :
    Option (Frontier × Bool) :=
  (st.1.vertex i).bind fun b =>
    ((g.block b).predecessors.foldlM (foldIdom fuel st.1) none).bind fun newIdom =>
      (st.1.index b).bind fun bi =>
        if st.1.doms bi ≠ newIdom then
          some ({ st.1 with doms := setAt st.1.doms bi newIdom }, true)
        else some st

/-- The method `Frontier.prototype.computeOne`: one pass, in decreasing postorder index. -/
def computeOne (fuel : Nat) (g : Pipeline) (s : Frontier) : Option (Frontier × Bool) :=
  (List.range (s.count - 1)).reverse.foldlM (computeOneAt fuel g) (s, false)

/-- The registration loop of `computeDominance`, at postorder index `i`. -/
def addChildAt (s : Frontier) (i : Nat) : Option Frontier :=
  (s.doms i).bind fun d =>
    (s.vertex d).bind fun parent =>
      (s.vertex i).bind fun child =>
        some { s with children := s.children ++ [(parent, child)] }

/-- The fixpoint loop of `computeDominance`. -/
def solve (fuel : Nat) (g : Pipeline) (s : Frontier) : Option Frontier :=
  (whileLoop (fun (st : Frontier × Bool) => st.2) (fun st => computeOne fuel g st.1)
    fuel (s, true)).map Prod.fst

/-- The method `Frontier.prototype.computeDominance`. -/
def computeDominance (fuel : Nat) (g : Pipeline) (s : Frontier) : Option Frontier :=
  (solve fuel g s).bind fun s1 => (List.range (s1.count - 1)).foldlM addChildAt s1

/-! ## Dominance frontier -/

/-- The variables of the runner loop of `computeOneFrontier`. -/
structure Runner where
  runner : Nat
  state : Frontier

/-- The body of the runner loop: `frontier[runner].set(i)`, `addFrontier`, one step up. -/
def runnerStep (i b : Nat) (r : Runner) : Option Runner :=
  let s := r.state
  let set := bitSet (s.frontier r.runner) i
  let s1 : Frontier := { s with frontier := setAt s.frontier r.runner set.2 }
  let s2 : Option Frontier :=
    if set.1 then
      (s1.vertex r.runner).map fun owner =>
        { s1 with frontiers := s1.frontiers ++ [(owner, b)] }
    else some s1
  s2.bind fun s3 => (s3.doms r.runner).map fun d => { runner := d, state := s3 }

/-- The body of the `for` loop of `computeOneFrontier` over the predecessors of `b`. -/
def frontierPred (fuel : Nat) (i b : Nat) (dom : Option Nat) (s : Frontier) (p : Nat) :
    Option Frontier :=
  match s.index p with
  | none => some s
  | some runner =>
    (whileLoop (fun r => decide (some r.runner ≠ dom)) (runnerStep i b) fuel
      { runner := runner, state := s }).map Runner.state

/-- The method `Frontier.prototype.computeOneFrontier`. -/
def computeOneFrontier (fuel : Nat) (g : Pipeline) (s : Frontier) (i b : Nat) :
    Option Frontier :=
  (s.index b).bind fun bi =>
    (g.block b).predecessors.foldlM (frontierPred fuel i b (s.doms bi)) s

/-- The body of the `for` loop of `computeFrontier`. -/
def computeFrontierAt (fuel : Nat) (g : Pipeline) (s : Frontier) (i : Nat) : Option Frontier :=
  (s.vertex i).bind fun b =>
    if (g.block b).predecessors.length < 2 then some s
    else computeOneFrontier fuel g s i b

/-- The method `Frontier.prototype.computeFrontier`. -/
def computeFrontier (fuel : Nat) (g : Pipeline) (s : Frontier) : Option Frontier :=
  (List.range s.count).foldlM (computeFrontierAt fuel g) s

/-! ## Loops -/

/-- A recorded loop `{ start, end }`. -/
structure Loop where
  start : Nat
  stop : Nat

/-- The first `for` loop of `computeLoops` at block `i`: reset the depth, record a loop. -/
def detectAt (g : Pipeline) (dominates : Nat → Nat → Bool)
    (acc : (Nat → Nat) × List Loop) (i : Nat) : (Nat → Nat) × List Loop :=
  let depth := setAt acc.1 i 0
  if (g.block i).predecessors.length ≠ 2 then (depth, acc.2)
  else
    match (g.block i).predecessors.find? (fun pred => dominates i pred) with
    | none => (depth, acc.2)
    | some pred => (depth, acc.2 ++ [⟨i, pred⟩])

/-- The variables of the flood loop of `computeLoops`. -/
structure Flood where
  queue : List Nat
  visited : Nat → Bool
  loopDepth : Nat → Nat

/-- The body of the flood loop of `computeLoops`. -/
def floodStep (g : Pipeline) (start : Nat) (f : Flood) : Option Flood :=
  match f.queue with
  | [] => none
  | block :: rest =>
    let set := bitSet f.visited block
    if !set.1 then some { f with queue := rest, visited := set.2 }
    else
      let f1 : Flood :=
        { queue := rest
          visited := set.2
          loopDepth := setAt f.loopDepth block (f.loopDepth block + 1) }
      if block = start then some f1
      else some { f1 with queue := (g.block block).predecessors.reverse ++ rest }

/-- The body of the second `for` loop of `computeLoops`: the flood of one loop. -/
def floodLoop (fuel : Nat) (g : Pipeline) (depth : Nat → Nat) (l : Loop) :
    Option (Nat → Nat) :=
  (whileLoop (fun f => !f.queue.isEmpty) (floodStep g l.start) fuel
    { queue := [l.stop], visited := bitEmpty, loopDepth := depth }).map Flood.loopDepth

/-- The method `Frontier.prototype.computeLoops`. The call `pipeline.enumerate()` only
refreshes the `dominates` test of the pipeline, which is the parameter `dominates`. -/
def computeLoops (fuel : Nat) (g : Pipeline) (dominates : Nat → Nat → Bool) (s : Frontier) :
    Option Frontier :=
  let d := (List.range g.blocks.length).foldl (detectAt g dominates) (s.loopDepth, [])
  (d.2.foldlM (floodLoop fuel g) d.1).map fun depth => { s with loopDepth := depth }

/-! # Specification and invariants

## Control-flow graphs, paths and dominance -/

/-- A well-formed CFG: there is an entry block, every reference denotes a block of the
pipeline, and `u` lists `v` as a successor iff `v` lists `u` as a predecessor. -/
def WellFormed (g : Pipeline) : Prop :=
  0 < g.blocks.length ∧
  (∀ u < g.blocks.length, ∀ v ∈ (g.block u).successors, v < g.blocks.length) ∧
  (∀ v < g.blocks.length, ∀ u ∈ (g.block v).predecessors, u < g.blocks.length) ∧
  (∀ u < g.blocks.length, ∀ v < g.blocks.length,
    (v ∈ (g.block u).successors ↔ u ∈ (g.block v).predecessors))

instance (g : Pipeline) : Decidable (WellFormed g) := by
  unfold WellFormed; infer_instance

/-- A path from the entry block following successors; the blocks visited are listed
last-visited first. -/
inductive EPath (g : Pipeline) : List Nat → Nat → Prop
  | entry : EPath g [0] 0
  | step {l : List Nat} {u v : Nat} :
      EPath g l u → v ∈ (g.block u).successors → EPath g (v :: l) v

/-- The edge relation of the CFG: `v` is listed as a successor of `u`. -/
def Edge (g : Pipeline) (u v : Nat) : Prop := v ∈ (g.block u).successors

/-- A block is reachable when some path from the entry ends in it. -/
def Reachable (g : Pipeline) (b : Nat) : Prop := ∃ l, EPath g l b

/-- Block `a` dominates block `b`: every path from the entry to `b` passes through `a`. -/
def Dominates (g : Pipeline) (a b : Nat) : Prop := ∀ l, EPath g l b → a ∈ l

/-- Strict dominance. -/
def StrictlyDominates (g : Pipeline) (a b : Nat) : Prop := Dominates g a b ∧ a ≠ b

/-- The closest strict dominator of `b`: a strict dominator that every strict dominator of
`b` dominates. -/
def ImmediateDominator (g : Pipeline) (a b : Nat) : Prop :=
  StrictlyDominates g a b ∧ ∀ c, StrictlyDominates g c b → Dominates g c a

/-! ## Invariants of `enumerate` -/

/-- The traversal stack: the bottom is the entry block and every other element was pushed
as a successor of an element beneath it. -/
def StackOK (g : Pipeline) : List Nat → Prop
  | [] => True
  | [x] => x = 0
  | x :: y :: rest => (∃ p ∈ y :: rest, x ∈ (g.block p).successors) ∧ StackOK g (y :: rest)

/-- The number of blocks of the pipeline that are not yet discovered. -/
def undiscovered (g : Pipeline) (index : Nat → Option Nat) : Nat :=
  ((Finset.range g.blocks.length).filter (fun b => index b = none)).card

/-- The loop invariant of `enumerate`. -/
structure EnumInv (g : Pipeline) (e : EnumState) : Prop where
  nodup : e.queue.Nodup
  onQueue : ∀ b ∈ e.queue, e.index b = some 0 ∧ ∀ k < e.next, e.vertex k ≠ some b
  numbered : ∀ k < e.next, ∃ b, e.vertex k = some b ∧ e.index b = some k
  discovered : ∀ b k, e.index b = some k → b ∈ e.queue ∨ (k < e.next ∧ e.vertex k = some b)
  reach : ∀ b, e.index b ≠ none → Reachable g b
  closed : ∀ k < e.next, ∀ u, e.vertex k = some u →
    ∀ v ∈ (g.block u).successors, e.index v ≠ none
  stack : StackOK g e.queue
  entry : e.index 0 ≠ none
  bottom : e.queue = [] → 0 < e.next ∧ e.vertex (e.next - 1) = some 0
  pushed : ∀ k < e.next, ∀ b, e.vertex k = some b → b ≠ 0 →
    ∃ p, b ∈ (g.block p).successors ∧
      (p ∈ e.queue ∨ ∃ kp, k < kp ∧ kp < e.next ∧ e.vertex kp = some p)

/-- What `enumerate` establishes: `index` and `vertex` are inverse bijections between the
reachable blocks and `0..count-1`, the entry is last, and every other reachable block has
a predecessor with a larger postorder index. -/
structure Enumerated (g : Pipeline) (s : Frontier) : Prop where
  count_pos : 0 < s.count
  entry_index : s.index 0 = some (s.count - 1)
  reach : ∀ b, s.index b ≠ none ↔ Reachable g b
  index_lt : ∀ b k, s.index b = some k → k < s.count ∧ s.vertex k = some b
  vertex_index : ∀ k < s.count, ∃ b, s.vertex k = some b ∧ s.index b = some k
  pusher : ∀ b k, s.index b = some k → b ≠ 0 →
    ∃ p kp, b ∈ (g.block p).successors ∧ s.index p = some kp ∧ k < kp

/-! ## The dominator forest held in `doms` -/

/-- `Chain d a z`: `z` lies on the chain `a, d[a], d[d[a]], ...` of `doms` links. -/
inductive Chain (d : Nat → Option Nat) : Nat → Nat → Prop
  | refl (a : Nat) : Chain d a a
  | step {a a' z : Nat} : d a = some a' → Chain d a' z → Chain d a z

/-- The shape of `doms` during the solve, with root `N = count - 1`: the root is its own
dominator, every other assigned slot points to a larger assigned slot. -/
structure Forest (d : Nat → Option Nat) (N : Nat) : Prop where
  root : d N = some N
  up : ∀ i j, d i = some j → i < N → i < j
  bound : ∀ i j, d i = some j → i ≤ N ∧ j ≤ N
  closed : ∀ i j, d i = some j → d j ≠ none

/-- `c` is the nearest common point of the chains of the members of `P` whose `doms` slot
is assigned. -/
def IsNCA (d : Nat → Option Nat) (P : List Nat) (c : Nat) : Prop :=
  (∃ p ∈ P, d p ≠ none) ∧ (∀ p ∈ P, d p ≠ none → Chain d p c) ∧
  (∀ z, (∀ p ∈ P, d p ≠ none → Chain d p z) → Chain d c z)

/-- What the fold of `computeOne` holds after the predecessors `Q`: `null` while no
predecessor was usable, and their nearest common chain point afterwards. -/
def Folded (d : Nat → Option Nat) (Q : List Nat) : Option Nat → Prop
  | none => ∀ p ∈ Q, d p = none
  | some c => IsNCA d Q c

/-- The postorder indices of the reachable predecessors of `vertex[i]`, in list order. -/
def predsI (g : Pipeline) (s : Frontier) (i : Nat) : List Nat :=
  match s.vertex i with
  | none => []
  | some b => (g.block b).predecessors.filterMap s.index

/-- The `doms` array in the middle of a pass that started from `S` and ends with `T`,
when the slots above `j` have been processed. -/
def mix (j : Nat) (T S : Nat → Option Nat) : Nat → Option Nat :=
  fun x => if j < x then T x else S x

/-- A pass of `computeOne` from `S` yields `T`: every slot below the root holds the nearest
common chain point of its usable predecessors, taken when the slot was processed. -/
def PassRel (P : Nat → List Nat) (N : Nat) (S T : Nat → Option Nat) : Prop :=
  (∀ j, N ≤ j → T j = S j) ∧ ∀ j, j < N → ∃ c, T j = some c ∧ IsNCA (mix j T S) (P j) c

/-- Every slot assigned in `S` is assigned in `T`, to a point of the `T`-chain of its
former value. -/
def Shrinks (T S : Nat → Option Nat) : Prop :=
  ∀ j a, S j = some a → ∃ c, T j = some c ∧ Chain T a c

/-- The invariant of the fixpoint loop of `computeDominance`. -/
def SolveInv (g : Pipeline) (s0 : Frontier) (Q : (Nat → Option Nat) → Prop)
    (st : Frontier × Bool) : Prop :=
  ∃ d, st.1 = { s0 with doms := d } ∧ Forest d (s0.count - 1) ∧ Q d ∧
    (st.2 = false → PassRel (predsI g s0) (s0.count - 1) d d) ∧
    (d = s0.doms ∨ ∃ S, Forest S (s0.count - 1) ∧
      PassRel (predsI g s0) (s0.count - 1) S d ∧ Shrinks d S)

/-- The sum of the slots `0..N-1` of `doms`, `null` counting as zero. -/
def domSum (d : Nat → Option Nat) (N : Nat) : Nat :=
  ((List.range N).map fun j => (d j).getD 0).sum

/-- Dominance between postorder indices. -/
def DomI (g : Pipeline) (s : Frontier) (a b : Nat) : Prop :=
  ∃ A B, s.vertex a = some A ∧ s.vertex b = some B ∧ a < s.count ∧ b < s.count ∧
    Dominates g A B

/-- The semantic invariant of the solve: the chain of an assigned slot holds every
dominator of the slot, and a dominator of a slot dominates whatever lies on the chain
between the two. -/
structure SemInv (D : Nat → Nat → Prop) (d : Nat → Option Nat) : Prop where
  dom_chain : ∀ x a, d x ≠ none → D a x → Chain d x a
  between : ∀ x y a, d x ≠ none → Chain d x y → Chain d y a → a ≠ y → D a x → D a y

/-! ## Runs and their results -/

/-- The run `enumerate(); while (changed) changed = computeOne();` on a fresh object. -/
def solved (fuel : Nat) (g : Pipeline) : Option Frontier :=
  (enumerate fuel g (Frontier.create g)).bind (solve fuel g)

/-- The run `enumerate(); computeDominance();` on a fresh object. -/
def dominance (fuel : Nat) (g : Pipeline) : Option Frontier :=
  (enumerate fuel g (Frontier.create g)).bind (computeDominance fuel g)

/-- The registrations `parent.addChild(child)` of `computeDominance`, in call order. -/
def childList (s : Frontier) : List (Nat × Nat) :=
  (List.range (s.count - 1)).map fun i =>
    (((s.doms i).bind s.vertex).getD 0, (s.vertex i).getD 0)

/-- The parent link registered by `parent.addChild(child)`. -/
def ParentOf (s : Frontier) (child parent : Nat) : Prop := (parent, child) ∈ s.children

/-- What the dominator solve establishes. -/
structure Solved (g : Pipeline) (s : Frontier) : Prop where
  enum : Enumerated g s
  forest : Forest s.doms (s.count - 1)
  fix : PassRel (predsI g s) (s.count - 1) s.doms s.doms
  sem : SemInv (DomI g s) s.doms

/-- The frontier walk reaches `r` from the join block at `j`: the block at `j` lists at
least two predecessors, and `r` lies on the chain of a reachable predecessor, below the
`doms` slot of `j`. -/
def OnWalk (g : Pipeline) (s : Frontier) (r j : Nat) : Prop :=
  ∃ b dom, s.vertex j = some b ∧ 2 ≤ (g.block b).predecessors.length ∧
    s.doms j = some dom ∧ ∃ p ∈ predsI g s j, Chain s.doms p r ∧ r < dom

/-- The list of `addFrontier` calls holds one pair of blocks for every bit that is set. -/
def Logged (s0 : Frontier) (f : Nat → Nat → Bool) (l : List (Nat × Nat)) : Prop :=
  ∀ A B, (A, B) ∈ l ↔ ∃ r j, s0.vertex r = some A ∧ s0.vertex j = some B ∧ f r j = true

/-! ## The flood of a loop and the whole of `compute` -/

/-- The backward flood of a loop: `FloodReach g start x b` when `b` is reached from `x` by
following predecessors, never expanding the block `start`. -/
inductive FloodReach (g : Pipeline) (start : Nat) : Nat → Nat → Prop
  | refl (x : Nat) : FloodReach g start x x
  | step {x p b : Nat} : x ≠ start → p ∈ (g.block x).predecessors →
      FloodReach g start p b → FloodReach g start x b

/-- The blocks of the flood of a recorded loop: those reached from `end`. -/
def InFlood (g : Pipeline) (b : Nat) (l : Loop) : Prop := FloodReach g l.start l.stop b

/-- The loops recorded by the first `for` loop of `computeLoops`, in order. -/
def recorded (g : Pipeline) (dominates : Nat → Nat → Bool) : List Loop :=
  ((List.range g.blocks.length).foldl (detectAt g dominates) (fun _ => 0, [])).2

/-- `CountIs P l k`: exactly `k` entries of the list `l` satisfy `P`. -/
inductive CountIs {α : Type} (P : α → Prop) : List α → Nat → Prop
  | nil : CountIs P [] 0
  | hit {a : α} {l : List α} {k : Nat} : P a → CountIs P l k → CountIs P (a :: l) (k + 1)
  | miss {a : α} {l : List α} {k : Nat} : ¬ P a → CountIs P l k → CountIs P (a :: l) k

/-- The work left to the flood loop: the predecessor lists of the blocks not yet visited. -/
def floodWork (g : Pipeline) (visited : Nat → Bool) : Nat :=
  ((Finset.range g.blocks.length).filter (fun b => visited b = false)).sum
    (fun b => (g.block b).predecessors.length + 2)

/-- The invariant of the flood loop of `computeLoops`. -/
structure FloodInv (g : Pipeline) (l : Loop) (depth0 : Nat → Nat) (st : Flood) : Prop where
  queued : ∀ x ∈ st.queue, FloodReach g l.start l.stop x ∧ x < g.blocks.length
  visited : ∀ x, st.visited x = true → FloodReach g l.start l.stop x
  depth : ∀ x, st.loopDepth x = depth0 x + (if st.visited x = true then 1 else 0)
  stop : st.visited l.stop = true ∨ l.stop ∈ st.queue
  closed : ∀ x, st.visited x = true → x ≠ l.start →
    ∀ p ∈ (g.block x).predecessors, st.visited p = true ∨ p ∈ st.queue

/-- The method `Frontier.prototype.compute`. The `dominates` test of the pipeline,
refreshed by `pipeline.enumerate()` inside `computeLoops`, is a function of the `addChild`
registrations that the pipeline received. -/
def computeFrom (fuel : Nat) (g : Pipeline)
    (dominates : List (Nat × Nat) → Nat → Nat → Bool) (s : Frontier) : Option Frontier :=
  (enumerate fuel g s).bind fun s1 =>
    (computeDominance fuel g s1).bind fun s2 =>
      (computeFrontier fuel g s2).bind fun s3 =>
        computeLoops fuel g (dominates s3.children) s3

/-- The run `Frontier.create(pipeline).compute()`. -/
def compute (fuel : Nat) (g : Pipeline) (dominates : List (Nat × Nat) → Nat → Nat → Bool) :
    Option Frontier :=
  computeFrom fuel g dominates (Frontier.create g)

/-- What a whole `compute` establishes on a fresh object. -/
structure Computed (g : Pipeline) (dominates : List (Nat × Nat) → Nat → Nat → Bool)
    (s : Frontier) : Prop where
  solved : Solved g s
  children : s.children = childList s
  bits : ∀ r j, s.frontier r j = true ↔ (j < s.count ∧ OnWalk g s r j)
  logged : Logged s s.frontier s.frontiers
  depth : ∀ b, b < g.blocks.length →
    CountIs (InFlood g b) (recorded g (dominates s.children)) (s.loopDepth b)

/-- A fuel that suffices for every loop of `compute`. -/
def fuelBound (g : Pipeline) : Nat :=
  2 * (g.blocks.length * g.blocks.length) + 2 * g.blocks.length
    + floodWork g (fun _ => false) + 2

/-! ## Further runs -/

/-- The run `enumerate(); computeDominance(); computeFrontier();` on a fresh object. -/
def front (fuel : Nat) (g : Pipeline) : Option Frontier :=
  (enumerate fuel g (Frontier.create g)).bind fun s1 =>
    (computeDominance fuel g s1).bind fun s2 => computeFrontier fuel g s2

/-- The run `enumerate(); computeOne();` on a fresh object: the first pass of the solve. -/
def firstPass (fuel : Nat) (g : Pipeline) : Option (Frontier × Bool) :=
  (enumerate fuel g (Frontier.create g)).bind (computeOne fuel g)

/-- A second `Frontier` object constructed on the same pipeline after a run that left the
state `s`: the working arrays are those of the constructor, and the pipeline keeps what
the first run did to it (the registrations and the `loopDepth` fields). -/
def renew (g : Pipeline) (s : Frontier) : Frontier :=
  { Frontier.create g with
    children := s.children
    frontiers := s.frontiers
    loopDepth := s.loopDepth }

/-- The effects that a run adds to a pipeline which already holds the registrations
`cs` and `fs` and the depths `depth`. -/
def onto (cs fs : List (Nat × Nat)) (depth : Nat → Nat) (s : Frontier) : Frontier :=
  { s with
    children := cs ++ s.children
    frontiers := fs ++ s.frontiers
    loopDepth := depth }

/-- The CFG with every block that `keep` rejects deleted from every `predecessors` list. -/
def prune (keep : Nat → Bool) (g : Pipeline) : Pipeline :=
  ⟨g.blocks.map fun b => ⟨b.predecessors.filter keep, b.successors⟩⟩

/-- The values of the runner of `computeOneFrontier`: `RunnerAt d dom a k` when the
runner started at `a` takes the value `k` before it meets `dom`. -/
inductive RunnerAt (d : Nat → Option Nat) (dom : Nat) : Nat → Nat → Prop
  | here {a : Nat} : a ≠ dom → RunnerAt d dom a a
  | next {a a' k : Nat} : a ≠ dom → d a = some a' → RunnerAt d dom a' k → RunnerAt d dom a k

/-! ## The `dominates` test of the pipeline -/

/-- The walk of `treeDominates` up the registered parent links, from `b` towards `a`. -/
def climb (children : List (Nat × Nat)) (a : Nat) : Nat → Nat → Bool
  | 0, _ => false
  | fuel + 1, b =>
    if a = b then true
    else
      match children.find? (fun e => e.2 = b) with
      | none => false
      | some e => climb children a fuel e.1

/-- Modelled from the spec: `block.dominates(other)` of the pipeline, which is not part of
`lib/frontier.js`. The spec describes it as the test whether this block dominates `other`
in the established dominator relation, backed by a dominator-tree ancestor test; the
tree is the one registered by the `addChild` calls. -/
def treeDominates (children : List (Nat × Nat)) (a b : Nat) : Bool :=
  climb children a (children.length + 1) b

/-! ## Example graphs -/

/-- The graph entry -> A, entry -> B, A -> B, with the successors of the entry listed as
`[A, B]`. -/
def forwardEdge : Pipeline :=
  ⟨[⟨[], [1, 2]⟩, ⟨[0], [2]⟩, ⟨[0, 1], []⟩]⟩

/-- The diamond entry -> A, entry -> B, A -> C, B -> C. -/
def diamond : Pipeline :=
  ⟨[⟨[], [1, 2]⟩, ⟨[0], [3]⟩, ⟨[0], [3]⟩, ⟨[1, 2], []⟩]⟩

/-- The simple loop entry -> H, H -> Body, Body -> H, H -> Exit. -/
def simpleLoop : Pipeline :=
  ⟨[⟨[], [1]⟩, ⟨[0, 2], [2, 3]⟩, ⟨[1], [1]⟩, ⟨[1], []⟩]⟩

/-- A single entry block with an edge to itself. -/
def selfLoop : Pipeline :=
  ⟨[⟨[0], [0]⟩]⟩

/-- An entry block with an edge to itself and a second block on a cycle with it. -/
def entryCycle : Pipeline :=
  ⟨[⟨[0, 1], [0, 1]⟩, ⟨[0], [0]⟩]⟩

/-- The graph entry -> B together with a block U, not reachable, with an edge U -> B. -/
def danglingPred : Pipeline :=
  ⟨[⟨[], [1]⟩, ⟨[0, 2], []⟩, ⟨[], [1]⟩]⟩

/-- The graph 0 -> 1, 0 -> 2, 1 -> 2, 2 -> 3, 2 -> 4, 3 -> 5, 4 -> 5. -/
def lateJoin : Pipeline :=
  ⟨[⟨[], [1, 2]⟩, ⟨[0], [2]⟩, ⟨[0, 1], [3, 4]⟩, ⟨[2], [5]⟩, ⟨[2], [5]⟩, ⟨[3, 4], []⟩]⟩

/-- A loop header H with three predecessors: entry -> H, H -> A, H -> B, A -> H, B -> H. -/
def threeWay : Pipeline :=
  ⟨[⟨[], [1]⟩, ⟨[0, 2, 3], [2, 3]⟩, ⟨[1], [1]⟩, ⟨[1], [1]⟩]⟩

/-- An entry block on a cycle with a block B, and a block U, not reachable, with an edge
to the entry: entry -> B, B -> entry, U -> entry. -/
def entryDangling : Pipeline :=
  ⟨[⟨[1, 2], [1]⟩, ⟨[0], [0]⟩, ⟨[], [0]⟩]⟩

/-- A state that holds the working arrays, the count and the `addChild` registrations of
another. -/
def Keeps (s t : Frontier) : Prop :=
  t.vertex = s.vertex ∧ t.index = s.index ∧ t.doms = s.doms ∧ t.count = s.count ∧
    t.children = s.children

/-- The invariant of the `addFrontier` log during `computeFrontier` started from `s`: the
arrays are those of `s`, no pair is logged twice, and every logged pair is a pair of
numbered blocks whose bit is set. -/
def LogInv (s t : Frontier) : Prop :=
  t.vertex = s.vertex ∧ t.index = s.index ∧ t.doms = s.doms ∧ t.count = s.count ∧
  t.frontiers.Nodup ∧
  ∀ A B, (A, B) ∈ t.frontiers → ∃ r j, r < s.count ∧ j < s.count ∧
    s.vertex r = some A ∧ s.vertex j = some B ∧ t.frontier r j = true

/-- A loop whose back edge is listed twice: entry -> H, H -> Body, and Body -> H twice. -/
def twinBackEdge : Pipeline :=
  ⟨[⟨[], [1]⟩, ⟨[0, 2, 2], [2]⟩, ⟨[1], [1, 1]⟩]⟩

/-- A `doms` array over `0..3`: the slots `0` and `1` point to `2`, and `2` points to the
root `3`. -/
def sampleDoms : Nat → Option Nat :=
  fun i => if i < 2 then some 2 else if i < 4 then some 3 else none

/-! # Theorems

## Arrays and loops -/

@[simp] theorem setAt_same {α : Type} (a : Nat → α) (i : Nat) (v : α) : setAt a i v i = v := by
  simp [setAt]

theorem setAt_ne {α : Type} (a : Nat → α) {i x : Nat} (v : α) (h : x ≠ i) :
    setAt a i v x = a x := by
  simp [setAt, h]

theorem setAt_apply {α : Type} (a : Nat → α) (i x : Nat) (v : α) :
    setAt a i v x = if x = i then v else a x := rfl

/-- Partial correctness of a loop: an invariant of the body holds at exit, where the
condition is false. -/
theorem whileLoop_inv {σ : Type} {cond : σ → Bool} {body : σ → Option σ} (Inv : σ → Prop)
    (hstep : ∀ a b, Inv a → cond a = true → body a = some b → Inv b) :
    ∀ (fuel : Nat) (s s' : σ), Inv s → whileLoop cond body fuel s = some s' →
      Inv s' ∧ cond s' = false := by
  intro fuel
  induction fuel with
  | zero => intro s s' _ h; simp [whileLoop] at h
  | succ n ih =>
    intro s s' hs h
    unfold whileLoop at h
    by_cases hc : cond s = true
    · rw [if_pos hc] at h
      cases hb : body s with
      | none => rw [hb] at h; simp at h
      | some b =>
        rw [hb] at h
        exact ih b s' (hstep s b hs hc hb) h
    · rw [if_neg hc] at h
      cases h
      exact ⟨hs, by simpa using hc⟩

/-- Termination of a loop: a body that keeps an invariant and decreases a measure runs
to completion within any fuel above the measure. -/
theorem whileLoop_total {σ : Type} {cond : σ → Bool} {body : σ → Option σ} (Inv : σ → Prop)
    (μ : σ → Nat)
    (hstep : ∀ a, Inv a → cond a = true → ∃ b, body a = some b ∧ Inv b ∧ μ b < μ a) :
    ∀ (fuel : Nat) (s : σ), Inv s → μ s < fuel → ∃ s', whileLoop cond body fuel s = some s' := by
  intro fuel
  induction fuel with
  | zero => intro s _ h; omega
  | succ n ih =>
    intro s hs h
    unfold whileLoop
    by_cases hc : cond s = true
    · rw [if_pos hc]
      obtain ⟨b, hb, hib, hlt⟩ := hstep s hs hc
      rw [hb]
      exact ih b hib (by omega)
    · rw [if_neg hc]
      exact ⟨s, rfl⟩

/-- Total correctness of a loop. -/
theorem whileLoop_spec {σ : Type} {cond : σ → Bool} {body : σ → Option σ} (Inv : σ → Prop)
    (μ : σ → Nat)
    (hstep : ∀ a, Inv a → cond a = true → ∃ b, body a = some b ∧ Inv b ∧ μ b < μ a)
    (fuel : Nat) (s : σ) (hs : Inv s) (hfuel : μ s < fuel) :
    ∃ s', whileLoop cond body fuel s = some s' ∧ Inv s' ∧ cond s' = false := by
  obtain ⟨s', h⟩ := whileLoop_total Inv μ hstep fuel s hs hfuel
  refine ⟨s', h, whileLoop_inv Inv ?_ fuel s s' hs h⟩
  intro a b ha hc hb
  obtain ⟨b', hb1, hb2, _⟩ := hstep a ha hc
  rw [hb] at hb1
  cases hb1
  exact hb2

/-- More fuel does not change the result of a loop. -/
theorem whileLoop_mono {σ : Type} {cond : σ → Bool} {body body' : σ → Option σ}
    (hb : ∀ a b, body a = some b → body' a = some b) :
    ∀ (fuel fuel' : Nat) (s r : σ), fuel ≤ fuel' →
      whileLoop cond body fuel s = some r → whileLoop cond body' fuel' s = some r := by
  intro fuel
  induction fuel with
  | zero => intro fuel' s r _ h; simp [whileLoop] at h
  | succ n ih =>
    intro fuel' s r hle h
    obtain ⟨m, rfl⟩ : ∃ m, fuel' = m + 1 := ⟨fuel' - 1, by omega⟩
    unfold whileLoop at h ⊢
    by_cases hc : cond s = true
    · rw [if_pos hc] at h ⊢
      cases hbs : body s with
      | none => rw [hbs] at h; simp at h
      | some b =>
        rw [hbs] at h
        rw [hb s b hbs]
        exact ih m b r (by omega) h
    · rw [if_neg hc] at h ⊢
      exact h

/-- More fuel does not change the result of a `for` loop over a list. -/
theorem foldlM_mono {σ α : Type} {f f' : σ → α → Option σ}
    (hf : ∀ s a r, f s a = some r → f' s a = some r) :
    ∀ (l : List α) (s r : σ), l.foldlM f s = some r → l.foldlM f' s = some r := by
  intro l
  induction l with
  | nil => intro s r h; exact h
  | cons a l ih =>
    intro s r h
    simp only [List.foldlM_cons, Option.bind_eq_bind] at h ⊢
    cases hfa : f s a with
    | none => rw [hfa] at h; simp at h
    | some b =>
      rw [hfa] at h
      rw [hf s a b hfa]
      exact ih b r h

/-! ## Reachability -/

theorem reachable_entry (g : Pipeline) : Reachable g 0 := ⟨[0], EPath.entry⟩

theorem Reachable.step {g : Pipeline} {u v : Nat} (h : Reachable g u)
    (hv : v ∈ (g.block u).successors) : Reachable g v := by
  obtain ⟨l, hl⟩ := h
  exact ⟨v :: l, EPath.step hl hv⟩

theorem Reachable.lt {g : Pipeline} (wf : WellFormed g) {b : Nat} (h : Reachable g b) :
    b < g.blocks.length := by
  obtain ⟨l, hl⟩ := h
  induction hl with
  | entry => exact wf.1
  | step _ hv ih => exact wf.2.1 _ ih _ hv

/-- A set of blocks that holds the entry and is closed under successors holds every
reachable block. -/
theorem Reachable.closure {g : Pipeline} (S : Nat → Prop) (h0 : S 0)
    (hS : ∀ u v, S u → v ∈ (g.block u).successors → S v) {b : Nat} (h : Reachable g b) :
    S b := by
  obtain ⟨l, hl⟩ := h
  induction hl with
  | entry => exact h0
  | step _ hv ih => exact hS _ _ ih hv

/-! ## `enumerate` -/

theorem undiscovered_mark (g : Pipeline) (index : Nat → Option Nat) (b k : Nat)
    (hb : index b = none) (hlt : b < g.blocks.length) :
    undiscovered g (setAt index b (some k)) + 1 = undiscovered g index := by
  unfold undiscovered
  have hmem : b ∈ (Finset.range g.blocks.length).filter (fun b => index b = none) := by
    simp [hb, hlt]
  have heq : (Finset.range g.blocks.length).filter (fun x => setAt index b (some k) x = none)
      = ((Finset.range g.blocks.length).filter (fun b => index b = none)).erase b := by
    ext x
    by_cases hx : x = b
    · subst hx; simp
    · simp [setAt_ne _ _ hx, hx]
  rw [heq, Finset.card_erase_of_mem hmem]
  have : 0 < ((Finset.range g.blocks.length).filter (fun b => index b = none)).card :=
    Finset.card_pos.mpr ⟨b, hmem⟩
  omega

theorem undiscovered_remark (g : Pipeline) (index : Nat → Option Nat) (b k : Nat)
    (hb : index b ≠ none) :
    undiscovered g (setAt index b (some k)) = undiscovered g index := by
  unfold undiscovered
  congr 1
  ext x
  by_cases hx : x = b
  · subst hx; simp [hb]
  · simp [setAt_ne _ _ hx]

/-- What the scan of the successors of the top block does: it pushes, without
duplicates, the successors that were not discovered, and marks them. -/
theorem scan_spec (g : Pipeline) (succs : List Nat) (index : Nat → Option Nat)
    (queue : List Nat) (hlt : ∀ v ∈ succs, v < g.blocks.length) :
    ∃ new : List Nat,
      (scanSuccessors succs ⟨index, queue, true⟩).queue = new ++ queue ∧
      new.Nodup ∧
      (∀ v ∈ new, v ∈ succs ∧ index v = none) ∧
      (∀ v, (scanSuccessors succs ⟨index, queue, true⟩).index v
          = if v ∈ new then some 0 else index v) ∧
      (∀ v ∈ succs, (scanSuccessors succs ⟨index, queue, true⟩).index v ≠ none) ∧
      ((scanSuccessors succs ⟨index, queue, true⟩).leaving = true ↔ new = []) ∧
      undiscovered g (scanSuccessors succs ⟨index, queue, true⟩).index + new.length
        = undiscovered g index := by
  induction succs with
  | nil => exact ⟨[], by simp [scanSuccessors]⟩
  | cons x xs ih =>
    obtain ⟨new, hq, hnd, hnew, hidx, hall, hleave, hU⟩ :=
      ih (fun v hv => hlt v (List.mem_cons_of_mem _ hv))
    have hunf : scanSuccessors (x :: xs) ⟨index, queue, true⟩
        = pushSuccessor x (scanSuccessors xs ⟨index, queue, true⟩) := rfl
    rw [hunf]
    generalize scanSuccessors xs ⟨index, queue, true⟩ = r at hq hnd hnew hidx hall hleave hU
    by_cases hx : r.index x = none
    · have hpush : pushSuccessor x r
          = { index := setAt r.index x (some 0), queue := x :: r.queue, leaving := false } := by
        simp [pushSuccessor, hx]
      rw [hpush]
      have hxnew : x ∉ new := by
        intro hmem
        have := hidx x
        rw [if_pos hmem, hx] at this
        cases this
      have hxi : index x = none := by
        have := hidx x
        rw [if_neg hxnew, hx] at this
        exact this.symm
      refine ⟨x :: new, by simp [hq], List.nodup_cons.mpr ⟨hxnew, hnd⟩, ?_, ?_, ?_, by simp, ?_⟩
      · intro v hv
        rcases List.mem_cons.mp hv with rfl | hv
        · exact ⟨List.mem_cons_self _ _, hxi⟩
        · exact ⟨List.mem_cons_of_mem _ (hnew v hv).1, (hnew v hv).2⟩
      · intro v
        by_cases hvx : v = x
        · subst hvx; simp
        · simp only [setAt_ne _ _ hvx, hidx v, List.mem_cons, hvx, false_or]
      · intro v hv
        by_cases hvx : v = x
        · subst hvx; simp
        · simp only [setAt_ne _ _ hvx]
          rcases List.mem_cons.mp hv with h | h
          · exact absurd h hvx
          · exact hall v h
      · have := undiscovered_mark g r.index x 0 hx (hlt x (List.mem_cons_self _ _))
        simp only [List.length_cons]
        omega
    · have hpush : pushSuccessor x r = r := by simp [pushSuccessor, hx]
      rw [hpush]
      refine ⟨new, hq, hnd, ?_, hidx, ?_, hleave, hU⟩
      · intro v hv
        exact ⟨List.mem_cons_of_mem _ (hnew v hv).1, (hnew v hv).2⟩
      · intro v hv
        rcases List.mem_cons.mp hv with rfl | h
        · exact hx
        · exact hall v h

theorem StackOK.tail {g : Pipeline} {x : Nat} {rest : List Nat} (h : StackOK g (x :: rest)) :
    StackOK g rest := by
  cases rest with
  | nil => trivial
  | cons y r => exact h.2

theorem StackOK.push {g : Pipeline} {block : Nat} {rest : List Nat}
    (h : StackOK g (block :: rest)) :
    ∀ new : List Nat, (∀ x ∈ new, x ∈ (g.block block).successors) →
      StackOK g (new ++ block :: rest) := by
  intro new
  induction new with
  | nil => intro _; exact h
  | cons a l ih =>
    intro hn
    have ih' := ih (fun x hx => hn x (List.mem_cons_of_mem _ hx))
    have hmem : block ∈ l ++ block :: rest := by simp
    cases hl : l ++ block :: rest with
    | nil => rw [hl] at hmem; cases hmem
    | cons y r =>
      rw [hl] at ih' hmem
      show StackOK g (a :: (l ++ block :: rest))
      rw [hl]
      exact ⟨⟨block, hmem, hn a (List.mem_cons_self _ _)⟩, ih'⟩

theorem StackOK.pusher {g : Pipeline} {x : Nat} {rest : List Nat} (h : StackOK g (x :: rest))
    (hx : x ≠ 0) : ∃ p ∈ rest, x ∈ (g.block p).successors := by
  cases rest with
  | nil => exact absurd h hx
  | cons y r => exact h.1

theorem StackOK.bottom {g : Pipeline} {x : Nat} (h : StackOK g [x]) : x = 0 := h

/-- One iteration of the loop of `enumerate` keeps the invariant and decreases the
measure `2 * undiscovered + queue.length`. -/
theorem enumStep_spec (g : Pipeline) (wf : WellFormed g) (e : EnumState) (hinv : EnumInv g e)
    (hc : (!e.queue.isEmpty) = true) :
    ∃ e', enumStep g e = some e' ∧ EnumInv g e' ∧
      2 * undiscovered g e'.index + e'.queue.length
        < 2 * undiscovered g e.index + e.queue.length := by
  cases hq : e.queue with
  | nil => simp [hq] at hc
  | cons block rest =>
    have hbq : block ∈ e.queue := by rw [hq]; exact List.mem_cons_self _ _
    have hbi : e.index block = some 0 := (hinv.onQueue block hbq).1
    have hbreach : Reachable g block := hinv.reach block (by rw [hbi]; simp)
    have hlt : ∀ v ∈ (g.block block).successors, v < g.blocks.length :=
      fun v hv => wf.2.1 block (hbreach.lt wf) v hv
    obtain ⟨new, hrq, hnd, hnew, hidx, hall, hleave, hU⟩ :=
      scan_spec g (g.block block).successors e.index e.queue hlt
    have hstep : enumStep g e =
        (let r := scanSuccessors (g.block block).successors ⟨e.index, e.queue, true⟩
         if r.leaving then
            some { queue := r.queue.tail
                   vertex := setAt e.vertex e.next (some block)
                   index := setAt r.index block (some e.next)
                   next := e.next + 1 }
         else some { e with index := r.index, queue := r.queue }) := by
      simp only [enumStep, hq]
    rw [hstep]
    generalize scanSuccessors (g.block block).successors ⟨e.index, e.queue, true⟩ = r
      at hrq hidx hall hleave hU
    have hnodup := hinv.nodup
    rw [hq] at hnodup
    have hbrest : block ∉ rest := (List.nodup_cons.mp hnodup).1
    have hstack := hinv.stack
    rw [hq] at hstack
    by_cases hl : r.leaving = true
    · -- the top block is numbered and popped
      have hnil : new = [] := hleave.mp hl
      subst hnil
      have hri : r.index = e.index := by
        funext v; simpa using hidx v
      have hrq' : r.queue = block :: rest := by rw [hrq, hq]; rfl
      simp only [hl, if_true, hri, hrq', List.tail_cons]
      refine ⟨_, rfl, ?_, ?_⟩
      · constructor
        · exact (List.nodup_cons.mp hnodup).2
        · intro b hb
          have hbb : b ≠ block := fun h => hbrest (h ▸ hb)
          have hold := hinv.onQueue b (by rw [hq]; exact List.mem_cons_of_mem _ hb)
          refine ⟨by simp only [setAt_ne _ _ hbb]; exact hold.1, ?_⟩
          intro k hk
          by_cases hkn : k = e.next
          · subst hkn
            simp only [setAt_same]
            intro h; exact hbb (Option.some.inj h).symm
          · simp only [setAt_ne _ _ hkn]
            exact hold.2 k (by simp only at hk; omega)
        · intro k hk
          by_cases hkn : k = e.next
          · subst hkn
            exact ⟨block, by simp, by simp⟩
          · obtain ⟨b, hv, hi⟩ := hinv.numbered k (by simp only at hk; omega)
            have hbb : b ≠ block := by
              intro h
              subst h
              exact (hinv.onQueue b hbq).2 k (by simp only at hk; omega) hv
            exact ⟨b, by simp only [setAt_ne _ _ hkn]; exact hv,
              by simp only [setAt_ne _ _ hbb]; exact hi⟩
        · intro b k hbk
          by_cases hbb : b = block
          · subst hbb
            simp only [setAt_same] at hbk
            cases hbk
            exact Or.inr ⟨by simp, by simp⟩
          · simp only [setAt_ne _ _ hbb] at hbk
            rcases hinv.discovered b k hbk with h | ⟨h1, h2⟩
            · rw [hq] at h
              rcases List.mem_cons.mp h with h | h
              · exact absurd h hbb
              · exact Or.inl h
            · refine Or.inr ⟨by simp only; omega, ?_⟩
              have : k ≠ e.next := by omega
              simp only [setAt_ne _ _ this]
              exact h2
        · intro b hb
          by_cases hbb : b = block
          · subst hbb; exact hbreach
          · simp only [setAt_ne _ _ hbb] at hb
            exact hinv.reach b hb
        · intro k hk u hu v hv
          have hmono : e.index v ≠ none → setAt e.index block (some e.next) v ≠ none := by
            intro h
            by_cases hvb : v = block
            · subst hvb; simp
            · simp only [setAt_ne _ _ hvb]; exact h
          apply hmono
          by_cases hkn : k = e.next
          · subst hkn
            simp only [setAt_same] at hu
            cases hu
            have := hall v hv
            rwa [hri] at this
          · simp only [setAt_ne _ _ hkn] at hu
            exact hinv.closed k (by simp only at hk; omega) u hu v hv
        · exact hstack.tail
        · by_cases h0 : (0 : Nat) = block
          · subst h0; simp
          · simp only [setAt_ne _ _ h0]; exact hinv.entry
        · intro hr
          simp only at hr
          subst hr
          have : block = 0 := hstack.bottom
          subst this
          simp
        · intro k hk b hb hb0
          by_cases hkn : k = e.next
          · subst hkn
            simp only [setAt_same] at hb
            cases hb
            obtain ⟨p, hp, hps⟩ := hstack.pusher hb0
            exact ⟨p, hps, Or.inl hp⟩
          · simp only [setAt_ne _ _ hkn] at hb
            have hk' : k < e.next := by simp only at hk; omega
            obtain ⟨p, hps, hp⟩ := hinv.pushed k hk' b hb hb0
            refine ⟨p, hps, ?_⟩
            rcases hp with hp | ⟨kp, h1, h2, h3⟩
            · rw [hq] at hp
              rcases List.mem_cons.mp hp with hp | hp
              · subst hp
                exact Or.inr ⟨e.next, hk', by simp, by simp⟩
              · exact Or.inl hp
            · have : kp ≠ e.next := by omega
              exact Or.inr ⟨kp, h1, by simp only; omega,
                by simp only [setAt_ne _ _ this]; exact h3⟩
      · simp only
        rw [undiscovered_remark g e.index block e.next (by rw [hbi]; simp)]
        simp
    · -- undiscovered successors were pushed
      have hne : new ≠ [] := fun h => hl (hleave.mpr h)
      simp only [hl]
      refine ⟨_, rfl, ?_, ?_⟩
      · have hnone : ∀ b, b ∈ new → e.index b = none := fun b hb => (hnew b hb).2
        have hkeep : ∀ b, e.index b ≠ none → r.index b = e.index b := by
          intro b hb
          rw [hidx b, if_neg (fun h => hb (hnone b h))]
        have hmono : ∀ b, e.index b ≠ none → r.index b ≠ none := by
          intro b hb; rw [hkeep b hb]; exact hb
        constructor
        · show (r.queue).Nodup
          rw [hrq]
          refine List.Nodup.append hnd hinv.nodup ?_
          intro b hb1 hb2
          have := (hinv.onQueue b hb2).1
          rw [hnone b hb1] at this
          cases this
        · intro b hb
          have hb' : b ∈ new ++ e.queue := by
            have : b ∈ r.queue := hb
            rwa [hrq] at this
          refine ⟨?_, ?_⟩
          · show r.index b = some 0
            rw [hidx b]
            by_cases hbn : b ∈ new
            · rw [if_pos hbn]
            · rw [if_neg hbn]
              rcases List.mem_append.mp hb' with h | h
              · exact absurd h hbn
              · exact (hinv.onQueue b h).1
          · intro k hk hv
            rcases List.mem_append.mp hb' with h | h
            · obtain ⟨b', hv', hi'⟩ := hinv.numbered k hk
              rw [hv] at hv'
              cases hv'
              rw [hnone b h] at hi'
              cases hi'
            · exact (hinv.onQueue b h).2 k hk hv
        · intro k hk
          obtain ⟨b, hv, hi⟩ := hinv.numbered k hk
          refine ⟨b, hv, ?_⟩
          show r.index b = some k
          rw [hkeep b (by rw [hi]; simp)]
          exact hi
        · intro b k hbk
          have hbk' : r.index b = some k := hbk
          show b ∈ r.queue ∨ _
          rw [hrq]
          by_cases hbn : b ∈ new
          · exact Or.inl (List.mem_append_left _ hbn)
          · rw [hidx b, if_neg hbn] at hbk'
            rcases hinv.discovered b k hbk' with h | h
            · exact Or.inl (List.mem_append_right _ h)
            · exact Or.inr h
        · intro b hb
          have hb' : r.index b ≠ none := hb
          by_cases hbn : b ∈ new
          · exact hbreach.step (hnew b hbn).1
          · rw [hidx b, if_neg hbn] at hb'
            exact hinv.reach b hb'
        · intro k hk u hu v hv
          exact hmono v (hinv.closed k hk u hu v hv)
        · show StackOK g r.queue
          rw [hrq, hq]
          exact hstack.push new (fun x hx => (hnew x hx).1)
        · exact hmono 0 hinv.entry
        · intro hr
          have : r.queue = [] := hr
          rw [hrq] at this
          exact absurd (List.append_eq_nil.mp this).1 hne
        · intro k hk b hb hb0
          obtain ⟨p, hps, hp⟩ := hinv.pushed k hk b hb hb0
          refine ⟨p, hps, ?_⟩
          rcases hp with hp | hp
          · left
            show p ∈ r.queue
            rw [hrq]
            exact List.mem_append_right _ hp
          · exact Or.inr hp
      · show 2 * undiscovered g r.index + r.queue.length < _
        rw [hrq, hq]
        have : 0 < new.length := List.length_pos.mpr hne
        simp only [List.length_append]
        omega

/-- When the top block `u` of the stack is popped and numbered, every successor of `u`
other than `u` itself is still on the stack beneath `u` or already has its final index. -/
theorem enumStep_pop (g : Pipeline) (wf : WellFormed g) (e : EnumState) (hinv : EnumInv g e)
    (u : Nat) (rest : List Nat) (hq : e.queue = u :: rest)
    (hleave : (scanSuccessors (g.block u).successors ⟨e.index, e.queue, true⟩).leaving = true) :
    ∀ v ∈ (g.block u).successors,
      v = u ∨ v ∈ rest ∨ ∃ k, k < e.next ∧ e.vertex k = some v := by
  have hbq : u ∈ e.queue := by rw [hq]; exact List.mem_cons_self _ _
  have hbi : e.index u = some 0 := (hinv.onQueue u hbq).1
  have hreach : Reachable g u := hinv.reach u (by rw [hbi]; simp)
  obtain ⟨new, _, _, _, hidx, hall, hl, _⟩ :=
    scan_spec g (g.block u).successors e.index e.queue
      (fun v hv => wf.2.1 u (hreach.lt wf) v hv)
  have hnil : new = [] := hl.mp hleave
  subst hnil
  intro v hv
  have hne := hall v hv
  rw [hidx v] at hne
  simp only [List.not_mem_nil, if_false] at hne
  obtain ⟨k, hk⟩ := Option.ne_none_iff_exists'.mp hne
  rcases hinv.discovered v k hk with h | h
  · rw [hq] at h
    rcases List.mem_cons.mp h with h | h
    · exact Or.inl h
    · exact Or.inr (Or.inl h)
  · exact Or.inr (Or.inr ⟨k, h⟩)

theorem enumInv_init (g : Pipeline) :
    EnumInv g { queue := [0], index := setAt (fun _ => none) 0 (some 0),
                vertex := fun _ => none, next := 0 } := by
  constructor
  · simp
  · intro b hb
    simp only [List.mem_singleton] at hb
    subst hb
    simp
  · intro k hk; simp only at hk; omega
  · intro b k h
    by_cases hb : b = 0
    · subst hb; simp
    · simp [setAt_ne _ _ hb] at h
  · intro b h
    by_cases hb : b = 0
    · subst hb; exact reachable_entry g
    · simp [setAt_ne _ _ hb] at h
  · intro k hk; simp only at hk; omega
  · show (0 : Nat) = 0
    rfl
  · simp
  · intro h; simp at h
  · intro k hk; simp only at hk; omega

theorem enumInv_exit (g : Pipeline) (s : Frontier) (e : EnumState) (hinv : EnumInv g e)
    (hq : e.queue = []) :
    Enumerated g { s with vertex := e.vertex, index := e.index, count := e.next,
                          doms := setAt s.doms (e.next - 1) (some (e.next - 1)) } := by
  have hfin : ∀ b k, e.index b = some k → k < e.next ∧ e.vertex k = some b := by
    intro b k h
    rcases hinv.discovered b k h with h | h
    · rw [hq] at h; cases h
    · exact h
  obtain ⟨hpos, hbot⟩ := hinv.bottom hq
  constructor
  · exact hpos
  · obtain ⟨b, hv, hi⟩ := hinv.numbered (e.next - 1) (by omega)
    rw [hbot] at hv
    cases hv
    exact hi
  · intro b
    refine ⟨hinv.reach b, fun h => ?_⟩
    refine Reachable.closure (fun b => e.index b ≠ none) hinv.entry ?_ h
    intro u v hu hv
    obtain ⟨k, hk⟩ := Option.ne_none_iff_exists'.mp hu
    obtain ⟨h1, h2⟩ := hfin u k hk
    exact hinv.closed k h1 u h2 v hv
  · exact hfin
  · exact hinv.numbered
  · intro b k hbk hb0
    obtain ⟨h1, h2⟩ := hfin b k hbk
    obtain ⟨p, hps, hp⟩ := hinv.pushed k h1 b h2 hb0
    rcases hp with hp | ⟨kp, h3, h4, h5⟩
    · rw [hq] at hp; cases hp
    · obtain ⟨b', hv, hi⟩ := hinv.numbered kp h4
      rw [h5] at hv
      cases hv
      exact ⟨p, kp, hps, hi, h3⟩

/-- Total correctness of `enumerate` on a fresh `Frontier` object. -/
theorem enumerate_spec (g : Pipeline) (wf : WellFormed g) :
    (∀ fuel, 2 * g.blocks.length < fuel → ∃ s, enumerate fuel g (Frontier.create g) = some s) ∧
    (∀ fuel s, enumerate fuel g (Frontier.create g) = some s →
      Enumerated g s ∧ s.children = [] ∧ s.frontiers = [] ∧
      (∀ i j, s.frontier i j = false) ∧
      (∀ i, s.doms i = if i = s.count - 1 then some (s.count - 1) else none)) := by
  have hstep := enumStep_spec g wf
  constructor
  · intro fuel hfuel
    have hinit := enumInv_init g
    obtain ⟨e, he⟩ := whileLoop_total (EnumInv g)
      (fun e => 2 * undiscovered g e.index + e.queue.length)
      (fun a ha hc => hstep a ha hc) fuel _ hinit (by
        have : undiscovered g (setAt (fun _ => none) 0 (some 0)) + 1
            = undiscovered g (fun _ => none) :=
          undiscovered_mark g _ 0 0 rfl wf.1
        have h2 : undiscovered g (fun _ => none) = g.blocks.length := by
          simp [undiscovered]
        simp only [List.length_singleton]
        omega)
    simp only [enumerate, enumLoop, Frontier.create]
    rw [he]
    exact ⟨_, rfl⟩
  · intro fuel s hs
    simp only [enumerate, enumLoop, Option.map_eq_some'] at hs
    obtain ⟨e, he, rfl⟩ := hs
    have := whileLoop_inv (EnumInv g)
      (fun a b ha hc hb => by
        obtain ⟨b', hb', hi, _⟩ := hstep a ha hc
        rw [hb] at hb'
        cases hb'
        exact hi) fuel _ e (enumInv_init g) he
    obtain ⟨hinv, hc⟩ := this
    have hq : e.queue = [] := by
      simpa using hc
    refine ⟨enumInv_exit g _ e hinv hq, rfl, rfl, fun _ _ => rfl, ?_⟩
    intro i
    simp [setAt_apply, Frontier.create]

/-! ## Chains of `doms` links -/

theorem Chain.trans {d : Nat → Option Nat} {a b c : Nat} (h1 : Chain d a b)
    (h2 : Chain d b c) : Chain d a c := by
  induction h1 with
  | refl => exact h2
  | step h _ ih => exact Chain.step h (ih h2)

theorem Chain.single {d : Nat → Option Nat} {a b : Nat} (h : d a = some b) : Chain d a b :=
  Chain.step h (Chain.refl b)

theorem Chain.mono_le {d : Nat → Option Nat} (hmono : ∀ x y, d x = some y → x ≤ y)
    {a z : Nat} (h : Chain d a z) : a ≤ z := by
  induction h with
  | refl => exact le_rfl
  | step h _ ih => exact le_trans (hmono _ _ h) ih

theorem Forest.mono {d : Nat → Option Nat} {N : Nat} (F : Forest d N) :
    ∀ x y, d x = some y → x ≤ y := by
  intro x y h
  by_cases hx : x < N
  · exact le_of_lt (F.up x y h hx)
  · have h1 := (F.bound x y h).1
    have hxN : x = N := by omega
    subst hxN
    rw [F.root] at h
    cases h
    exact le_rfl

theorem Chain.le {d : Nat → Option Nat} {N : Nat} (F : Forest d N) {a z : Nat}
    (h : Chain d a z) : a ≤ z :=
  h.mono_le F.mono

theorem Chain.unset {d : Nat → Option Nat} {a z : Nat} (h : Chain d a z) (ha : d a = none) :
    z = a := by
  cases h with
  | refl => rfl
  | step h _ => rw [ha] at h; cases h

theorem Chain.isSet {d : Nat → Option Nat} {N : Nat} (F : Forest d N) {a z : Nat}
    (h : Chain d a z) (ha : d a ≠ none) : d z ≠ none := by
  induction h with
  | refl => exact ha
  | step h _ ih => exact ih (F.closed _ _ h)

theorem Chain.le_root {d : Nat → Option Nat} {N : Nat} (F : Forest d N) {a z : Nat}
    (h : Chain d a z) (ha : a ≤ N) : z ≤ N := by
  induction h with
  | refl => exact ha
  | step h _ ih => exact ih (F.bound _ _ h).2

theorem Chain.of_root {d : Nat → Option Nat} {N : Nat} (F : Forest d N) {z : Nat}
    (h : Chain d N z) : z = N :=
  le_antisymm (h.le_root F le_rfl) (h.le F)

/-- Two points of one chain are themselves chained, the smaller one first. -/
theorem Chain.inv {d : Nat → Option Nat} {a z : Nat} (h : Chain d a z) :
    z = a ∨ ∃ a', d a = some a' ∧ Chain d a' z := by
  cases h with
  | refl => exact Or.inl rfl
  | step h h' => exact Or.inr ⟨_, h, h'⟩

theorem Chain.linear {d : Nat → Option Nat} {N : Nat} (F : Forest d N) {a y z : Nat}
    (h1 : Chain d a y) (h2 : Chain d a z) (hyz : y ≤ z) : Chain d y z := by
  induction h1 with
  | refl => exact h2
  | @step a a' y h h1 ih =>
    rcases h2.inv with h2 | ⟨a'', h', h2⟩
    · have h3 := F.mono _ _ h
      have h4 := h1.le F
      have : y = z := by omega
      subst this
      exact Chain.refl _
    · rw [h] at h'
      cases h'
      exact ih h2 hyz

/-- Every assigned slot is chained to the root. -/
theorem Chain.to_root {d : Nat → Option Nat} {N : Nat} (F : Forest d N) :
    ∀ (k a : Nat), N - a ≤ k → d a ≠ none → Chain d a N := by
  intro k
  induction k with
  | zero =>
    intro a hk ha
    obtain ⟨j, hj⟩ := Option.ne_none_iff_exists'.mp ha
    have := (F.bound a j hj).1
    have : a = N := by omega
    subst this
    exact Chain.refl _
  | succ k ih =>
    intro a hk ha
    obtain ⟨j, hj⟩ := Option.ne_none_iff_exists'.mp ha
    by_cases haN : a < N
    · have := F.up a j hj haN
      exact Chain.step hj (ih j (by omega) (F.closed a j hj))
    · have := (F.bound a j hj).1
      have : a = N := by omega
      subst this
      exact Chain.refl _

theorem Chain.root {d : Nat → Option Nat} {N : Nat} (F : Forest d N) {a : Nat}
    (ha : d a ≠ none) : Chain d a N :=
  Chain.to_root F (N - a) a le_rfl ha

/-- Above a threshold, the chains of two arrays that agree there are the same. -/
theorem Chain.above {d d' : Nat → Option Nat} {i : Nat} (hagree : ∀ x, i < x → d x = d' x)
    (hmono : ∀ x y, d x = some y → x ≤ y) {x z : Nat} (h : Chain d x z) (hx : i < x) :
    Chain d' x z := by
  induction h with
  | refl => exact Chain.refl _
  | @step a a' z h _ ih =>
    have := hmono _ _ h
    exact Chain.step (by rw [← hagree a hx]; exact h) (ih (by omega))

/-! ## `intersect` -/

/-- The inner loop of `intersect` walks to the first chain point that is not below the
bound. -/
theorem advance_spec {d : Nat → Option Nat} {N : Nat} (F : Forest d N) (fuel bound f : Nat)
    (hfuel : N < fuel) (hf : d f ≠ none) (hb : bound ≤ N) :
    ∃ f', advance d fuel bound f = some f' ∧ Chain d f f' ∧ bound ≤ f' ∧
      ∀ z, Chain d f z → bound ≤ z → Chain d f' z := by
  let Inv : Nat → Prop := fun x =>
    Chain d f x ∧ d x ≠ none ∧ ∀ z, Chain d f z → bound ≤ z → Chain d x z
  have hstep : ∀ a, Inv a → decide (a < bound) = true →
      ∃ b, d a = some b ∧ Inv b ∧ N - b < N - a := by
    intro a ⟨h1, h2, h3⟩ hc
    have hab : a < bound := by simpa using hc
    obtain ⟨b, hb'⟩ := Option.ne_none_iff_exists'.mp h2
    have hlt := F.up a b hb' (by omega)
    have hbN := (F.bound a b hb').2
    refine ⟨b, hb', ⟨h1.trans (Chain.single hb'), F.closed a b hb', ?_⟩, by omega⟩
    intro z hz hbz
    rcases (h3 z hz hbz).inv with h' | ⟨a'', h', h2'⟩
    · omega
    · rw [hb'] at h'
      cases h'
      exact h2'
  have hinit : Inv f := ⟨Chain.refl _, hf, fun z hz _ => hz⟩
  obtain ⟨f', hf'⟩ := whileLoop_total Inv (fun x => N - x) hstep fuel f hinit
    (by simp only; omega)
  obtain ⟨⟨h1, _, h3⟩, hc⟩ := whileLoop_inv Inv
    (fun a b ha hc hb => by
      obtain ⟨b', hb1, hb2, _⟩ := hstep a ha hc
      rw [hb] at hb1
      cases hb1
      exact hb2) fuel f f' hinit hf'
  refine ⟨f', hf', h1, ?_, h3⟩
  simpa using hc

/-- With both fingers on assigned slots, `intersect` returns the nearest common point
of their chains. -/
theorem intersect_spec {d : Nat → Option Nat} {N : Nat} (F : Forest d N) (fuel a b : Nat)
    (hfuel : 2 * N < fuel) (ha : d a ≠ none) (hb : d b ≠ none) :
    ∃ m, intersect d fuel a b = some m ∧ Chain d a m ∧ Chain d b m ∧
      ∀ z, Chain d a z → Chain d b z → Chain d m z := by
  let Inv : Nat × Nat → Prop := fun f =>
    Chain d a f.1 ∧ Chain d b f.2 ∧ d f.1 ≠ none ∧ d f.2 ≠ none ∧
      ∀ z, Chain d a z → Chain d b z → Chain d f.1 z ∧ Chain d f.2 z
  have hbnd : ∀ x, d x ≠ none → x ≤ N := by
    intro x hx
    obtain ⟨j, hj⟩ := Option.ne_none_iff_exists'.mp hx
    exact (F.bound x j hj).1
  have hstep : ∀ f, Inv f → decide (f.1 ≠ f.2) = true →
      ∃ f', ((advance d fuel f.2 f.1).bind fun f1 =>
          (advance d fuel f1 f.2).bind fun f2 => some (f1, f2)) = some f' ∧ Inv f' ∧
        2 * N - (f'.1 + f'.2) < 2 * N - (f.1 + f.2) := by
    intro ⟨f1, f2⟩ ⟨h1, h2, h3, h4, h5⟩ hc
    have hne : f1 ≠ f2 := by simpa using hc
    obtain ⟨g1, hg1, c1, b1, m1⟩ :=
      advance_spec F fuel f2 f1 (by omega) h3 (hbnd f2 h4)
    have hg1set := c1.isSet F h3
    obtain ⟨g2, hg2, c2, b2, m2⟩ :=
      advance_spec F fuel g1 f2 (by omega) h4 (hbnd g1 hg1set)
    have hg2set := c2.isSet F h4
    refine ⟨(g1, g2), ?_, ⟨h1.trans c1, h2.trans c2, hg1set, hg2set, ?_⟩, ?_⟩
    · simp [hg1, hg2]
    · intro z hz1 hz2
      obtain ⟨k1, k2⟩ := h5 z hz1 hz2
      have hz : Chain d g1 z := m1 z k1 (k2.le F)
      exact ⟨hz, m2 z k2 (hz.le F)⟩
    · have e1 := c1.le F
      have e2 := c2.le F
      have := hbnd g1 hg1set
      have := hbnd g2 hg2set
      simp only at b1 b2 ⊢
      by_cases hlt : f1 < f2
      · omega
      · have : g1 = f1 := by
          have := (m1 f1 (Chain.refl _) (by omega)).le F
          omega
        omega
  have hinit : Inv (a, b) := ⟨Chain.refl _, Chain.refl _, ha, hb, fun z h1 h2 => ⟨h1, h2⟩⟩
  obtain ⟨f', hf'⟩ := whileLoop_total Inv (fun f => 2 * N - (f.1 + f.2)) hstep fuel (a, b)
    hinit (by simp only; omega)
  obtain ⟨⟨h1, h2, _, _, h5⟩, hc⟩ := whileLoop_inv Inv
    (fun x y hx hc hy => by
      obtain ⟨y', hy1, hy2, _⟩ := hstep x hx hc
      rw [hy] at hy1
      cases hy1
      exact hy2) fuel (a, b) f' hinit hf'
  have heq : f'.1 = f'.2 := by simpa using hc
  refine ⟨f'.1, ?_, h1, by rw [heq]; exact h2, fun z hz1 hz2 => (h5 z hz1 hz2).1⟩
  simp only [intersect, hf', Option.map_some']

/-! ## The fold over the predecessors -/

theorem foldIdom_spec {d : Nat → Option Nat} {N : Nat} (s : Frontier) (hd : s.doms = d)
    (F : Forest d N) (fuel : Nat) (hfuel : 2 * N < fuel) (Q : List Nat) (acc : Option Nat)
    (hacc : Folded d Q acc) (pred : Nat) :
    ∃ acc', foldIdom fuel s acc pred = some acc' ∧
      Folded d (Q ++ (s.index pred).toList) acc' := by
  subst hd
  unfold foldIdom
  cases hp : s.index pred with
  | none => exact ⟨acc, rfl, by simpa using hacc⟩
  | some p =>
    simp only [Option.toList_some]
    cases hdp : s.doms p with
    | none =>
      refine ⟨acc, rfl, ?_⟩
      cases acc with
      | none =>
        intro q hq
        rcases List.mem_append.mp hq with h | h
        · exact hacc q h
        · simp only [List.mem_singleton] at h
          subst h
          exact hdp
      | some c =>
        obtain ⟨⟨q, hq, hqs⟩, h2, h3⟩ := hacc
        refine ⟨⟨q, List.mem_append_left _ hq, hqs⟩, ?_, ?_⟩
        · intro q hq hqs
          rcases List.mem_append.mp hq with h | h
          · exact h2 q h hqs
          · simp only [List.mem_singleton] at h
            subst h
            exact absurd hdp hqs
        · intro z hz
          exact h3 z (fun q hq hqs => hz q (List.mem_append_left _ hq) hqs)
    | some dp =>
      have hpset : s.doms p ≠ none := by rw [hdp]; simp
      cases acc with
      | none =>
        refine ⟨some p, rfl, ⟨p, by simp, hpset⟩, ?_, ?_⟩
        · intro q hq hqs
          rcases List.mem_append.mp hq with h | h
          · exact absurd (hacc q h) hqs
          · simp only [List.mem_singleton] at h
            subst h
            exact Chain.refl _
        · intro z hz
          exact hz p (by simp) hpset
      | some cur =>
        obtain ⟨⟨q, hq, hqs⟩, h2, h3⟩ := hacc
        have hcur : s.doms cur ≠ none := (h2 q hq hqs).isSet F hqs
        obtain ⟨m, hm, c1, c2, hmin⟩ := intersect_spec F fuel p cur hfuel hpset hcur
        refine ⟨some m, by simp only [hm, Option.map_some'], ⟨p, by simp, hpset⟩, ?_, ?_⟩
        · intro q hq hqs
          rcases List.mem_append.mp hq with h | h
          · exact (h2 q h hqs).trans c2
          · simp only [List.mem_singleton] at h
            subst h
            exact c1
        · intro z hz
          refine hmin z (hz p (by simp) hpset) (h3 z ?_)
          intro q hq hqs
          exact hz q (List.mem_append_left _ hq) hqs

theorem foldIdom_list {d : Nat → Option Nat} {N : Nat} (s : Frontier) (hd : s.doms = d)
    (F : Forest d N) (fuel : Nat) (hfuel : 2 * N < fuel) (preds : List Nat) :
    ∀ (Q : List Nat) (acc : Option Nat), Folded d Q acc →
      ∃ acc', preds.foldlM (foldIdom fuel s) acc = some acc' ∧
        Folded d (Q ++ preds.filterMap s.index) acc' := by
  induction preds with
  | nil => intro Q acc hacc; exact ⟨acc, rfl, by simpa using hacc⟩
  | cons x xs ih =>
    intro Q acc hacc
    obtain ⟨acc1, h1, h2⟩ := foldIdom_spec s hd F fuel hfuel Q acc hacc x
    obtain ⟨acc2, h3, h4⟩ := ih _ acc1 h2
    refine ⟨acc2, ?_, ?_⟩
    · simp only [List.foldlM_cons, h1, Option.bind_eq_bind, Option.some_bind, h3]
    · have : Q ++ (x :: xs).filterMap s.index
          = Q ++ (s.index x).toList ++ xs.filterMap s.index := by
        cases hx : s.index x <;> simp [List.filterMap_cons, hx]
      rw [this]
      exact h4

/-! ## One pass of `computeOne` -/

theorem setAt_self {α : Type} (a : Nat → α) (i : Nat) (v : α) (h : a i = v) :
    setAt a i v = a := by
  funext x
  by_cases hx : x = i
  · subst hx; simp [h]
  · simp [setAt_ne _ _ hx]

theorem Forest.assign {d : Nat → Option Nat} {N : Nat} (F : Forest d N) {i c : Nat}
    (hi : i < N) (hic : i < c) (hc : d c ≠ none) : Forest (setAt d i (some c)) N := by
  have hcN : c ≤ N := by
    obtain ⟨j, hj⟩ := Option.ne_none_iff_exists'.mp hc
    exact (F.bound c j hj).1
  constructor
  · rw [setAt_ne _ _ (by omega)]; exact F.root
  · intro x y h hx
    by_cases hxi : x = i
    · subst hxi
      simp only [setAt_same] at h
      cases h
      exact hic
    · rw [setAt_ne _ _ hxi] at h
      exact F.up x y h hx
  · intro x y h
    by_cases hxi : x = i
    · subst hxi
      simp only [setAt_same] at h
      cases h
      exact ⟨by omega, hcN⟩
    · rw [setAt_ne _ _ hxi] at h
      exact F.bound x y h
  · intro x y h
    have hy : d y ≠ none := by
      by_cases hxi : x = i
      · subst hxi
        simp only [setAt_same] at h
        cases h
        exact hc
      · rw [setAt_ne _ _ hxi] at h
        exact F.closed x y h
    by_cases hyi : y = i
    · subst hyi; simp
    · rw [setAt_ne _ _ hyi]; exact hy

/-- The entry block is the only block at the root index. -/
theorem Enumerated.vertex_root {g : Pipeline} {s : Frontier} (hE : Enumerated g s) :
    s.vertex (s.count - 1) = some 0 :=
  (hE.index_lt 0 _ hE.entry_index).2

theorem Enumerated.index_inj {g : Pipeline} {s : Frontier} (hE : Enumerated g s)
    {a b k : Nat} (ha : s.index a = some k) (hb : s.index b = some k) : a = b := by
  have h1 := (hE.index_lt a k ha).2
  have h2 := (hE.index_lt b k hb).2
  rw [h1] at h2
  exact Option.some.inj h2

theorem Enumerated.vertex_inj {g : Pipeline} {s : Frontier} (hE : Enumerated g s)
    {i j b : Nat} (hi : i < s.count) (hj : j < s.count) (h1 : s.vertex i = some b)
    (h2 : s.vertex j = some b) : i = j := by
  obtain ⟨b1, hv1, hi1⟩ := hE.vertex_index i hi
  obtain ⟨b2, hv2, hi2⟩ := hE.vertex_index j hj
  rw [h1] at hv1
  rw [h2] at hv2
  cases hv1
  cases hv2
  rw [hi1] at hi2
  exact Option.some.inj hi2

/-- Every block below the root has a usable predecessor with a larger postorder index. -/
theorem Enumerated.pusherI {g : Pipeline} {s : Frontier} (wf : WellFormed g)
    (hE : Enumerated g s) {i : Nat} (hi : i < s.count - 1) :
    ∃ p ∈ predsI g s i, i < p ∧ p ≤ s.count - 1 := by
  obtain ⟨b, hv, hib⟩ := hE.vertex_index i (by omega)
  have hb0 : b ≠ 0 := by
    intro h
    subst h
    rw [hE.entry_index] at hib
    cases hib
    omega
  obtain ⟨p, kp, hps, hkp, hlt⟩ := hE.pusher b i hib hb0
  have hpr : Reachable g p := (hE.reach p).mp (by rw [hkp]; simp)
  have hbr : Reachable g b := (hE.reach b).mp (by rw [hib]; simp)
  have hpred : p ∈ (g.block b).predecessors :=
    (wf.2.2.2 p (hpr.lt wf) b (hbr.lt wf)).mp hps
  refine ⟨kp, ?_, hlt, ?_⟩
  · simp only [predsI, hv]
    exact List.mem_filterMap.mpr ⟨p, hpred, hkp⟩
  · have := (hE.index_lt p kp hkp).1
    omega

/-- The body of the loop of `computeOne` at a block below the root: the slot receives the
nearest common chain point of the usable predecessors, which lies above the slot. -/
theorem computeOneAt_spec {g : Pipeline} (wf : WellFormed g) {s0 : Frontier}
    (hE : Enumerated g s0) {d : Nat → Option Nat} (F : Forest d (s0.count - 1))
    (fuel : Nat) (hfuel : 2 * (s0.count - 1) < fuel) (i : Nat) (hi : i < s0.count - 1)
    (hset : ∀ j, i < j → j ≤ s0.count - 1 → d j ≠ none) (changed : Bool) :
    ∃ c, IsNCA d (predsI g s0 i) c ∧ i < c ∧
      computeOneAt fuel g ({ s0 with doms := d }, changed) i
        = some ({ s0 with doms := setAt d i (some c) },
                changed || decide (d i ≠ some c)) := by
  obtain ⟨b, hv, hib⟩ := hE.vertex_index i (by omega)
  obtain ⟨p, hp, hip, hpN⟩ := hE.pusherI wf hi
  obtain ⟨acc, hacc, hfold⟩ := foldIdom_list ({ s0 with doms := d }) rfl F fuel hfuel
    (g.block b).predecessors [] none (by intro p hp; cases hp)
  have hP : predsI g s0 i = (g.block b).predecessors.filterMap s0.index := by
    simp only [predsI, hv]
  simp only [List.nil_append] at hfold
  rw [← hP] at hfold
  cases acc with
  | none => exact absurd (hfold p hp) (hset p hip hpN)
  | some c =>
    have hc : IsNCA d (predsI g s0 i) c := hfold
    have hpc : Chain d p c := hc.2.1 p hp (hset p hip hpN)
    have hic : i < c := lt_of_lt_of_le hip (hpc.le F)
    refine ⟨c, hc, hic, ?_⟩
    simp only [computeOneAt, hv, Option.bind_eq_bind, Option.some_bind, hacc, hib]
    by_cases hdi : d i = some c
    · simp only [hdi, ne_eq, not_true_eq_false, if_false, decide_False, Bool.or_false]
      rw [setAt_self d i (some c) hdi]
    · simp only [ne_eq, hdi, not_false_eq_true, if_true, decide_True, Bool.or_true]

/-- The loop of `computeOne` over the slots `k-1, ..., 0`. -/
theorem computeOne_loop {g : Pipeline} (wf : WellFormed g) {s0 : Frontier}
    (hE : Enumerated g s0) (fuel : Nat) (hfuel : 2 * (s0.count - 1) < fuel)
    (Q : (Nat → Option Nat) → Prop)
    (hQ : ∀ d i c, Forest d (s0.count - 1) → i < s0.count - 1 →
      IsNCA d (predsI g s0 i) c → i < c → Q d → Q (setAt d i (some c))) :
    ∀ (k : Nat) (d : Nat → Option Nat) (changed : Bool), k ≤ s0.count - 1 →
      Forest d (s0.count - 1) → (∀ j, k ≤ j → j ≤ s0.count - 1 → d j ≠ none) → Q d →
      ∃ (T : Nat → Option Nat) (ch : Bool),
        (List.range k).reverse.foldlM (computeOneAt fuel g) ({ s0 with doms := d }, changed)
          = some ({ s0 with doms := T }, ch) ∧
        Forest T (s0.count - 1) ∧ Q T ∧
        (∀ j, k ≤ j → T j = d j) ∧
        (∀ j, j < k → ∃ c, T j = some c ∧ IsNCA (mix j T d) (predsI g s0 j) c) ∧
        (ch = true ↔ changed = true ∨ ∃ j, j < k ∧ T j ≠ d j) := by
  intro k
  induction k with
  | zero =>
    intro d changed _ F _ hQd
    refine ⟨d, changed, rfl, F, hQd, fun _ _ => rfl, fun j hj => absurd hj (by omega), ?_⟩
    constructor
    · intro h; exact Or.inl h
    · rintro (h | ⟨j, hj, _⟩)
      · exact h
      · omega
  | succ k ih =>
    intro d changed hk F hset hQd
    obtain ⟨c, hc, hkc, hstep⟩ := computeOneAt_spec wf hE F fuel hfuel k (by omega)
      (fun j hj hjN => hset j (by omega) hjN) changed
    have hcset : d c ≠ none := by
      obtain ⟨⟨p, hp, hps⟩, h2, _⟩ := hc
      exact (h2 p hp hps).isSet F hps
    have F' : Forest (setAt d k (some c)) (s0.count - 1) := F.assign (by omega) hkc hcset
    have hset' : ∀ j, k ≤ j → j ≤ s0.count - 1 → setAt d k (some c) j ≠ none := by
      intro j hj hjN
      by_cases hjk : j = k
      · subst hjk; simp
      · rw [setAt_ne _ _ hjk]; exact hset j (by omega) hjN
    obtain ⟨T, ch, hrun, FT, hQT, hkeep, hnca, hch⟩ :=
      ih (setAt d k (some c)) (changed || decide (d k ≠ some c)) (by omega) F' hset'
        (hQ d k c F (by omega) hc hkc hQd)
    have hTk : T k = some c := by rw [hkeep k le_rfl]; simp
    refine ⟨T, ch, ?_, FT, hQT, ?_, ?_, ?_⟩
    · rw [List.range_succ, List.reverse_append]
      simp only [List.reverse_cons, List.reverse_nil, List.nil_append, List.singleton_append,
        List.foldlM_cons, hstep, Option.bind_eq_bind, Option.some_bind]
      exact hrun
    · intro j hj
      rw [hkeep j (by omega), setAt_ne _ _ (by omega)]
    · intro j hj
      by_cases hjk : j = k
      · subst hjk
        refine ⟨c, hTk, ?_⟩
        have : mix j T d = d := by
          funext x
          simp only [mix]
          by_cases hx : j < x
          · rw [if_pos hx, hkeep x (by omega), setAt_ne _ _ (by omega)]
          · rw [if_neg hx]
        rw [this]
        exact hc
      · obtain ⟨cj, h1, h2⟩ := hnca j (by omega)
        refine ⟨cj, h1, ?_⟩
        have : mix j T d = mix j T (setAt d k (some c)) := by
          funext x
          simp only [mix]
          by_cases hx : j < x
          · rw [if_pos hx, if_pos hx]
          · rw [if_neg hx, if_neg hx, setAt_ne _ _ (by omega)]
        rw [this]
        exact h2
    · rw [hch]
      constructor
      · rintro (h | ⟨j, hj, hne⟩)
        · simp only [Bool.or_eq_true, decide_eq_true_eq] at h
          rcases h with h | h
          · exact Or.inl h
          · exact Or.inr ⟨k, by omega, by rw [hTk]; exact fun e => h e.symm⟩
        · refine Or.inr ⟨j, by omega, ?_⟩
          rwa [setAt_ne _ _ (by omega)] at hne
      · rintro (h | ⟨j, hj, hne⟩)
        · exact Or.inl (by simp [h])
        · by_cases hjk : j = k
          · subst hjk
            left
            simp only [Bool.or_eq_true, decide_eq_true_eq]
            right
            rw [hTk] at hne
            exact fun e => hne e.symm
          · exact Or.inr ⟨j, by omega, by rw [setAt_ne _ _ hjk]; exact hne⟩

/-- A whole pass of `computeOne`. -/
theorem computeOne_spec {g : Pipeline} (wf : WellFormed g) {s0 : Frontier}
    (hE : Enumerated g s0) (fuel : Nat) (hfuel : 2 * (s0.count - 1) < fuel)
    (Q : (Nat → Option Nat) → Prop)
    (hQ : ∀ d i c, Forest d (s0.count - 1) → i < s0.count - 1 →
      IsNCA d (predsI g s0 i) c → i < c → Q d → Q (setAt d i (some c)))
    (d : Nat → Option Nat) (F : Forest d (s0.count - 1)) (hQd : Q d) :
    ∃ (T : Nat → Option Nat) (ch : Bool),
      computeOne fuel g { s0 with doms := d } = some ({ s0 with doms := T }, ch) ∧
      Forest T (s0.count - 1) ∧ Q T ∧
      PassRel (predsI g s0) (s0.count - 1) d T ∧
      (ch = false → T = d) ∧ (ch = true → ∃ j, j < s0.count - 1 ∧ T j ≠ d j) := by
  obtain ⟨T, ch, hrun, FT, hQT, hkeep, hnca, hch⟩ :=
    computeOne_loop wf hE fuel hfuel Q hQ (s0.count - 1) d false le_rfl F (by
      intro j h1 h2
      have : j = s0.count - 1 := by omega
      subst this
      rw [F.root]; simp) hQd
  refine ⟨T, ch, hrun, FT, hQT, ⟨hkeep, hnca⟩, ?_, ?_⟩
  · intro h
    funext x
    by_cases hx : x < s0.count - 1
    · by_contra hne
      have : ch = true := hch.mpr (Or.inr ⟨x, hx, hne⟩)
      rw [h] at this
      cases this
    · exact hkeep x (by omega)
  · intro h
    rcases hch.mp h with h | h
    · cases h
    · exact h

/-! ## Successive passes only move slots up their own chains -/

theorem mix_above (j : Nat) (T S : Nat → Option Nat) {x : Nat} (h : j < x) :
    mix j T S x = T x := by
  simp [mix, h]

theorem mix_below (j : Nat) (T S : Nat → Option Nat) {x : Nat} (h : x ≤ j) :
    mix j T S x = S x := by
  simp [mix, Nat.not_lt.mpr h]

theorem mix_mono {j : Nat} {T S : Nat → Option Nat} (hT : ∀ x y, T x = some y → x ≤ y)
    (hS : ∀ x y, S x = some y → x ≤ y) : ∀ x y, mix j T S x = some y → x ≤ y := by
  intro x y h
  by_cases hx : j < x
  · rw [mix_above _ _ _ hx] at h; exact hT x y h
  · rw [mix_below _ _ _ (by omega)] at h; exact hS x y h

theorem PassRel.allSet {P : Nat → List Nat} {N : Nat} {S T : Nat → Option Nat}
    (h : PassRel P N S T) (FT : Forest T N) : ∀ x, x ≤ N → T x ≠ none := by
  intro x hx
  by_cases hxN : x < N
  · obtain ⟨c, hc, _⟩ := h.2 x hxN
    rw [hc]; simp
  · have : x = N := by omega
    subst this
    rw [FT.root]; simp

/-- Above a threshold where every slot moved up its own new chain, new chains are parts
of old chains. -/
theorem shrink_chain {N : Nat} {T U : Nat → Option Nat} (FT : Forest T N) (FU : Forest U N)
    (hall : ∀ x, x ≤ N → T x ≠ none) (thr : Nat)
    (hyp : ∀ x, thr ≤ x → ∀ a, T x = some a → ∃ c, U x = some c ∧ Chain U a c) :
    ∀ (k p z : Nat), N - p ≤ k → thr ≤ p → Chain U p z → Chain T p z := by
  intro k
  induction k with
  | zero =>
    intro p z hk hp h
    rcases h.inv with h | ⟨c', hc', h'⟩
    · subst h; exact Chain.refl _
    · have hpN := (FU.bound p c' hc').1
      have : p = N := by omega
      subst this
      have := h.of_root FU
      subst this
      exact Chain.refl _
  | succ k ih =>
    intro p z hk hp h
    rcases h.inv with h | ⟨c', hc', h'⟩
    · subst h; exact Chain.refl _
    · have hpN := (FU.bound p c' hc').1
      by_cases hpN' : p = N
      · subst hpN'
        have := h.of_root FU
        subst this
        exact Chain.refl _
      · obtain ⟨m, hm⟩ := Option.ne_none_iff_exists'.mp (hall p hpN)
        obtain ⟨c, hc, hmc⟩ := hyp p hp m hm
        rw [hc'] at hc
        cases hc
        have hpm := FT.up p m hm (by omega)
        exact Chain.step hm (ih m z (by omega) (by omega) (hmc.trans h'))

/-- A point of the new chain of `x` that is not below a point of the old chain of `x`
lies on the new chain of that point. -/
theorem shrink_linear {N : Nat} {T U : Nat → Option Nat} (FT : Forest T N) (thr : Nat)
    (hyp : ∀ x, thr ≤ x → ∀ a, T x = some a → ∃ c, U x = some c ∧ Chain U a c)
    {x y z : Nat} (hxy : Chain T x y) (hx : thr ≤ x) (hxz : Chain U x z) (hyz : y ≤ z) :
    Chain U y z := by
  induction hxy with
  | refl => exact hxz
  | @step x m y hm hmy ih =>
    by_cases hxy' : x = y
    · subst hxy'; exact hxz
    · have h1 := FT.mono x m hm
      have h2 := hmy.le FT
      rcases hxz.inv with h | ⟨c', hc', h'⟩
      · omega
      · obtain ⟨c, hc, hmc⟩ := hyp x hx m hm
        rw [hc'] at hc
        cases hc
        exact ih (by omega) (hmc.trans h') hyz

/-- A chain of the array in mid-pass that crosses the threshold splits into an old part
below and a new part above. -/
theorem mix_split {N : Nat} {T U : Nat → Option Nat} (FT : Forest T N) (FU : Forest U N)
    {i p z : Nat} (h : Chain (mix i U T) p z) (hp : p ≤ i) (hz : i < z) :
    ∃ y, i < y ∧ Chain T p y ∧ Chain U y z := by
  induction h with
  | refl => omega
  | @step p a z ha h ih =>
    rw [mix_below _ _ _ hp] at ha
    by_cases hai : a ≤ i
    · obtain ⟨y, h1, h2, h3⟩ := ih hai hz
      exact ⟨y, h1, Chain.step ha h2, h3⟩
    · refine ⟨a, by omega, Chain.single ha, ?_⟩
      exact h.above (fun x hx => mix_above _ _ _ hx) (mix_mono FU.mono FT.mono) (by omega)

theorem mix_join {N : Nat} {S T : Nat → Option Nat} (FS : Forest S N) (FT : Forest T N)
    (hsh : Shrinks T S) {i : Nat} (hi : i < N) :
    ∀ (k p z : Nat), i - p ≤ k → p ≤ i → S p ≠ none → i < z → Chain T p z →
      Chain (mix i T S) p z := by
  have habove : ∀ m z, i < m → Chain T m z → Chain (mix i T S) m z := by
    intro m z hm h
    exact h.above (fun x hx => (mix_above _ _ _ hx).symm) FT.mono hm
  have hone : ∀ p z m c, p ≤ i → i < z → S p = some m → T p = some c → Chain T m c →
      Chain T p z → p < m ∧ Chain T m z := by
    intro p z m c hp hz hm hc hmc h
    refine ⟨FS.up p m hm (by omega), ?_⟩
    rcases h.inv with h | ⟨c', hc', h'⟩
    · omega
    · rw [hc] at hc'
      cases hc'
      exact hmc.trans h'
  intro k
  induction k with
  | zero =>
    intro p z hk hp hS hz h
    obtain ⟨m, hm⟩ := Option.ne_none_iff_exists'.mp hS
    obtain ⟨c, hc, hmc⟩ := hsh p m hm
    obtain ⟨hpm, hmz⟩ := hone p z m c hp hz hm hc hmc h
    exact Chain.step (by rw [mix_below _ _ _ hp]; exact hm) (habove m z (by omega) hmz)
  | succ k ih =>
    intro p z hk hp hS hz h
    obtain ⟨m, hm⟩ := Option.ne_none_iff_exists'.mp hS
    obtain ⟨c, hc, hmc⟩ := hsh p m hm
    obtain ⟨hpm, hmz⟩ := hone p z m c hp hz hm hc hmc h
    refine Chain.step (by rw [mix_below _ _ _ hp]; exact hm) ?_
    by_cases hmi : m ≤ i
    · exact ih m z (by omega) hmi (FS.closed p m hm) hz hmz
    · exact habove m z (by omega) hmz

/-- The step of the induction: the slot `i` moves up its own new chain when all the slots
above it did. -/
theorem pass_shrinks_at {P : Nat → List Nat} {N : Nat} {S T U : Nat → Option Nat}
    (FS : Forest S N) (FT : Forest T N) (FU : Forest U N)
    (hST : PassRel P N S T) (hTU : PassRel P N T U) (hsh : Shrinks T S)
    (hpusher : ∀ i, i < N → ∃ p ∈ P i, i < p ∧ p ≤ N) {i : Nat} (hi : i < N)
    (hyp : ∀ x, i + 1 ≤ x → ∀ a, T x = some a → ∃ c, U x = some c ∧ Chain U a c) :
    ∀ a, T i = some a → ∃ c, U i = some c ∧ Chain U a c := by
  intro old hold
  have hall := hST.allSet FT
  obtain ⟨old', hold', hncaT⟩ := hST.2 i hi
  rw [hold] at hold'
  cases hold'
  obtain ⟨new, hnew, hncaU⟩ := hTU.2 i hi
  refine ⟨new, hnew, ?_⟩
  obtain ⟨ps, hps, hips, hpsN⟩ := hpusher i hi
  have hUset : ∀ x, i < x → x ≤ N → U x ≠ none := by
    intro x hx hxN
    obtain ⟨m, hm⟩ := Option.ne_none_iff_exists'.mp (hall x hxN)
    obtain ⟨c, hc, _⟩ := hyp x (by omega) m hm
    rw [hc]; simp
  have hHmono := mix_mono (j := i) FU.mono FT.mono
  have hH'mono := mix_mono (j := i) FT.mono FS.mono
  -- the new value lies above the slot
  have hHps : mix i U T ps ≠ none := by
    rw [mix_above _ _ _ hips]; exact hUset ps hips hpsN
  have hps_new : Chain (mix i U T) ps new := hncaU.2.1 ps hps hHps
  have hinew : i < new := lt_of_lt_of_le hips (hps_new.mono_le hHmono)
  have hiold : i < old := FT.up i old hold hi
  -- chains of the usable predecessors, above the slot, only lost points
  have hkey : ∀ p ∈ P i, mix i T S p ≠ none → ∀ z, i < z →
      Chain (mix i U T) p z → Chain (mix i T S) p z := by
    intro p _ hp' z hz h
    by_cases hpi : i < p
    · have h1 : Chain U p z := h.above (fun x hx => mix_above _ _ _ hx) hHmono hpi
      have h2 : Chain T p z := shrink_chain FT FU hall (i + 1) hyp (N - p) p z le_rfl
        (by omega) h1
      exact h2.above (fun x hx => (mix_above _ _ _ hx).symm) FT.mono hpi
    · have hpi' : p ≤ i := by omega
      rw [mix_below _ _ _ hpi'] at hp'
      obtain ⟨y, hy, h1, h2⟩ := mix_split FT FU h hpi' hz
      have h3 : Chain T y z := shrink_chain FT FU hall (i + 1) hyp (N - y) y z le_rfl
        (by omega) h2
      exact mix_join FS FT hsh hi (i - p) p z le_rfl hpi' hp' hz (h1.trans h3)
  -- hence the new value is a common point of the old chains
  have hcommon : ∀ p ∈ P i, mix i T S p ≠ none → Chain (mix i T S) p new := by
    intro p hp hp'
    have hH : mix i U T p ≠ none := by
      by_cases hpi : i < p
      · rw [mix_above _ _ _ hpi] at hp' ⊢
        obtain ⟨m, hm⟩ := Option.ne_none_iff_exists'.mp hp'
        exact hUset p hpi (FT.bound p m hm).1
      · rw [mix_below _ _ _ (by omega)] at hp' ⊢
        obtain ⟨m, hm⟩ := Option.ne_none_iff_exists'.mp hp'
        obtain ⟨c, hc, _⟩ := hsh p m hm
        rw [hc]; simp
    exact hkey p hp hp' new hinew (hncaU.2.1 p hp hH)
  have hold_new' : Chain (mix i T S) old new := hncaT.2.2 new hcommon
  have hle : old ≤ new := hold_new'.mono_le hH'mono
  -- and it lies on the new chain of the old value
  have hH'ps : mix i T S ps ≠ none := by
    rw [mix_above _ _ _ hips]; exact hall ps hpsN
  have h1 : Chain T ps old :=
    (hncaT.2.1 ps hps hH'ps).above (fun x hx => mix_above _ _ _ hx) hH'mono hips
  have h2 : Chain U ps new := hps_new.above (fun x hx => mix_above _ _ _ hx) hHmono hips
  exact shrink_linear FT (i + 1) hyp h1 (by omega) h2 hle

/-- A pass that follows a pass moves every slot up its own new chain. -/
theorem pass_shrinks {P : Nat → List Nat} {N : Nat} {S T U : Nat → Option Nat}
    (FS : Forest S N) (FT : Forest T N) (FU : Forest U N)
    (hST : PassRel P N S T) (hTU : PassRel P N T U) (hsh : Shrinks T S)
    (hpusher : ∀ i, i < N → ∃ p ∈ P i, i < p ∧ p ≤ N) : Shrinks U T := by
  have main : ∀ n x, N - n ≤ x → ∀ a, T x = some a → ∃ c, U x = some c ∧ Chain U a c := by
    intro n
    induction n with
    | zero =>
      intro x hx a ha
      have := (FT.bound x a ha).1
      have hxN : x = N := by omega
      subst hxN
      rw [FT.root] at ha
      cases ha
      exact ⟨x, FU.root, Chain.refl _⟩
    | succ n ih =>
      intro x hx a ha
      by_cases hlt : N - n ≤ x
      · exact ih x hlt a ha
      · have hxe : x = N - (n + 1) := by omega
        have hxN : x < N := by omega
        exact pass_shrinks_at FS FT FU hST hTU hsh hpusher hxN
          (fun y hy => ih y (by omega)) a ha
  intro j a ha
  exact main N j (by omega) a ha

/-! ## The fixpoint loop of `computeDominance` -/

theorem domSum_le {d : Nat → Option Nat} {N : Nat} (F : Forest d N) : domSum d N ≤ N * N := by
  unfold domSum
  have h := List.sum_le_card_nsmul ((List.range N).map fun j => (d j).getD 0) N (by
    intro x hx
    obtain ⟨j, _, rfl⟩ := List.mem_map.mp hx
    cases hj : d j with
    | none => simp
    | some c => simpa using (F.bound j c hj).2)
  simpa using h

theorem Shrinks.getD_le {T U : Nat → Option Nat} {N : Nat} (FU : Forest U N)
    (h : Shrinks U T) (j : Nat) (hj : j < N) :
    (T j).getD 0 ≤ (U j).getD 0 ∧ (U j ≠ T j → (T j).getD 0 < (U j).getD 0) := by
  cases hT : T j with
  | none =>
    cases hU : U j with
    | none => simp
    | some c =>
      have := FU.up j c hU hj
      simp only [Option.getD_none, Option.getD_some, zero_le, true_and]
      intro _; omega
  | some a =>
    obtain ⟨c, hc, hac⟩ := h j a hT
    have := hac.le FU
    rw [hc]
    simp only [Option.getD_some]
    refine ⟨this, fun hne => ?_⟩
    have : a ≠ c := fun e => hne (by rw [e])
    omega

theorem Shrinks.domSum_lt {T U : Nat → Option Nat} {N : Nat} (FU : Forest U N)
    (h : Shrinks U T) (hne : ∃ j, j < N ∧ U j ≠ T j) : domSum T N < domSum U N := by
  unfold domSum
  obtain ⟨j, hj, hj'⟩ := hne
  apply List.sum_lt_sum
  · intro i hi
    exact (h.getD_le FU i (List.mem_range.mp hi)).1
  · exact ⟨j, List.mem_range.mpr hj, (h.getD_le FU j hj).2 hj'⟩

/-- The array `doms` as `enumerate` leaves it is a forest that any forest refines. -/
theorem forest_init {d0 : Nat → Option Nat} {N : Nat}
    (hd0 : ∀ i, d0 i = if i = N then some N else none) : Forest d0 N := by
  have hiff : ∀ i j, d0 i = some j → i = N ∧ j = N := by
    intro i j h
    rw [hd0 i] at h
    by_cases hi : i = N
    · rw [if_pos hi] at h; cases h; exact ⟨hi, rfl⟩
    · rw [if_neg hi] at h; cases h
  constructor
  · rw [hd0 N]; simp
  · intro i j h hi
    have := (hiff i j h).1
    omega
  · intro i j h
    obtain ⟨h1, h2⟩ := hiff i j h
    omega
  · intro i j h
    obtain ⟨_, h2⟩ := hiff i j h
    subst h2
    rw [hd0 j]; simp

theorem shrinks_init {d0 T : Nat → Option Nat} {N : Nat}
    (hd0 : ∀ i, d0 i = if i = N then some N else none) (FT : Forest T N) : Shrinks T d0 := by
  intro j a h
  rw [hd0 j] at h
  by_cases hj : j = N
  · rw [if_pos hj] at h
    cases h
    subst hj
    exact ⟨j, FT.root, Chain.refl _⟩
  · rw [if_neg hj] at h; cases h

/-- The fixpoint loop of `computeDominance` terminates; it leaves a forest in which every
slot below the root holds the nearest common chain point of its reachable predecessors. -/
theorem solve_spec {g : Pipeline} (wf : WellFormed g) {s0 : Frontier} (hE : Enumerated g s0)
    (hd0 : ∀ i, s0.doms i = if i = s0.count - 1 then some (s0.count - 1) else none)
    (Q : (Nat → Option Nat) → Prop)
    (hQ : ∀ d i c, Forest d (s0.count - 1) → i < s0.count - 1 →
      IsNCA d (predsI g s0 i) c → i < c → Q d → Q (setAt d i (some c)))
    (hQ0 : Q s0.doms) (fuel : Nat) (hfuel : 2 * (s0.count * s0.count) < fuel) :
    ∃ d, solve fuel g s0 = some { s0 with doms := d } ∧ Forest d (s0.count - 1) ∧ Q d ∧
      PassRel (predsI g s0) (s0.count - 1) d d := by
  have hcount := hE.count_pos
  have hNN : 2 * ((s0.count - 1) * (s0.count - 1)) + 2 * (s0.count - 1) + 2
      ≤ 2 * (s0.count * s0.count) := by
    obtain ⟨n, hn⟩ : ∃ n, s0.count = n + 1 := ⟨s0.count - 1, by omega⟩
    rw [hn]
    simp only [Nat.add_sub_cancel]
    nlinarith
  have hfuel1 : 2 * (s0.count - 1) < fuel := by omega
  have hstep : ∀ st, SolveInv g s0 Q st → st.2 = true →
      ∃ st', computeOne fuel g st.1 = some st' ∧ SolveInv g s0 Q st' ∧
        2 * ((s0.count - 1) * (s0.count - 1) - domSum st'.1.doms (s0.count - 1))
            + (if st'.2 then 1 else 0)
          < 2 * ((s0.count - 1) * (s0.count - 1) - domSum st.1.doms (s0.count - 1))
            + (if st.2 then 1 else 0) := by
    intro ⟨s, ch⟩ ⟨d, hs, F, hQd, _, hprev⟩ hch
    simp only at hs hch
    subst hs hch
    obtain ⟨T, ch', hrun, FT, hQT, hpass, hsame, hdiff⟩ :=
      computeOne_spec wf hE fuel hfuel1 Q hQ d F hQd
    have hsh : Shrinks T d := by
      rcases hprev with h | ⟨S, FS, hSd, hshS⟩
      · rw [h]; exact shrinks_init hd0 FT
      · exact pass_shrinks FS F FT hSd hpass hshS (fun i hi => hE.pusherI wf hi)
    refine ⟨({ s0 with doms := T }, ch'), hrun, ⟨T, rfl, FT, hQT, ?_, Or.inr ⟨d, F, hpass, hsh⟩⟩,
      ?_⟩
    · intro h
      have := hsame h
      rw [this] at hpass ⊢
      exact hpass
    · simp only [if_true]
      have hT := domSum_le FT
      have hd := domSum_le F
      cases ch' with
      | false =>
        rw [hsame rfl]
        simp
      | true =>
        have := hsh.domSum_lt FT (hdiff rfl)
        simp only [if_true]
        omega
  have hinit : SolveInv g s0 Q (s0, true) :=
    ⟨s0.doms, rfl, forest_init hd0, hQ0, ⟨fun h => Bool.noConfusion h, Or.inl rfl⟩⟩
  obtain ⟨st', hrun, ⟨d, hs, F, hQd, hfix, _⟩, hc⟩ := whileLoop_spec (SolveInv g s0 Q)
    (fun st => 2 * ((s0.count - 1) * (s0.count - 1) - domSum st.1.doms (s0.count - 1))
      + (if st.2 then 1 else 0))
    hstep fuel (s0, true) hinit (by simp only [if_true]; omega)
  refine ⟨d, ?_, F, hQd, hfix hc⟩
  simp only [solve, hrun, Option.map_some', hs]

/-! ## The chains of `doms` hold the dominators throughout the solve -/

theorem Chain.assign_above {d : Nat → Option Nat} {N i c x z : Nat} (F : Forest d N)
    (hx : i < x) (h : Chain d x z) : Chain (setAt d i (some c)) x z :=
  h.above (fun y hy => (setAt_ne _ _ (by omega)).symm) F.mono hx

theorem Chain.of_assign_above {d : Nat → Option Nat} {N i c x z : Nat}
    (F' : Forest (setAt d i (some c)) N) (hx : i < x) (h : Chain (setAt d i (some c)) x z) :
    Chain d x z :=
  h.above (fun y hy => setAt_ne _ _ (by omega)) F'.mono hx

theorem Chain.of_assign {d : Nat → Option Nat} {N i c x z : Nat}
    (F' : Forest (setAt d i (some c)) N) (hic : i < c) (h : Chain (setAt d i (some c)) x z) :
    Chain d x z ∨ (Chain d x i ∧ Chain d c z) := by
  induction h with
  | refl => exact Or.inl (Chain.refl _)
  | @step x a z ha h ih =>
    by_cases hxi : x = i
    · subst hxi
      simp only [setAt_same] at ha
      cases ha
      exact Or.inr ⟨Chain.refl _, h.of_assign_above F' hic⟩
    · rw [setAt_ne _ _ hxi] at ha
      rcases ih with h1 | ⟨h1, h2⟩
      · exact Or.inl (Chain.step ha h1)
      · exact Or.inr ⟨Chain.step ha h1, h2⟩

theorem Chain.assign_below {d : Nat → Option Nat} {N i c x a : Nat} (F : Forest d N)
    (h : Chain d x a) (hcase : ¬ Chain d x i ∨ a ≤ i) : Chain (setAt d i (some c)) x a := by
  induction h with
  | refl => exact Chain.refl _
  | @step x x' a hx h ih =>
    by_cases hxi : x = i
    · subst hxi
      rcases hcase with h1 | h1
      · exact absurd (Chain.refl _) h1
      · have h2 := F.mono _ _ hx
        have h3 := h.le F
        have : a = x := by omega
        subst this
        exact Chain.refl _
    · refine Chain.step (by rw [setAt_ne _ _ hxi]; exact hx) (ih ?_)
      rcases hcase with h1 | h1
      · exact Or.inl (fun h' => h1 (Chain.step hx h'))
      · exact Or.inr h1

/-- Assigning to a slot the nearest common chain point of its usable predecessors keeps
the semantic invariant. -/
theorem SemInv.assign_nca {D : Nat → Nat → Prop} {d : Nat → Option Nat} {N : Nat}
    (F : Forest d N) {P : List Nat} {i c : Nat} (hi : i < N) (hnca : IsNCA d P c)
    (hic : i < c) (hS2 : ∀ a p, p ∈ P → D a i → a ≠ i → D a p) (h : SemInv D d) :
    SemInv D (setAt d i (some c)) := by
  obtain ⟨⟨ps, hps, hpset⟩, hanc, hmin⟩ := hnca
  have hcset : d c ≠ none := (hanc ps hps hpset).isSet F hpset
  have F' : Forest (setAt d i (some c)) N := F.assign hi hic hcset
  have hca : ∀ a, D a i → a ≠ i → Chain d c a := fun a h1 h2 =>
    hmin a (fun p hp hpset' => h.dom_chain p a hpset' (hS2 a p hp h1 h2))
  have hset : ∀ x, setAt d i (some c) x ≠ none → x ≠ i → d x ≠ none := by
    intro x hx hxi
    rwa [setAt_ne _ _ hxi] at hx
  constructor
  · intro x a hx hD
    by_cases hxi : x = i
    · subst hxi
      by_cases hax : a = x
      · subst hax; exact Chain.refl _
      · exact Chain.step (by simp) ((hca a hD hax).assign_above F hic)
    · have hxs := hset x hx hxi
      have hxa := h.dom_chain x a hxs hD
      by_cases hcase : Chain d x i ∧ i < a
      · obtain ⟨h1, h2⟩ := hcase
        have hia : Chain d i a := h1.linear F hxa (by omega)
        have hDi : D a i := h.between x i a hxs h1 hia (by omega) hD
        have h3 : Chain (setAt d i (some c)) x i := h1.assign_below F (Or.inr le_rfl)
        exact h3.trans (Chain.step (by simp) ((hca a hDi (by omega)).assign_above F hic))
      · refine hxa.assign_below F ?_
        by_cases h1 : Chain d x i
        · exact Or.inr (by
            by_contra h2
            exact hcase ⟨h1, by omega⟩)
        · exact Or.inl h1
  · intro x y a hx hxy hya hay hD
    have hle : y ≤ a := hya.le F'
    rcases hxy.of_assign F' hic with h1 | ⟨h1, h2⟩
    · by_cases hxs : d x = none
      · have := h1.unset hxs
        subst this
        exact hD
      · have hxa := h.dom_chain x a hxs hD
        exact h.between x y a hxs h1 (h1.linear F hxa hle) hay hD
    · have hcy := h2.le F
      have hya' : Chain d y a := hya.of_assign_above F' (by omega)
      have hDi : D a i := by
        by_cases hxi : x = i
        · subst hxi; exact hD
        · have hxs := hset x hx hxi
          have hxa := h.dom_chain x a hxs hD
          exact h.between x i a hxs h1 (h1.linear F hxa (by omega)) (by omega) hD
      have hDp : D a ps := hS2 a ps hps hDi (by omega)
      exact h.between ps y a hpset ((hanc ps hps hpset).trans h2) hya' hay hDp

/-! ## Dominance between postorder indices -/

theorem Enumerated.index_vertex {g : Pipeline} {s : Frontier} (hE : Enumerated g s)
    {i b : Nat} (hi : i < s.count) (hv : s.vertex i = some b) : s.index b = some i := by
  obtain ⟨b', hv', hi'⟩ := hE.vertex_index i hi
  rw [hv] at hv'
  cases hv'
  exact hi'

theorem Enumerated.reachable {g : Pipeline} {s : Frontier} (hE : Enumerated g s)
    {b k : Nat} (h : s.index b = some k) : Reachable g b :=
  (hE.reach b).mp (by rw [h]; simp)

theorem mem_predsI {g : Pipeline} {s : Frontier} {i p b : Nat} (hv : s.vertex i = some b) :
    p ∈ predsI g s i ↔ ∃ pb ∈ (g.block b).predecessors, s.index pb = some p := by
  simp only [predsI, hv, List.mem_filterMap]

/-- A strict dominator of a block dominates its reachable predecessors. -/
theorem domI_pred {g : Pipeline} (wf : WellFormed g) {s : Frontier} (hE : Enumerated g s)
    {i a p : Nat} (hp : p ∈ predsI g s i) (hD : DomI g s a i) (hai : a ≠ i) :
    DomI g s a p := by
  obtain ⟨A, B, hvA, hvB, haN, hiN, hdom⟩ := hD
  obtain ⟨pb, hpb, hip⟩ := (mem_predsI hvB).mp hp
  obtain ⟨hpN, hvp⟩ := hE.index_lt pb p hip
  refine ⟨A, pb, hvA, hvp, haN, hpN, ?_⟩
  intro l hl
  have hBr : Reachable g B := hE.reachable (hE.index_vertex hiN hvB)
  have hpr : Reachable g pb := hE.reachable hip
  have hsucc : B ∈ (g.block pb).successors :=
    (wf.2.2.2 pb (hpr.lt wf) B (hBr.lt wf)).mpr hpb
  have := hdom (B :: l) (EPath.step hl hsucc)
  rcases List.mem_cons.mp this with h | h
  · subst h
    exact absurd (hE.vertex_inj haN hiN hvA hvB) hai
  · exact h

/-- Only the entry dominates the entry. -/
theorem domI_root {g : Pipeline} {s : Frontier} (hE : Enumerated g s) {a : Nat}
    (hD : DomI g s a (s.count - 1)) : a = s.count - 1 := by
  obtain ⟨A, B, hvA, hvB, haN, hiN, hdom⟩ := hD
  rw [hE.vertex_root] at hvB
  cases hvB
  have := hdom [0] EPath.entry
  simp only [List.mem_singleton] at this
  subst this
  exact hE.vertex_inj haN hiN hvA hE.vertex_root

theorem semInv_init {g : Pipeline} {s0 : Frontier} (hE : Enumerated g s0)
    (hd0 : ∀ i, s0.doms i = if i = s0.count - 1 then some (s0.count - 1) else none) :
    SemInv (DomI g s0) s0.doms := by
  have F := forest_init hd0
  have hroot : ∀ x, s0.doms x ≠ none → x = s0.count - 1 := by
    intro x hx
    rw [hd0 x] at hx
    by_contra h
    rw [if_neg h] at hx
    exact hx rfl
  constructor
  · intro x a hx hD
    have := hroot x hx
    subst this
    rw [domI_root hE hD]
    exact Chain.refl _
  · intro x y a hx hxy hya hay _
    have := hroot x hx
    subst this
    have h1 := hxy.of_root F
    subst h1
    exact absurd (hya.of_root F) hay

theorem mix_self (j : Nat) (d : Nat → Option Nat) : mix j d d = d := by
  funext x
  simp [mix]

/-- At the fixpoint, every point of the chain of a block lies on every path from the entry
to the block. -/
theorem chain_on_path {g : Pipeline} (wf : WellFormed g) {s0 : Frontier}
    (hE : Enumerated g s0) {d : Nat → Option Nat} (F : Forest d (s0.count - 1))
    (hfix : PassRel (predsI g s0) (s0.count - 1) d d) {l : List Nat} {B : Nat}
    (hl : EPath g l B) :
    ∀ iB a, s0.index B = some iB → Chain d iB a → ∃ A, s0.vertex a = some A ∧ A ∈ l := by
  induction hl with
  | entry =>
    intro iB a hiB h
    rw [hE.entry_index] at hiB
    cases hiB
    rw [h.of_root F]
    exact ⟨0, hE.vertex_root, List.mem_singleton.mpr rfl⟩
  | @step l u v hu hv ih =>
    intro iv a hiv h
    obtain ⟨hivN, hvv⟩ := hE.index_lt v iv hiv
    have hself : ∃ A, s0.vertex iv = some A ∧ A ∈ v :: l := ⟨v, hvv, List.mem_cons_self _ _⟩
    rcases h.inv with h | ⟨c', hc', h'⟩
    · subst h; exact hself
    · by_cases hroot : iv = s0.count - 1
      · subst hroot
        rw [h.of_root F]
        exact hself
      · obtain ⟨c, hc, hnca⟩ := hfix.2 iv (by omega)
        rw [mix_self] at hnca
        rw [hc'] at hc
        cases hc
        have hur : Reachable g u := ⟨l, hu⟩
        obtain ⟨iu, hiu⟩ := Option.ne_none_iff_exists'.mp ((hE.reach u).mpr hur)
        have hvr : Reachable g v := hur.step hv
        have hpred : u ∈ (g.block v).predecessors :=
          (wf.2.2.2 u (hur.lt wf) v (hvr.lt wf)).mp hv
        have hmem : iu ∈ predsI g s0 iv := (mem_predsI hvv).mpr ⟨u, hpred, hiu⟩
        have hiuN := (hE.index_lt u iu hiu).1
        have hset : d iu ≠ none := hfix.allSet F iu (by omega)
        obtain ⟨A, hA, hAl⟩ := ih iu a hiu ((hnca.2.1 iu hmem hset).trans h')
        exact ⟨A, hA, List.mem_cons_of_mem _ hAl⟩

/-- At the fixpoint the chain of a reachable block holds exactly its dominators. -/
theorem chain_iff_dom {g : Pipeline} (wf : WellFormed g) {s0 : Frontier}
    (hE : Enumerated g s0) {d : Nat → Option Nat} (F : Forest d (s0.count - 1))
    (hfix : PassRel (predsI g s0) (s0.count - 1) d d) (hsem : SemInv (DomI g s0) d)
    {i : Nat} (hi : i < s0.count) (a : Nat) : Chain d i a ↔ DomI g s0 a i := by
  have hset : d i ≠ none := hfix.allSet F i (by omega)
  constructor
  · intro h
    have haN : a ≤ s0.count - 1 := h.le_root F (by omega)
    have hcount := hE.count_pos
    obtain ⟨B, hvB, hiB⟩ := hE.vertex_index i hi
    obtain ⟨A, hvA, _⟩ := hE.vertex_index a (by omega)
    refine ⟨A, B, hvA, hvB, by omega, hi, ?_⟩
    intro l hl
    obtain ⟨A', hA', hmem⟩ := chain_on_path wf hE F hfix hl i a hiB h
    rw [hvA] at hA'
    cases hA'
    exact hmem
  · exact hsem.dom_chain i a hset

/-! ## `computeDominance` -/

theorem Solved.all_set {g : Pipeline} {s : Frontier} (h : Solved g s) {i : Nat}
    (hi : i < s.count) : s.doms i ≠ none :=
  h.fix.allSet h.forest i (by omega)

/-- After the solve every slot below the root points to a larger slot. -/
theorem Solved.up {g : Pipeline} {s : Frontier} (h : Solved g s) {i : Nat}
    (hi : i < s.count - 1) : ∃ c, s.doms i = some c ∧ i < c ∧ c ≤ s.count - 1 := by
  obtain ⟨c, hc⟩ := Option.ne_none_iff_exists'.mp (h.all_set (i := i) (by omega))
  exact ⟨c, hc, h.forest.up i c hc hi, (h.forest.bound i c hc).2⟩

/-- The facts established by the solve only concern `vertex`, `index`, `doms`, `count`. -/
theorem Solved.congr {g : Pipeline} {s s' : Frontier} (h : Solved g s)
    (hv : s'.vertex = s.vertex) (hi : s'.index = s.index) (hd : s'.doms = s.doms)
    (hc : s'.count = s.count) : Solved g s' := by
  obtain ⟨v, i, d, f, c, ch, fr, l⟩ := s
  obtain ⟨v', i', d', f', c', ch', fr', l'⟩ := s'
  simp only at hv hi hd hc
  subst hv hi hd hc
  exact ⟨⟨h.enum.count_pos, h.enum.entry_index, h.enum.reach, h.enum.index_lt,
    h.enum.vertex_index, h.enum.pusher⟩, h.forest, h.fix, h.sem⟩

/-- The solve on the state left by `enumerate`. -/
theorem solve_solved {g : Pipeline} (wf : WellFormed g) {s0 : Frontier} (hE : Enumerated g s0)
    (hd0 : ∀ i, s0.doms i = if i = s0.count - 1 then some (s0.count - 1) else none)
    (fuel : Nat) (hfuel : 2 * (s0.count * s0.count) < fuel) :
    ∃ d, solve fuel g s0 = some { s0 with doms := d } ∧ Solved g { s0 with doms := d } := by
  obtain ⟨d, hrun, F, hsem, hfix⟩ := solve_spec wf hE hd0 (SemInv (DomI g s0))
    (fun d i c F hi hnca hic hQ =>
      SemInv.assign_nca F hi hnca hic (fun a p hp hD hai => domI_pred wf hE hp hD hai) hQ)
    (semInv_init hE hd0) fuel hfuel
  exact ⟨d, hrun, ⟨⟨hE.count_pos, hE.entry_index, hE.reach, hE.index_lt, hE.vertex_index,
    hE.pusher⟩, F, hfix, hsem⟩⟩

theorem addChildren_spec (s : Frontier)
    (hall : ∀ i, i < s.count - 1 →
      ∃ c p ch, s.doms i = some c ∧ s.vertex c = some p ∧ s.vertex i = some ch) :
    ∀ k, k ≤ s.count - 1 →
      (List.range k).foldlM addChildAt s = some
        { s with
          children := s.children ++ (List.range k).map (fun i =>
            (((s.doms i).bind s.vertex).getD 0, (s.vertex i).getD 0)) } := by
  intro k
  induction k with
  | zero => intro _; simp
  | succ k ih =>
    intro hk
    obtain ⟨c, p, ch, h1, h2, h3⟩ := hall k (by omega)
    rw [List.range_succ, List.foldlM_append, ih (by omega)]
    simp [addChildAt, h1, h2, h3]

/-- Total correctness of `computeDominance` on the state left by `enumerate`. -/
theorem computeDominance_spec {g : Pipeline} (wf : WellFormed g) {s0 : Frontier}
    (hE : Enumerated g s0)
    (hd0 : ∀ i, s0.doms i = if i = s0.count - 1 then some (s0.count - 1) else none)
    (fuel : Nat) (hfuel : 2 * (s0.count * s0.count) < fuel) :
    ∃ d, Solved g { s0 with doms := d } ∧
      computeDominance fuel g s0
        = some { s0 with doms := d,
                         children := s0.children ++ childList { s0 with doms := d } } := by
  obtain ⟨d, hrun, hS⟩ := solve_solved wf hE hd0 fuel hfuel
  refine ⟨d, hS, ?_⟩
  have hall : ∀ i, i < ({ s0 with doms := d } : Frontier).count - 1 →
      ∃ c p ch, ({ s0 with doms := d } : Frontier).doms i = some c ∧
        ({ s0 with doms := d } : Frontier).vertex c = some p ∧
        ({ s0 with doms := d } : Frontier).vertex i = some ch := by
    intro i hi
    obtain ⟨c, hc, _, hcN⟩ := hS.up hi
    have hcount := hE.count_pos
    obtain ⟨p, hp, _⟩ := hE.vertex_index c (by simp only at hcN; omega)
    obtain ⟨ch, hch, _⟩ := hE.vertex_index i (by simp only at hi; omega)
    exact ⟨c, p, ch, hc, hp, hch⟩
  simp only [computeDominance, hrun, Option.bind_eq_bind, Option.some_bind]
  rw [addChildren_spec _ hall _ le_rfl]
  rfl

/-! ## Fuel -/

theorem enumerate_mono {g : Pipeline} {s r : Frontier} {fuel fuel' : Nat} (hle : fuel ≤ fuel')
    (h : enumerate fuel g s = some r) : enumerate fuel' g s = some r := by
  simp only [enumerate, enumLoop, Option.map_eq_some'] at h ⊢
  obtain ⟨e, he, rfl⟩ := h
  exact ⟨e, whileLoop_mono (fun _ _ hb => hb) fuel fuel' _ e hle he, rfl⟩

theorem advance_mono {d : Nat → Option Nat} {bound f r : Nat} {fuel fuel' : Nat}
    (hle : fuel ≤ fuel') (h : advance d fuel bound f = some r) :
    advance d fuel' bound f = some r :=
  whileLoop_mono (fun _ _ hb => hb) fuel fuel' f r hle h

theorem intersect_mono {d : Nat → Option Nat} {a b r : Nat} {fuel fuel' : Nat}
    (hle : fuel ≤ fuel') (h : intersect d fuel a b = some r) :
    intersect d fuel' a b = some r := by
  simp only [intersect, Option.map_eq_some'] at h ⊢
  obtain ⟨f, hf, rfl⟩ := h
  refine ⟨f, whileLoop_mono ?_ fuel fuel' _ f hle hf, rfl⟩
  intro x y hxy
  cases h1 : advance d fuel x.2 x.1 with
  | none => rw [h1] at hxy; simp at hxy
  | some f1 =>
    rw [h1] at hxy
    simp only [Option.some_bind] at hxy
    cases h2 : advance d fuel f1 x.2 with
    | none => rw [h2] at hxy; simp at hxy
    | some f2 =>
      rw [h2] at hxy
      rw [advance_mono hle h1]
      simp only [Option.some_bind]
      rw [advance_mono hle h2]
      exact hxy

theorem foldIdom_mono {s : Frontier} {acc r : Option Nat} {pred : Nat} {fuel fuel' : Nat}
    (hle : fuel ≤ fuel') (h : foldIdom fuel s acc pred = some r) :
    foldIdom fuel' s acc pred = some r := by
  unfold foldIdom at h ⊢
  cases hp : s.index pred with
  | none => rw [hp] at h; exact h
  | some p =>
    rw [hp] at h
    simp only at h ⊢
    cases hd : s.doms p with
    | none => rw [hd] at h; exact h
    | some dp =>
      rw [hd] at h
      simp only at h ⊢
      cases acc with
      | none => exact h
      | some cur =>
        simp only [Option.map_eq_some'] at h ⊢
        obtain ⟨m, hm, rfl⟩ := h
        exact ⟨m, intersect_mono hle hm, rfl⟩

theorem computeOneAt_mono {g : Pipeline} {st r : Frontier × Bool} {i : Nat}
    {fuel fuel' : Nat} (hle : fuel ≤ fuel') (h : computeOneAt fuel g st i = some r) :
    computeOneAt fuel' g st i = some r := by
  unfold computeOneAt at h ⊢
  cases hv : st.1.vertex i with
  | none => rw [hv] at h; simp at h
  | some b =>
    rw [hv] at h
    simp only [Option.some_bind] at h ⊢
    cases hf : (g.block b).predecessors.foldlM (foldIdom fuel st.1) none with
    | none => rw [hf] at h; simp at h
    | some acc =>
      rw [hf] at h
      rw [foldlM_mono (fun _ _ _ hx => foldIdom_mono hle hx) _ _ _ hf]
      exact h

theorem computeOne_mono {g : Pipeline} {s : Frontier} {r : Frontier × Bool}
    {fuel fuel' : Nat} (hle : fuel ≤ fuel') (h : computeOne fuel g s = some r) :
    computeOne fuel' g s = some r :=
  foldlM_mono (fun _ _ _ hx => computeOneAt_mono hle hx) _ _ _ h

theorem solve_mono {g : Pipeline} {s r : Frontier} {fuel fuel' : Nat} (hle : fuel ≤ fuel')
    (h : solve fuel g s = some r) : solve fuel' g s = some r := by
  simp only [solve, Option.map_eq_some'] at h ⊢
  obtain ⟨st, hst, rfl⟩ := h
  exact ⟨st, whileLoop_mono (fun _ _ hb => computeOne_mono hle hb) fuel fuel' _ st hle hst, rfl⟩

theorem computeDominance_mono {g : Pipeline} {s r : Frontier} {fuel fuel' : Nat}
    (hle : fuel ≤ fuel') (h : computeDominance fuel g s = some r) :
    computeDominance fuel' g s = some r := by
  unfold computeDominance at h ⊢
  cases hs : solve fuel g s with
  | none => rw [hs] at h; simp at h
  | some s1 =>
    rw [hs] at h
    rw [solve_mono hle hs]
    exact h

/-- A sequence of two fuelled stages does not depend on the fuel. -/
theorem bind_mono {α β γ : Type} {f : Nat → α → Option β} {k : Nat → β → Option γ}
    (hf : ∀ a b n m, n ≤ m → f n a = some b → f m a = some b)
    (hk : ∀ b c n m, n ≤ m → k n b = some c → k m b = some c)
    {a : α} {c : γ} {n m : Nat} (hle : n ≤ m) (h : (f n a).bind (k n) = some c) :
    (f m a).bind (k m) = some c := by
  cases hb : f n a with
  | none => rw [hb] at h; simp at h
  | some b =>
    rw [hb] at h
    rw [hf a b n m hle hb]
    exact hk b c n m hle h

/-- There are at most as many reachable blocks as blocks. -/
theorem Enumerated.count_le {g : Pipeline} (wf : WellFormed g) {s0 : Frontier}
    (hE : Enumerated g s0) : s0.count ≤ g.blocks.length := by
  have hinj : Set.InjOn (fun k => (s0.vertex k).getD 0) (Finset.range s0.count : Set Nat) := by
    intro a ha b hb hab
    simp only [Finset.coe_range, Set.mem_Iio] at ha hb
    obtain ⟨x, hx, _⟩ := hE.vertex_index a ha
    obtain ⟨y, hy, _⟩ := hE.vertex_index b hb
    simp only [hx, hy, Option.getD_some] at hab
    subst hab
    exact hE.vertex_inj ha hb hx hy
  have hmaps : ∀ k ∈ Finset.range s0.count,
      (fun k => (s0.vertex k).getD 0) k ∈ Finset.range g.blocks.length := by
    intro k hk
    obtain ⟨x, hx, hix⟩ := hE.vertex_index k (Finset.mem_range.mp hk)
    simp only [hx, Option.getD_some, Finset.mem_range]
    exact (hE.reachable hix).lt wf
  have := Finset.card_le_card_of_injOn _ hmaps hinj
  simpa using this

/-! ## Results of the runs on a fresh object -/

/-- The run `enumerate(); computeDominance();` terminates, and what it leaves. -/
theorem dominance_spec (g : Pipeline) (wf : WellFormed g) :
    (∃ fuel s, dominance fuel g = some s) ∧
    ∀ fuel s, dominance fuel g = some s →
      Solved g s ∧ s.children = childList s ∧ s.frontiers = [] ∧
        (∀ i j, s.frontier i j = false) := by
  have hgood : ∀ fuel, 2 * g.blocks.length < fuel →
      (∀ s0, Enumerated g s0 → 2 * (s0.count * s0.count) < fuel) →
      ∃ s, dominance fuel g = some s ∧
        Solved g s ∧ s.children = childList s ∧ s.frontiers = [] ∧
        (∀ i j, s.frontier i j = false) := by
    intro fuel h1 h2
    obtain ⟨s0, hs0⟩ := (enumerate_spec g wf).1 fuel h1
    obtain ⟨hE, hch, hfr, hbits, hd0⟩ := (enumerate_spec g wf).2 fuel s0 hs0
    obtain ⟨d, hS, hrun⟩ := computeDominance_spec wf hE hd0 fuel (h2 s0 hE)
    refine ⟨{ s0 with doms := d,
                      children := s0.children ++ childList { s0 with doms := d } }, ?_,
      hS.congr rfl rfl rfl rfl, ?_, hfr, hbits⟩
    · simp only [dominance, hs0, Option.some_bind]; exact hrun
    · simp only [hch, List.nil_append]
      rfl
  have hcount : ∀ s0, Enumerated g s0 → s0.count ≤ g.blocks.length :=
    fun s0 hE => hE.count_le wf
  have hbig : ∀ fuel, 2 * (g.blocks.length * g.blocks.length) + 2 * g.blocks.length < fuel →
      ∃ s, dominance fuel g = some s ∧
        Solved g s ∧ s.children = childList s ∧ s.frontiers = [] ∧
        (∀ i j, s.frontier i j = false) := by
    intro fuel hfuel
    refine hgood fuel (by omega) (fun s0 hE => ?_)
    have := hcount s0 hE
    have : s0.count * s0.count ≤ g.blocks.length * g.blocks.length := Nat.mul_le_mul this this
    omega
  constructor
  · obtain ⟨s, hs, _⟩ := hbig (2 * (g.blocks.length * g.blocks.length) + 2 * g.blocks.length + 1)
      (by omega)
    exact ⟨_, s, hs⟩
  · intro fuel s hs
    obtain ⟨s', hs', hprop⟩ :=
      hbig (max fuel (2 * (g.blocks.length * g.blocks.length) + 2 * g.blocks.length + 1))
        (by omega)
    have := bind_mono (f := fun n (s : Frontier) => enumerate n g s)
      (k := fun n s => computeDominance n g s)
      (fun a b n m hnm h => enumerate_mono hnm h)
      (fun a b n m hnm h => computeDominance_mono hnm h)
      (le_max_left fuel (2 * (g.blocks.length * g.blocks.length) + 2 * g.blocks.length + 1)) hs
    have heq : s = s' := by
      have h2 : dominance (max fuel (2 * (g.blocks.length * g.blocks.length)
          + 2 * g.blocks.length + 1)) g = some s := this
      rw [hs'] at h2
      exact (Option.some.inj h2).symm
    rw [heq]
    exact hprop

/-! ## `computeFrontier` -/

/-- One step of the runner loop: the bit of the join block is set in the bit field of the
runner, the call is logged when the bit was clear, and the runner moves up. -/
theorem runnerStep_spec (s0 : Frontier) (f : Nat → Nat → Bool) (l : List (Nat × Nat))
    (i b r owner next : Nat) (hi : s0.vertex i = some b) (hr : s0.vertex r = some owner)
    (hd : s0.doms r = some next) (hlog : Logged s0 f l) :
    ∃ f' l', runnerStep i b ⟨r, { s0 with frontier := f, frontiers := l }⟩
        = some ⟨next, { s0 with frontier := f', frontiers := l' }⟩ ∧
      (∀ r' j', f' r' j' = true ↔ (f r' j' = true ∨ (r' = r ∧ j' = i))) ∧
      Logged s0 f' l' := by
  have hbits : ∀ r' j', setAt f r (setAt (f r) i true) r' j' = true ↔
      (f r' j' = true ∨ (r' = r ∧ j' = i)) := by
    intro r' j'
    by_cases hr' : r' = r
    · subst hr'
      by_cases hj' : j' = i
      · subst hj'; simp
      · simp [setAt_ne _ _ hj', hj']
    · simp [setAt_ne _ _ hr', hr']
  by_cases hbit : f r i = true
  · refine ⟨setAt f r (setAt (f r) i true), l, ?_, hbits, ?_⟩
    · simp [runnerStep, bitSet, hbit, hd]
    · have hsame : setAt f r (setAt (f r) i true) = f :=
        setAt_self f r _ (setAt_self (f r) i true hbit).symm
      rw [hsame]
      exact hlog
  · refine ⟨setAt f r (setAt (f r) i true), l ++ [(owner, b)], ?_, hbits, ?_⟩
    · simp [runnerStep, bitSet, hbit, hr, hd]
    · intro A B
      rw [List.mem_append, hlog A B]
      constructor
      · rintro (⟨r', j', h1, h2, h3⟩ | h)
        · exact ⟨r', j', h1, h2, (hbits r' j').mpr (Or.inl h3)⟩
        · simp only [List.mem_singleton, Prod.mk.injEq] at h
          obtain ⟨rfl, rfl⟩ := h
          exact ⟨r, i, hr, hi, (hbits r i).mpr (Or.inr ⟨rfl, rfl⟩)⟩
      · rintro ⟨r', j', h1, h2, h3⟩
        rcases (hbits r' j').mp h3 with h | ⟨rfl, rfl⟩
        · exact Or.inl ⟨r', j', h1, h2, h⟩
        · rw [hr] at h1
          rw [hi] at h2
          cases h1
          cases h2
          exact Or.inr (List.mem_singleton.mpr rfl)

/-- The runner loop started at the reachable predecessor `p` sets the bit of the join
block along the chain of `p`, up to the `doms` slot of the join block. -/
theorem frontierPred_spec {g : Pipeline} {s0 : Frontier} (hS : Solved g s0)
    (f : Nat → Nat → Bool) (l : List (Nat × Nat)) (fuel i b pb p dom : Nat)
    (hfuel : s0.count < fuel) (hi : s0.vertex i = some b) (hp : s0.index pb = some p)
    (hdom : Chain s0.doms p dom) (hlog : Logged s0 f l) :
    ∃ f' l', frontierPred fuel i b (some dom) { s0 with frontier := f, frontiers := l } pb
        = some { s0 with frontier := f', frontiers := l' } ∧
      (∀ r j, f' r j = true ↔ (f r j = true ∨ (j = i ∧ Chain s0.doms p r ∧ r < dom))) ∧
      Logged s0 f' l' := by
  have F := hS.forest
  have hE := hS.enum
  have hpN := (hE.index_lt pb p hp).1
  let Inv : Runner → Prop := fun st =>
    ∃ f' l', st.state = { s0 with frontier := f', frontiers := l' } ∧
      Chain s0.doms p st.runner ∧ st.runner ≤ dom ∧
      (∀ r j, f' r j = true ↔
        (f r j = true ∨ (j = i ∧ Chain s0.doms p r ∧ r < st.runner))) ∧
      Logged s0 f' l'
  have hstep : ∀ st, Inv st → decide (some st.runner ≠ some dom) = true →
      ∃ st', runnerStep i b st = some st' ∧ Inv st' ∧ dom - st'.runner < dom - st.runner := by
    intro ⟨r, s⟩ ⟨f1, l1, hs, hch, hle, hbits, hlog1⟩ hc
    simp only at hs hch hle hbits
    subst hs
    have hne : r ≠ dom := by simpa using hc
    have hrdom : Chain s0.doms r dom := hch.linear F hdom hle
    rcases hrdom.inv with h | ⟨next, hnext, hnd⟩
    · exact absurd h.symm hne
    · have hrN : r < s0.count := by
        have := hch.le_root F (by omega)
        have := hE.count_pos
        omega
      obtain ⟨owner, hown, _⟩ := hE.vertex_index r hrN
      obtain ⟨f2, l2, hrun, hbits2, hlog2⟩ :=
        runnerStep_spec s0 f1 l1 i b r owner next hi hown hnext hlog1
      have hrlt : r < next := F.up r next hnext (by
        have := (F.bound r next hnext).2
        have := hnd.le F
        have := hdom.le_root F (by omega)
        omega)
      refine ⟨_, hrun, ⟨f2, l2, rfl, hch.trans (Chain.single hnext), hnd.le F, ?_, hlog2⟩, ?_⟩
      · intro r' j'
        rw [hbits2 r' j', hbits r' j']
        constructor
        · rintro ((h | ⟨h1, h2, h3⟩) | ⟨rfl, rfl⟩)
          · exact Or.inl h
          · exact Or.inr ⟨h1, h2, by simp only; omega⟩
          · exact Or.inr ⟨rfl, hch, hrlt⟩
        · rintro (h | ⟨h1, h2, h3⟩)
          · exact Or.inl (Or.inl h)
          · by_cases hlt : r' < r
            · exact Or.inl (Or.inr ⟨h1, h2, hlt⟩)
            · right
              refine ⟨?_, h1⟩
              have hrr' : Chain s0.doms r r' := hch.linear F h2 (by omega)
              rcases hrr'.inv with h | ⟨n', hn', hn''⟩
              · exact h
              · rw [hnext] at hn'
                cases hn'
                have := hn''.le F
                simp only at h3
                omega
      · have := hnd.le F
        simp only
        omega
  have hinit : Inv ⟨p, { s0 with frontier := f, frontiers := l }⟩ := by
    refine ⟨f, l, rfl, Chain.refl _, hdom.le F, ?_, hlog⟩
    intro r j
    constructor
    · exact Or.inl
    · rintro (h | ⟨_, h2, h3⟩)
      · exact h
      · have := h2.le F
        simp only at h3
        omega
  obtain ⟨st', hrun, ⟨f', l', hs, _, _, hbits, hlog'⟩, hc⟩ :=
    whileLoop_spec Inv (fun st => dom - st.runner) hstep fuel _ hinit (by
      have := hdom.le_root F (by omega)
      simp only
      omega)
  have heq : st'.runner = dom := by simpa using hc
  refine ⟨f', l', ?_, ?_, hlog'⟩
  · simp only [frontierPred, hp, hrun, Option.map_some', hs]
  · intro r j
    rw [hbits r j, heq]

/-- The walk of `computeOneFrontier` over a list of predecessors. -/
theorem frontierPreds_spec {g : Pipeline} {s0 : Frontier} (hS : Solved g s0)
    (fuel i b dom : Nat) (hfuel : s0.count < fuel) (hi : s0.vertex i = some b) :
    ∀ (preds : List Nat) (f : Nat → Nat → Bool) (l : List (Nat × Nat)),
      (∀ p ∈ preds.filterMap s0.index, Chain s0.doms p dom) → Logged s0 f l →
      ∃ f' l', preds.foldlM (frontierPred fuel i b (some dom))
          { s0 with frontier := f, frontiers := l }
          = some { s0 with frontier := f', frontiers := l' } ∧
        (∀ r j, f' r j = true ↔ (f r j = true ∨
          (j = i ∧ ∃ p ∈ preds.filterMap s0.index, Chain s0.doms p r ∧ r < dom))) ∧
        Logged s0 f' l' := by
  intro preds
  induction preds with
  | nil =>
    intro f l _ hlog
    exact ⟨f, l, rfl, by simp, hlog⟩
  | cons pb rest ih =>
    intro f l hdom hlog
    cases hp : s0.index pb with
    | none =>
      have hfm : (pb :: rest).filterMap s0.index = rest.filterMap s0.index := by
        simp [List.filterMap_cons, hp]
      rw [hfm] at hdom ⊢
      obtain ⟨f', l', hrun, hbits, hlog'⟩ := ih f l hdom hlog
      refine ⟨f', l', ?_, hbits, hlog'⟩
      simp only [List.foldlM_cons, Option.bind_eq_bind]
      have : frontierPred fuel i b (some dom) { s0 with frontier := f, frontiers := l } pb
          = some { s0 with frontier := f, frontiers := l } := by
        simp [frontierPred, hp]
      rw [this]
      exact hrun
    | some p =>
      have hfm : (pb :: rest).filterMap s0.index = p :: rest.filterMap s0.index := by
        simp [List.filterMap_cons, hp]
      rw [hfm] at hdom ⊢
      obtain ⟨f1, l1, hrun1, hbits1, hlog1⟩ := frontierPred_spec hS f l fuel i b pb p dom hfuel
        hi hp (hdom p (List.mem_cons_self _ _)) hlog
      obtain ⟨f', l', hrun, hbits, hlog'⟩ :=
        ih f1 l1 (fun q hq => hdom q (List.mem_cons_of_mem _ hq)) hlog1
      refine ⟨f', l', ?_, ?_, hlog'⟩
      · simp only [List.foldlM_cons, Option.bind_eq_bind, hrun1, Option.some_bind]
        exact hrun
      · intro r j
        rw [hbits r j, hbits1 r j]
        constructor
        · rintro ((h | ⟨h1, h2⟩) | ⟨h1, q, hq, h2⟩)
          · exact Or.inl h
          · exact Or.inr ⟨h1, p, List.mem_cons_self _ _, h2⟩
          · exact Or.inr ⟨h1, q, List.mem_cons_of_mem _ hq, h2⟩
        · rintro (h | ⟨h1, q, hq, h2⟩)
          · exact Or.inl (Or.inl h)
          · rcases List.mem_cons.mp hq with rfl | hq
            · exact Or.inl (Or.inr ⟨h1, h2⟩)
            · exact Or.inr ⟨h1, q, hq, h2⟩

/-- The `doms` slot of a block is a point of the chain of every reachable predecessor. -/
theorem Solved.dom_on_chain {g : Pipeline} {s0 : Frontier} (hS : Solved g s0) {i dom p : Nat}
    (hi : i < s0.count) (hd : s0.doms i = some dom) (hp : p ∈ predsI g s0 i) :
    Chain s0.doms p dom := by
  have F := hS.forest
  have hE := hS.enum
  obtain ⟨b, hv, _⟩ := hE.vertex_index i hi
  obtain ⟨pb, _, hip⟩ := (mem_predsI hv).mp hp
  have hpN := (hE.index_lt pb p hip).1
  have hpset : s0.doms p ≠ none := hS.all_set hpN
  by_cases hroot : i < s0.count - 1
  · obtain ⟨c, hc, hnca⟩ := hS.fix.2 i hroot
    rw [mix_self] at hnca
    rw [hd] at hc
    cases hc
    exact hnca.2.1 p hp hpset
  · have : i = s0.count - 1 := by omega
    subst this
    rw [F.root] at hd
    cases hd
    exact Chain.root F hpset

/-- The body of the loop of `computeFrontier` at the slot `i`. -/
theorem computeFrontierAt_spec {g : Pipeline} {s0 : Frontier} (hS : Solved g s0)
    (fuel i : Nat) (hfuel : s0.count < fuel) (hi : i < s0.count)
    (f : Nat → Nat → Bool) (l : List (Nat × Nat)) (hlog : Logged s0 f l) :
    ∃ f' l', computeFrontierAt fuel g { s0 with frontier := f, frontiers := l } i
        = some { s0 with frontier := f', frontiers := l' } ∧
      (∀ r j, f' r j = true ↔ (f r j = true ∨ (j = i ∧ OnWalk g s0 r i))) ∧
      Logged s0 f' l' := by
  have hE := hS.enum
  obtain ⟨b, hv, hib⟩ := hE.vertex_index i hi
  obtain ⟨dom, hd⟩ := Option.ne_none_iff_exists'.mp (hS.all_set hi)
  by_cases hlen : (g.block b).predecessors.length < 2
  · refine ⟨f, l, by simp [computeFrontierAt, hv, hlen], ?_, hlog⟩
    intro r j
    constructor
    · exact Or.inl
    · rintro (h | ⟨_, b', dom', hv', hlen', _⟩)
      · exact h
      · rw [hv] at hv'
        cases hv'
        omega
  · have hP : predsI g s0 i = (g.block b).predecessors.filterMap s0.index := by
      simp only [predsI, hv]
    obtain ⟨f', l', hrun, hbits, hlog'⟩ := frontierPreds_spec hS fuel i b dom hfuel hv
      (g.block b).predecessors f l
      (fun p hp => hS.dom_on_chain hi hd (by rw [hP]; exact hp)) hlog
    refine ⟨f', l', ?_, ?_, hlog'⟩
    · simp only [computeFrontierAt, hv, Option.some_bind, hlen, if_false, computeOneFrontier,
        hib, hd]
      exact hrun
    · intro r j
      rw [hbits r j, ← hP]
      constructor
      · rintro (h | ⟨h1, p, hp, h2⟩)
        · exact Or.inl h
        · exact Or.inr ⟨h1, b, dom, hv, by omega, hd, p, hp, h2⟩
      · rintro (h | ⟨h1, b', dom', hv', _, hd', p, hp, h2⟩)
        · exact Or.inl h
        · rw [hd] at hd'
          cases hd'
          exact Or.inr ⟨h1, p, hp, h2⟩

/-- The loop of `computeFrontier` over the slots `0, ..., k-1`. -/
theorem computeFrontier_loop {g : Pipeline} {s0 : Frontier} (hS : Solved g s0)
    (fuel : Nat) (hfuel : s0.count < fuel) (f : Nat → Nat → Bool) (l : List (Nat × Nat))
    (hlog : Logged s0 f l) :
    ∀ k, k ≤ s0.count →
      ∃ f' l', (List.range k).foldlM (computeFrontierAt fuel g)
          { s0 with frontier := f, frontiers := l }
          = some { s0 with frontier := f', frontiers := l' } ∧
        (∀ r j, f' r j = true ↔ (f r j = true ∨ (j < k ∧ OnWalk g s0 r j))) ∧
        Logged s0 f' l' := by
  intro k
  induction k with
  | zero =>
    intro _
    exact ⟨f, l, rfl, by simp, hlog⟩
  | succ k ih =>
    intro hk
    obtain ⟨f1, l1, hrun1, hbits1, hlog1⟩ := ih (by omega)
    obtain ⟨f', l', hrun, hbits, hlog'⟩ :=
      computeFrontierAt_spec hS fuel k hfuel (by omega) f1 l1 hlog1
    refine ⟨f', l', ?_, ?_, hlog'⟩
    · rw [List.range_succ, List.foldlM_append, hrun1]
      simp only [Option.bind_eq_bind, Option.some_bind, List.foldlM_cons, List.foldlM_nil, hrun]
      rfl
    · intro r j
      rw [hbits r j, hbits1 r j]
      constructor
      · rintro ((h | ⟨h1, h2⟩) | ⟨rfl, h2⟩)
        · exact Or.inl h
        · exact Or.inr ⟨by omega, h2⟩
        · exact Or.inr ⟨by omega, h2⟩
      · rintro (h | ⟨h1, h2⟩)
        · exact Or.inl (Or.inl h)
        · by_cases hjk : j = k
          · subst hjk; exact Or.inr ⟨rfl, h2⟩
          · exact Or.inl (Or.inr ⟨by omega, h2⟩)

/-! ## `computeLoops` -/

theorem FloodReach.snoc {g : Pipeline} {start x b p : Nat} (h : FloodReach g start x b)
    (hb : b ≠ start) (hp : p ∈ (g.block b).predecessors) : FloodReach g start x p := by
  induction h with
  | refl => exact FloodReach.step hb hp (FloodReach.refl _)
  | step h1 h2 _ ih => exact FloodReach.step h1 h2 (ih hb hp)

theorem floodWork_mark (g : Pipeline) (visited : Nat → Bool) (b : Nat)
    (hb : visited b = false) (hlt : b < g.blocks.length) :
    floodWork g (setAt visited b true) + ((g.block b).predecessors.length + 2)
      = floodWork g visited := by
  unfold floodWork
  have hmem : b ∈ (Finset.range g.blocks.length).filter (fun b => visited b = false) := by
    simp [hb, hlt]
  have heq : (Finset.range g.blocks.length).filter (fun x => setAt visited b true x = false)
      = ((Finset.range g.blocks.length).filter (fun b => visited b = false)).erase b := by
    ext x
    by_cases hx : x = b
    · subst hx; simp
    · simp [setAt_ne _ _ hx, hx]
  rw [heq]
  exact Finset.sum_erase_add _ _ hmem

/-- One step of the flood loop keeps the invariant and reduces the work. -/
theorem floodStep_spec {g : Pipeline} (wf : WellFormed g) (l : Loop) (depth0 : Nat → Nat)
    (st : Flood) (hinv : FloodInv g l depth0 st) (hc : (!st.queue.isEmpty) = true) :
    ∃ st', floodStep g l.start st = some st' ∧ FloodInv g l depth0 st' ∧
      floodWork g st'.visited + st'.queue.length < floodWork g st.visited + st.queue.length := by
  obtain ⟨queue, visited, depth⟩ := st
  cases queue with
  | nil => simp at hc
  | cons block rest =>
    obtain ⟨hq, hv, hd, hstop, hclosed⟩ := hinv
    simp only at hq hv hd hstop hclosed
    obtain ⟨hbreach, hblt⟩ := hq block (List.mem_cons_self _ _)
    by_cases hvis : visited block = true
    · have hsame : setAt visited block true = visited := setAt_self visited block true hvis
      refine ⟨⟨rest, visited, depth⟩, by simp [floodStep, bitSet, hvis, hsame],
        ⟨?_, hv, hd, ?_, ?_⟩, by simp⟩
      · intro x hx
        exact hq x (List.mem_cons_of_mem _ hx)
      · rcases hstop with h | h
        · exact Or.inl h
        · rcases List.mem_cons.mp h with h | h
          · exact Or.inl (h ▸ hvis)
          · exact Or.inr h
      · intro x hx hxs p hp
        rcases hclosed x hx hxs p hp with h | h
        · exact Or.inl h
        · rcases List.mem_cons.mp h with h | h
          · exact Or.inl (h ▸ hvis)
          · exact Or.inr h
    · have hvis' : visited block = false := by simpa using hvis
      have hwork := floodWork_mark g visited block hvis' hblt
      have hv' : ∀ x, setAt visited block true x = true → FloodReach g l.start l.stop x := by
        intro x hx
        by_cases hxb : x = block
        · subst hxb; exact hbreach
        · rw [setAt_ne _ _ hxb] at hx; exact hv x hx
      have hd' : ∀ x, setAt depth block (depth block + 1) x
          = depth0 x + (if setAt visited block true x = true then 1 else 0) := by
        intro x
        by_cases hxb : x = block
        · subst hxb
          have := hd x
          simp only [hvis'] at this
          simp [this]
        · rw [setAt_ne _ _ hxb, setAt_ne _ _ hxb]; exact hd x
      have hkeep : ∀ p, (visited p = true ∨ p ∈ block :: rest) →
          ∀ q : List Nat, (setAt visited block true p = true ∨ p ∈ q ++ rest) := by
        intro p hp q
        by_cases hpb : p = block
        · subst hpb; left; simp
        · rcases hp with h | h
          · left; rw [setAt_ne _ _ hpb]; exact h
          · rcases List.mem_cons.mp h with h | h
            · exact absurd h hpb
            · right; exact List.mem_append_right _ h
      by_cases hstart : block = l.start
      · have hrun : floodStep g l.start ⟨block :: rest, visited, depth⟩
            = some ⟨rest, setAt visited block true, setAt depth block (depth block + 1)⟩ := by
          simp only [floodStep, bitSet, hvis', Bool.not_false, Bool.not_true,
            Bool.false_eq_true, if_false]
          rw [if_pos hstart]
        refine ⟨⟨rest, setAt visited block true, setAt depth block (depth block + 1)⟩,
          hrun, ⟨?_, hv', hd', ?_, ?_⟩, ?_⟩
        · intro x hx
          exact hq x (List.mem_cons_of_mem _ hx)
        · simpa using hkeep l.stop hstop []
        · intro x hx hxs p hp
          have hxb : x ≠ block := fun h => hxs (h.trans hstart)
          simp only at hx
          rw [setAt_ne _ _ hxb] at hx
          simpa using hkeep p (hclosed x hx hxs p hp) []
        · simp only [List.length_cons]
          omega
      · have hrun : floodStep g l.start ⟨block :: rest, visited, depth⟩
            = some ⟨(g.block block).predecessors.reverse ++ rest, setAt visited block true,
                setAt depth block (depth block + 1)⟩ := by
          simp only [floodStep, bitSet, hvis', Bool.not_false, Bool.not_true,
            Bool.false_eq_true, if_false]
          rw [if_neg hstart]
        refine ⟨⟨(g.block block).predecessors.reverse ++ rest, setAt visited block true,
            setAt depth block (depth block + 1)⟩,
          hrun, ⟨?_, hv', hd', ?_, ?_⟩, ?_⟩
        · intro x hx
          rcases List.mem_append.mp hx with h | h
          · have hp : x ∈ (g.block block).predecessors := List.mem_reverse.mp h
            exact ⟨hbreach.snoc hstart hp, wf.2.2.1 block hblt x hp⟩
          · exact hq x (List.mem_cons_of_mem _ h)
        · exact hkeep l.stop hstop _
        · intro x hx hxs p hp
          by_cases hxb : x = block
          · subst hxb
            right
            exact List.mem_append_left _ (List.mem_reverse.mpr hp)
          · simp only at hx
            rw [setAt_ne _ _ hxb] at hx
            exact hkeep p (hclosed x hx hxs p hp) _
        · simp only [List.length_cons, List.length_append, List.length_reverse]
          omega

/-- The bound on the work of one flood. -/
theorem floodWork_le (g : Pipeline) (visited : Nat → Bool) :
    floodWork g visited ≤ floodWork g (fun _ => false) := by
  unfold floodWork
  apply Finset.sum_le_sum_of_subset
  intro x hx
  simp only [Finset.mem_filter, Finset.mem_range] at hx ⊢
  exact ⟨hx.1, trivial⟩

/-- The flood of one recorded loop terminates and increments, once, the depth of exactly
the blocks of the flood. -/
theorem floodLoop_spec {g : Pipeline} (wf : WellFormed g) (l : Loop)
    (hstop : l.stop < g.blocks.length) (depth0 : Nat → Nat) (fuel : Nat)
    (hfuel : floodWork g (fun _ => false) + 1 < fuel) :
    ∃ depth, floodLoop fuel g depth0 l = some depth ∧
      (∀ b, InFlood g b l → depth b = depth0 b + 1) ∧
      (∀ b, ¬ InFlood g b l → depth b = depth0 b) := by
  have hinit : FloodInv g l depth0
      { queue := [l.stop], visited := bitEmpty, loopDepth := depth0 } := by
    refine ⟨?_, ?_, ?_, Or.inr (List.mem_singleton.mpr rfl), ?_⟩
    · intro x hx
      simp only [List.mem_singleton] at hx
      subst hx
      exact ⟨FloodReach.refl _, hstop⟩
    · intro x hx; cases hx
    · intro x; simp [bitEmpty]
    · intro x hx; cases hx
  obtain ⟨st, hrun, hinv, hc⟩ := whileLoop_spec (FloodInv g l depth0)
    (fun st => floodWork g st.visited + st.queue.length)
    (fun st hst hc => floodStep_spec wf l depth0 st hst hc) fuel _ hinit (by
      have : floodWork g bitEmpty = floodWork g (fun _ => false) := rfl
      simp only [List.length_singleton]; omega)
  have hq : st.queue = [] := by simpa using hc
  have hall : ∀ x b, FloodReach g l.start x b → st.visited x = true → st.visited b = true := by
    intro x b h
    induction h with
    | refl => exact id
    | step h1 h2 _ ih =>
      intro hx
      rcases hinv.closed _ hx h1 _ h2 with h | h
      · exact ih h
      · rw [hq] at h; cases h
  have hstopv : st.visited l.stop = true := by
    rcases hinv.stop with h | h
    · exact h
    · rw [hq] at h; cases h
  refine ⟨st.loopDepth, by simp only [floodLoop, hrun, Option.map_some'], ?_, ?_⟩
  · intro b hb
    rw [hinv.depth b, if_pos (hall _ _ hb hstopv)]
  · intro b hb
    have : ¬ st.visited b = true := fun h => hb (hinv.visited b h)
    rw [hinv.depth b, if_neg this]
    rfl

/-- The floods of a list of loops. -/
theorem floodLoops_spec {g : Pipeline} (wf : WellFormed g) (fuel : Nat)
    (hfuel : floodWork g (fun _ => false) + 1 < fuel) :
    ∀ (loops : List Loop) (depth0 : Nat → Nat), (∀ l ∈ loops, l.stop < g.blocks.length) →
      ∃ depth, loops.foldlM (floodLoop fuel g) depth0 = some depth ∧
        ∀ b k, depth0 b = k → ∃ m, CountIs (InFlood g b) loops m ∧ depth b = k + m := by
  intro loops
  induction loops with
  | nil =>
    intro depth0 _
    exact ⟨depth0, rfl, fun b k h => ⟨0, CountIs.nil, h⟩⟩
  | cons l rest ih =>
    intro depth0 hlt
    obtain ⟨d1, hrun1, hin, hout⟩ :=
      floodLoop_spec wf l (hlt l (List.mem_cons_self _ _)) depth0 fuel hfuel
    obtain ⟨depth, hrun, hcount⟩ := ih d1 (fun x hx => hlt x (List.mem_cons_of_mem _ hx))
    refine ⟨depth, ?_, ?_⟩
    · simp only [List.foldlM_cons, Option.bind_eq_bind, hrun1, Option.some_bind]
      exact hrun
    · intro b k hk
      by_cases hb : InFlood g b l
      · obtain ⟨m, hm, hd⟩ := hcount b (k + 1) (by rw [hin b hb, hk])
        exact ⟨m + 1, CountIs.hit hb hm, by omega⟩
      · obtain ⟨m, hm, hd⟩ := hcount b k (by rw [hout b hb, hk])
        exact ⟨m, CountIs.miss hb hm, hd⟩

/-- The loop that the first `for` loop of `computeLoops` records at block `i`, if any. -/
theorem detect_fold (g : Pipeline) (dominates : Nat → Nat → Bool) :
    ∀ (k : Nat) (depth0 : Nat → Nat),
      (List.range k).foldl (detectAt g dominates) (depth0, [])
        = (fun b => if b < k then 0 else depth0 b,
           (List.range k).filterMap fun i =>
            if (g.block i).predecessors.length ≠ 2 then none
            else ((g.block i).predecessors.find? (fun pred => dominates i pred)).map
              fun pred => (⟨i, pred⟩ : Loop)) := by
  intro k
  induction k with
  | zero => intro depth0; simp
  | succ k ih =>
    intro depth0
    rw [List.range_succ, List.foldl_append, ih, List.filterMap_append]
    have hdepth : setAt (fun b => if b < k then 0 else depth0 b) k 0
        = fun b => if b < k + 1 then 0 else depth0 b := by
      funext b
      by_cases hb : b = k
      · subst hb; simp
      · rw [setAt_ne _ _ hb]
        by_cases hlt : b < k
        · simp [hlt, Nat.lt_succ_of_lt hlt]
        · have : ¬ b < k + 1 := by omega
          simp [hlt, this]
    by_cases hlen : (g.block k).predecessors.length ≠ 2
    · simp [detectAt, hlen, hdepth]
    · cases hfind : (g.block k).predecessors.find? (fun pred => dominates k pred) with
      | none => simp [detectAt, hlen, hfind, hdepth]
      | some pred =>
        have hlen' : (g.block k).predecessors.length = 2 := by simpa using hlen
        simp [detectAt, hlen', hfind, hdepth, List.filterMap_cons]

theorem recorded_eq (g : Pipeline) (dominates : Nat → Nat → Bool) :
    recorded g dominates = (List.range g.blocks.length).filterMap fun i =>
      if (g.block i).predecessors.length ≠ 2 then none
      else ((g.block i).predecessors.find? (fun pred => dominates i pred)).map
        fun pred => (⟨i, pred⟩ : Loop) := by
  simp only [recorded, detect_fold]

theorem recorded_lt {g : Pipeline} (wf : WellFormed g) (dominates : Nat → Nat → Bool) :
    ∀ l ∈ recorded g dominates, l.start < g.blocks.length ∧
      l.stop ∈ (g.block l.start).predecessors ∧ l.stop < g.blocks.length := by
  intro l hl
  rw [recorded_eq] at hl
  obtain ⟨i, hi, hl⟩ := List.mem_filterMap.mp hl
  have hi' := List.mem_range.mp hi
  by_cases hlen : (g.block i).predecessors.length ≠ 2
  · simp [hlen] at hl
  · rw [if_neg hlen] at hl
    obtain ⟨pred, hfind, rfl⟩ := Option.map_eq_some'.mp hl
    have hmem := List.mem_of_find?_eq_some hfind
    exact ⟨hi', hmem, wf.2.2.1 i hi' pred hmem⟩

/-- Total correctness of `computeLoops`: the depth of a block is the number of recorded
loops whose flood holds it. -/
theorem computeLoops_spec {g : Pipeline} (wf : WellFormed g) (dominates : Nat → Nat → Bool)
    (s : Frontier) (fuel : Nat) (hfuel : floodWork g (fun _ => false) + 1 < fuel) :
    ∃ depth, computeLoops fuel g dominates s = some { s with loopDepth := depth } ∧
      ∀ b, b < g.blocks.length → CountIs (InFlood g b) (recorded g dominates) (depth b) := by
  have hfold := detect_fold g dominates g.blocks.length s.loopDepth
  have hrec := recorded_eq g dominates
  obtain ⟨depth, hrun, hcount⟩ := floodLoops_spec wf fuel hfuel (recorded g dominates)
    (fun b => if b < g.blocks.length then 0 else s.loopDepth b)
    (fun l hl => (recorded_lt wf dominates l hl).2.2)
  refine ⟨depth, ?_, ?_⟩
  · simp only [computeLoops, hfold]
    rw [← hrec, hrun]
    rfl
  · intro b hb
    obtain ⟨m, hm, hd⟩ := hcount b 0 (by simp [hb])
    rw [hd, Nat.zero_add]
    exact hm

/-! ## The whole of `compute` -/

/-- Total correctness of `computeFrontier` after the solve, on clear bit fields. -/
theorem computeFrontier_spec {g : Pipeline} {s : Frontier} (hS : Solved g s)
    (hbits : ∀ i j, s.frontier i j = false) (hlog : s.frontiers = []) (fuel : Nat)
    (hfuel : s.count < fuel) :
    ∃ f l, computeFrontier fuel g s = some { s with frontier := f, frontiers := l } ∧
      (∀ r j, f r j = true ↔ (j < s.count ∧ OnWalk g s r j)) ∧ Logged s f l := by
  have hlogged : Logged s s.frontier s.frontiers := by
    intro A B
    rw [hlog]
    constructor
    · intro h; cases h
    · rintro ⟨r, j, _, _, h⟩
      rw [hbits r j] at h
      cases h
  obtain ⟨f, l, hrun, hb, hl⟩ :=
    computeFrontier_loop hS fuel hfuel s.frontier s.frontiers hlogged s.count le_rfl
  refine ⟨f, l, hrun, ?_, hl⟩
  intro r j
  rw [hb r j, hbits r j]
  simp

/-! ### Fuel -/

theorem frontierPred_mono {i b : Nat} {dom : Option Nat} {s r : Frontier} {p : Nat}
    {fuel fuel' : Nat} (hle : fuel ≤ fuel') (h : frontierPred fuel i b dom s p = some r) :
    frontierPred fuel' i b dom s p = some r := by
  unfold frontierPred at h ⊢
  cases hp : s.index p with
  | none => rw [hp] at h; exact h
  | some runner =>
    rw [hp] at h
    simp only [Option.map_eq_some'] at h ⊢
    obtain ⟨st, hst, rfl⟩ := h
    exact ⟨st, whileLoop_mono (fun _ _ hb => hb) fuel fuel' _ st hle hst, rfl⟩

theorem computeFrontierAt_mono {g : Pipeline} {s r : Frontier} {i : Nat} {fuel fuel' : Nat}
    (hle : fuel ≤ fuel') (h : computeFrontierAt fuel g s i = some r) :
    computeFrontierAt fuel' g s i = some r := by
  unfold computeFrontierAt at h ⊢
  cases hv : s.vertex i with
  | none => rw [hv] at h; simp at h
  | some b =>
    rw [hv] at h
    simp only [Option.some_bind] at h ⊢
    by_cases hlen : (g.block b).predecessors.length < 2
    · rw [if_pos hlen] at h ⊢; exact h
    · rw [if_neg hlen] at h ⊢
      unfold computeOneFrontier at h ⊢
      cases hb : s.index b with
      | none => rw [hb] at h; simp at h
      | some bi =>
        rw [hb] at h
        simp only [Option.some_bind] at h ⊢
        exact foldlM_mono (fun _ _ _ hx => frontierPred_mono hle hx) _ _ _ h

theorem computeFrontier_mono {g : Pipeline} {s r : Frontier} {fuel fuel' : Nat}
    (hle : fuel ≤ fuel') (h : computeFrontier fuel g s = some r) :
    computeFrontier fuel' g s = some r :=
  foldlM_mono (fun _ _ _ hx => computeFrontierAt_mono hle hx) _ _ _ h

theorem floodLoop_mono {g : Pipeline} {depth r : Nat → Nat} {l : Loop} {fuel fuel' : Nat}
    (hle : fuel ≤ fuel') (h : floodLoop fuel g depth l = some r) :
    floodLoop fuel' g depth l = some r := by
  simp only [floodLoop, Option.map_eq_some'] at h ⊢
  obtain ⟨st, hst, rfl⟩ := h
  exact ⟨st, whileLoop_mono (fun _ _ hb => hb) fuel fuel' _ st hle hst, rfl⟩

theorem computeLoops_mono {g : Pipeline} {dominates : Nat → Nat → Bool} {s r : Frontier}
    {fuel fuel' : Nat} (hle : fuel ≤ fuel') (h : computeLoops fuel g dominates s = some r) :
    computeLoops fuel' g dominates s = some r := by
  simp only [computeLoops, Option.map_eq_some'] at h ⊢
  obtain ⟨depth, hd, rfl⟩ := h
  exact ⟨depth, foldlM_mono (fun _ _ _ hx => floodLoop_mono hle hx) _ _ _ hd, rfl⟩

theorem compute_mono {g : Pipeline} {dominates : List (Nat × Nat) → Nat → Nat → Bool}
    {r : Frontier} {fuel fuel' : Nat} (hle : fuel ≤ fuel')
    (h : compute fuel g dominates = some r) : compute fuel' g dominates = some r := by
  unfold compute computeFrom at h ⊢
  cases h1 : enumerate fuel g (Frontier.create g) with
  | none => rw [h1] at h; simp at h
  | some s1 =>
    rw [h1] at h
    rw [enumerate_mono hle h1]
    simp only [Option.some_bind] at h ⊢
    cases h2 : computeDominance fuel g s1 with
    | none => rw [h2] at h; simp at h
    | some s2 =>
      rw [h2] at h
      rw [computeDominance_mono hle h2]
      simp only [Option.some_bind] at h ⊢
      cases h3 : computeFrontier fuel g s2 with
      | none => rw [h3] at h; simp at h
      | some s3 =>
        rw [h3] at h
        rw [computeFrontier_mono hle h3]
        simp only [Option.some_bind] at h ⊢
        exact computeLoops_mono hle h

theorem dominance_mono {g : Pipeline} {r : Frontier} {fuel fuel' : Nat} (hle : fuel ≤ fuel')
    (h : dominance fuel g = some r) : dominance fuel' g = some r :=
  bind_mono (f := fun n (s : Frontier) => enumerate n g s)
    (k := fun n s => computeDominance n g s)
    (fun _ _ _ _ hnm h => enumerate_mono hnm h)
    (fun _ _ _ _ hnm h => computeDominance_mono hnm h) hle h

theorem solved_mono {g : Pipeline} {r : Frontier} {fuel fuel' : Nat} (hle : fuel ≤ fuel')
    (h : solved fuel g = some r) : solved fuel' g = some r :=
  bind_mono (f := fun n (s : Frontier) => enumerate n g s)
    (k := fun n s => solve n g s)
    (fun _ _ _ _ hnm h => enumerate_mono hnm h)
    (fun _ _ _ _ hnm h => solve_mono hnm h) hle h

/-! ### Results -/

/-- The result of `computeDominance` on the state left by `enumerate`, in abstract form. -/
theorem computeDominance_result {g : Pipeline} (wf : WellFormed g) {s0 : Frontier}
    (hE : Enumerated g s0)
    (hd0 : ∀ i, s0.doms i = if i = s0.count - 1 then some (s0.count - 1) else none)
    (fuel : Nat) (hfuel : 2 * (s0.count * s0.count) < fuel) :
    ∃ s2, computeDominance fuel g s0 = some s2 ∧ Solved g s2 ∧
      s2.children = s0.children ++ childList s2 ∧ s2.frontier = s0.frontier ∧
      s2.frontiers = s0.frontiers ∧ s2.count = s0.count := by
  obtain ⟨d, hS, hrun⟩ := computeDominance_spec wf hE hd0 fuel hfuel
  exact ⟨_, hrun, hS.congr rfl rfl rfl rfl, rfl, rfl, rfl, rfl⟩

/-- The result of `computeFrontier` after the solve, in abstract form. -/
theorem computeFrontier_result {g : Pipeline} {s : Frontier} (hS : Solved g s)
    (hbits : ∀ i j, s.frontier i j = false) (hlog : s.frontiers = []) (fuel : Nat)
    (hfuel : s.count < fuel) :
    ∃ s3, computeFrontier fuel g s = some s3 ∧ Solved g s3 ∧ s3.children = s.children ∧
      childList s3 = childList s ∧
      (∀ r j, s3.frontier r j = true ↔ (j < s3.count ∧ OnWalk g s3 r j)) ∧
      Logged s3 s3.frontier s3.frontiers := by
  obtain ⟨f, l, hrun, hb, hl⟩ := computeFrontier_spec hS hbits hlog fuel hfuel
  exact ⟨_, hrun, hS.congr rfl rfl rfl rfl, rfl, rfl, hb, hl⟩

/-- The result of `computeLoops`, in abstract form. -/
theorem computeLoops_result {g : Pipeline} (wf : WellFormed g)
    (dominates : Nat → Nat → Bool) {s : Frontier} (hS : Solved g s) (fuel : Nat)
    (hfuel : floodWork g (fun _ => false) + 1 < fuel) :
    ∃ s4, computeLoops fuel g dominates s = some s4 ∧ Solved g s4 ∧
      s4.children = s.children ∧ childList s4 = childList s ∧
      ((∀ r j, s.frontier r j = true ↔ (j < s.count ∧ OnWalk g s r j)) →
        ∀ r j, s4.frontier r j = true ↔ (j < s4.count ∧ OnWalk g s4 r j)) ∧
      (Logged s s.frontier s.frontiers → Logged s4 s4.frontier s4.frontiers) ∧
      ∀ b, b < g.blocks.length →
        CountIs (InFlood g b) (recorded g dominates) (s4.loopDepth b) := by
  obtain ⟨depth, hrun, hdepth⟩ := computeLoops_spec wf dominates s fuel hfuel
  exact ⟨_, hrun, hS.congr rfl rfl rfl rfl, rfl, rfl, fun h => h, fun h => h, hdepth⟩

/-- With enough fuel, `compute` on a fresh object runs to completion. -/
theorem compute_run (g : Pipeline) (wf : WellFormed g)
    (dominates : List (Nat × Nat) → Nat → Nat → Bool) (fuel : Nat)
    (hfuel : fuelBound g ≤ fuel) :
    ∃ s, compute fuel g dominates = some s ∧ Computed g dominates s := by
  unfold fuelBound at hfuel
  obtain ⟨s0, hs0⟩ := (enumerate_spec g wf).1 fuel (by omega)
  obtain ⟨hE, hch, hfr, hbits, hd0⟩ := (enumerate_spec g wf).2 fuel s0 hs0
  have hcount := hE.count_le wf
  have hsq : s0.count * s0.count ≤ g.blocks.length * g.blocks.length :=
    Nat.mul_le_mul hcount hcount
  obtain ⟨s2, hrun2, hS2, hch2, hbits2, hfr2, hcount2⟩ :=
    computeDominance_result wf hE hd0 fuel (by omega)
  obtain ⟨s3, hrun3, hS3, hch3, hcl3, hb3, hl3⟩ := computeFrontier_result hS2
    (fun i j => by rw [hbits2]; exact hbits i j) (by rw [hfr2]; exact hfr) fuel (by omega)
  obtain ⟨s4, hrun4, hS4, hch4, hcl4, hb4, hl4, hdepth⟩ :=
    computeLoops_result wf (dominates s3.children) hS3 fuel (by omega)
  refine ⟨s4, ?_, ⟨hS4, ?_, hb4 hb3, hl4 hl3, ?_⟩⟩
  · simp only [compute, computeFrom, hs0, Option.some_bind, hrun2, hrun3]
    exact hrun4
  · rw [hch4, hch3, hch2, hch, hcl4, hcl3, List.nil_append]
  · rw [hch4]
    exact hdepth

/-- Total correctness of `compute` on a fresh object. -/
theorem compute_spec (g : Pipeline) (wf : WellFormed g)
    (dominates : List (Nat × Nat) → Nat → Nat → Bool) :
    (∃ fuel s, compute fuel g dominates = some s) ∧
    ∀ fuel s, compute fuel g dominates = some s → Computed g dominates s := by
  constructor
  · obtain ⟨s, hs, _⟩ := compute_run g wf dominates (fuelBound g) le_rfl
    exact ⟨_, s, hs⟩
  · intro fuel s hs
    obtain ⟨s', hs', hprop⟩ := compute_run g wf dominates (max fuel (fuelBound g))
      (le_max_right _ _)
    have := compute_mono (le_max_left fuel (fuelBound g)) hs
    rw [hs'] at this
    cases this
    exact hprop

/-- Total correctness of the run `enumerate(); while (changed) changed = computeOne();`. -/
theorem solved_spec (g : Pipeline) (wf : WellFormed g) :
    (∃ fuel s, solved fuel g = some s) ∧ ∀ fuel s, solved fuel g = some s → Solved g s := by
  have hrun : ∀ fuel, fuelBound g ≤ fuel → ∃ s, solved fuel g = some s ∧ Solved g s := by
    intro fuel hfuel
    unfold fuelBound at hfuel
    obtain ⟨s0, hs0⟩ := (enumerate_spec g wf).1 fuel (by omega)
    obtain ⟨hE, _, _, _, hd0⟩ := (enumerate_spec g wf).2 fuel s0 hs0
    have hcount := hE.count_le wf
    have hsq : s0.count * s0.count ≤ g.blocks.length * g.blocks.length :=
      Nat.mul_le_mul hcount hcount
    obtain ⟨d, hrun, hS⟩ := solve_solved wf hE hd0 fuel (by omega)
    exact ⟨_, by simp only [solved, hs0, Option.some_bind]; exact hrun, hS⟩
  constructor
  · obtain ⟨s, hs, _⟩ := hrun (fuelBound g) le_rfl
    exact ⟨_, s, hs⟩
  · intro fuel s hs
    obtain ⟨s', hs', hprop⟩ := hrun (max fuel (fuelBound g)) (le_max_right _ _)
    have := solved_mono (le_max_left fuel (fuelBound g)) hs
    rw [hs'] at this
    cases this
    exact hprop

/-! ## Dominance read off the solved forest -/

theorem EPath.mem_self {g : Pipeline} {l : List Nat} {b : Nat} (h : EPath g l b) : b ∈ l := by
  cases h with
  | entry => exact List.mem_singleton.mpr rfl
  | step _ _ => exact List.mem_cons_self _ _

theorem EPath.reachable_of_mem {g : Pipeline} {l : List Nat} {b x : Nat} (h : EPath g l b)
    (hx : x ∈ l) : Reachable g x := by
  induction h with
  | entry =>
    simp only [List.mem_singleton] at hx
    subst hx
    exact reachable_entry g
  | @step l u v hu hv ih =>
    rcases List.mem_cons.mp hx with h | h
    · subst h; exact ⟨_, EPath.step hu hv⟩
    · exact ih h

theorem Dominates.from_reachable {g : Pipeline} {a b : Nat} (h : Dominates g a b)
    (hb : Reachable g b) : Reachable g a := by
  obtain ⟨l, hl⟩ := hb
  exact hl.reachable_of_mem (h l hl)

theorem Dominates.refl (g : Pipeline) (b : Nat) : Dominates g b b :=
  fun _ hl => hl.mem_self

/-- Dominance between indexed blocks is dominance between their indices. -/
theorem domI_iff {g : Pipeline} {s : Frontier} (hE : Enumerated g s) {A B a b : Nat}
    (hA : s.index A = some a) (hB : s.index B = some b) :
    DomI g s a b ↔ Dominates g A B := by
  obtain ⟨haN, hvA⟩ := hE.index_lt A a hA
  obtain ⟨hbN, hvB⟩ := hE.index_lt B b hB
  constructor
  · rintro ⟨A', B', h1, h2, _, _, h⟩
    rw [hvA] at h1
    rw [hvB] at h2
    cases h1
    cases h2
    exact h
  · intro h
    exact ⟨A, B, hvA, hvB, haN, hbN, h⟩

/-- After the solve, the chain of a reachable block holds exactly its dominators. -/
theorem Solved.chain_iff {g : Pipeline} (wf : WellFormed g) {s : Frontier} (hS : Solved g s)
    {A B a b : Nat} (hA : s.index A = some a) (hB : s.index B = some b) :
    Chain s.doms b a ↔ Dominates g A B := by
  rw [chain_iff_dom wf hS.enum hS.forest hS.fix hS.sem (hS.enum.index_lt B b hB).1 a]
  exact domI_iff hS.enum hA hB

theorem Solved.index_of_reachable {g : Pipeline} {s : Frontier} (hS : Solved g s) {b : Nat}
    (hb : Reachable g b) : ∃ i, s.index b = some i ∧ i < s.count ∧ s.vertex i = some b := by
  obtain ⟨i, hi⟩ := Option.ne_none_iff_exists'.mp ((hS.enum.reach b).mpr hb)
  exact ⟨i, hi, hS.enum.index_lt b i hi⟩

theorem Solved.index_ne_root {g : Pipeline} {s : Frontier} (hS : Solved g s) {b i : Nat}
    (hi : s.index b = some i) (hb : b ≠ 0) : i < s.count - 1 := by
  have := (hS.enum.index_lt b i hi).1
  by_contra hlt
  have hiN : i = s.count - 1 := by omega
  subst hiN
  exact hb (hS.enum.index_inj hi hS.enum.entry_index)

/-- After the solve, the `doms` slot of a reachable block other than the entry holds its
immediate dominator, which is unique. -/
theorem Solved.idom {g : Pipeline} (wf : WellFormed g) {s : Frontier} (hS : Solved g s)
    {b : Nat} (hb : Reachable g b) (hb0 : b ≠ 0) :
    ∃ i c a, s.index b = some i ∧ s.doms i = some c ∧ s.vertex c = some a ∧
      ImmediateDominator g a b ∧ ∀ a', ImmediateDominator g a' b → a' = a := by
  have hE := hS.enum
  have F := hS.forest
  obtain ⟨i, hi, hiN, hvi⟩ := hS.index_of_reachable hb
  have hroot := hS.index_ne_root hi hb0
  obtain ⟨c, hc, hic, hcN⟩ := hS.up hroot
  obtain ⟨a, hva, hia⟩ := hE.vertex_index c (by omega)
  have hclosest : ∀ x, StrictlyDominates g x b → Dominates g x a := by
    intro x ⟨hx, hxb⟩
    obtain ⟨k, hk, _, _⟩ := hS.index_of_reachable (hx.from_reachable hb)
    have hch : Chain s.doms i k := (hS.chain_iff wf hk hi).mpr hx
    rcases hch.inv with h | ⟨c', hc', h'⟩
    · subst h
      exact absurd (hE.index_inj hk hi) hxb
    · rw [hc] at hc'
      cases hc'
      exact (hS.chain_iff wf hk hia).mp h'
  have hsd : StrictlyDominates g a b := by
    refine ⟨(hS.chain_iff wf hia hi).mp (Chain.single hc), ?_⟩
    intro hab
    subst hab
    rw [hi] at hia
    cases hia
    omega
  refine ⟨i, c, a, hi, hc, hva, ⟨hsd, hclosest⟩, ?_⟩
  intro a' ⟨hsd', hclosest'⟩
  obtain ⟨k, hk, _, _⟩ := hS.index_of_reachable (hsd'.1.from_reachable hb)
  have h1 : Chain s.doms c k := (hS.chain_iff wf hk hia).mpr (hclosest a' hsd')
  have h2 : Chain s.doms k c := (hS.chain_iff wf hia hk).mpr (hclosest' a hsd)
  have := h1.le F
  have := h2.le F
  have hkc : k = c := by omega
  subst hkc
  exact hE.index_inj hk hia

/-! ## The registered dominator tree -/

theorem childList_length (s : Frontier) : (childList s).length = s.count - 1 := by
  simp [childList]

theorem Solved.childList_get {g : Pipeline} {s : Frontier} (hS : Solved g s) {i : Nat}
    (hi : i < s.count - 1) :
    ∃ c p ch, s.doms i = some c ∧ i < c ∧ s.vertex c = some p ∧ s.vertex i = some ch ∧
      s.index p = some c ∧ s.index ch = some i ∧ (childList s)[i]? = some (p, ch) := by
  obtain ⟨c, hc, hic, hcN⟩ := hS.up hi
  obtain ⟨p, hp, hip⟩ := hS.enum.vertex_index c (by omega)
  obtain ⟨ch, hch, hich⟩ := hS.enum.vertex_index i (by omega)
  refine ⟨c, p, ch, hc, hic, hp, hch, hip, hich, ?_⟩
  simp [childList, List.getElem?_map, List.getElem?_range hi, hc, hp, hch]

theorem Solved.mem_childList {g : Pipeline} {s : Frontier} (hS : Solved g s) {p ch : Nat}
    (h : (p, ch) ∈ childList s) :
    ∃ i c, i < s.count - 1 ∧ s.index ch = some i ∧ s.index p = some c ∧
      s.doms i = some c ∧ i < c := by
  simp only [childList, List.mem_map, List.mem_range] at h
  obtain ⟨i, hi, heq⟩ := h
  obtain ⟨c, p', ch', hc, hic, hp, hch, hip, hich, _⟩ := hS.childList_get hi
  simp only [hc, Option.some_bind, hp, Option.getD_some, hch, Prod.mk.injEq] at heq
  obtain ⟨rfl, rfl⟩ := heq
  exact ⟨i, c, hi, hich, hip, hc, hic⟩

/-- The children registered by `computeDominance`: each reachable block other than the
entry, once. -/
theorem Solved.children_snd {g : Pipeline} {s : Frontier} (hS : Solved g s) :
    ((childList s).map Prod.snd).Nodup ∧
    ∀ b, b ∈ (childList s).map Prod.snd ↔ (Reachable g b ∧ b ≠ 0) := by
  have hE := hS.enum
  have hmap : (childList s).map Prod.snd
      = (List.range (s.count - 1)).map (fun i => (s.vertex i).getD 0) := by
    simp [childList, List.map_map, Function.comp_def]
  rw [hmap]
  constructor
  · refine List.Nodup.map_on ?_ (List.nodup_range _)
    intro x hx y hy hxy
    have hx' := List.mem_range.mp hx
    have hy' := List.mem_range.mp hy
    obtain ⟨bx, hbx, _⟩ := hE.vertex_index x (by omega)
    obtain ⟨by', hby, _⟩ := hE.vertex_index y (by omega)
    simp only [hbx, hby, Option.getD_some] at hxy
    subst hxy
    exact hE.vertex_inj (by omega) (by omega) hbx hby
  · intro b
    simp only [List.mem_map, List.mem_range]
    constructor
    · rintro ⟨i, hi, rfl⟩
      obtain ⟨b, hb, hib⟩ := hE.vertex_index i (by omega)
      simp only [hb, Option.getD_some]
      refine ⟨hE.reachable hib, ?_⟩
      intro h0
      subst h0
      rw [hE.entry_index] at hib
      cases hib
      omega
    · rintro ⟨hb, hb0⟩
      obtain ⟨i, hi, _, hvi⟩ := hS.index_of_reachable hb
      exact ⟨i, hS.index_ne_root hi hb0, by simp [hvi]⟩

/-- The registered parent links lead from every reachable block to the entry. -/
theorem Solved.to_entry {g : Pipeline} {s : Frontier} (hS : Solved g s)
    (hch : s.children = childList s) :
    ∀ (k b i : Nat), s.count - 1 - i ≤ k → s.index b = some i →
      Relation.ReflTransGen (ParentOf s) b 0 := by
  intro k
  induction k with
  | zero =>
    intro b i hk hi
    have := (hS.enum.index_lt b i hi).1
    have hiN : i = s.count - 1 := by omega
    subst hiN
    rw [hS.enum.index_inj hi hS.enum.entry_index]
  | succ k ih =>
    intro b i hk hi
    by_cases hb0 : b = 0
    · subst hb0; exact Relation.ReflTransGen.refl
    · have hroot := hS.index_ne_root hi hb0
      obtain ⟨c, p, ch, hc, hic, hp, hvch, hip, hich, hget⟩ := hS.childList_get hroot
      have : ch = b := hS.enum.index_inj hich hi
      subst this
      have hmem : (p, ch) ∈ s.children := by
        rw [hch]
        exact List.getElem?_mem hget
      exact Relation.ReflTransGen.head hmem (ih p c (by omega) hip)

/-- The registered parent links have no cycle. -/
theorem Solved.acyclic {g : Pipeline} {s : Frontier} (hS : Solved g s)
    (hch : s.children = childList s) (b : Nat) : ¬ Relation.TransGen (ParentOf s) b b := by
  have hstep : ∀ x y, ParentOf s x y → (s.index x).getD 0 < (s.index y).getD 0 := by
    intro x y h
    unfold ParentOf at h
    rw [hch] at h
    obtain ⟨i, c, _, hi, hc, _, hic⟩ := hS.mem_childList h
    simp [hi, hc, hic]
  have htrans : ∀ x y, Relation.TransGen (ParentOf s) x y →
      (s.index x).getD 0 < (s.index y).getD 0 := by
    intro x y h
    induction h with
    | single h => exact hstep _ _ h
    | tail _ h ih => exact lt_trans ih (hstep _ _ h)
  intro h
  exact lt_irrefl _ (htrans b b h)

/-! ## No pass assigns the slot of the entry -/

theorem computeOneAt_root {g : Pipeline} {fuel : Nat} {st st' : Frontier × Bool} {i N : Nat}
    (hvi : ∀ b, st.1.vertex i = some b → st.1.index b = some i) (hi : i ≠ N)
    (h : computeOneAt fuel g st i = some st') :
    st'.1.doms N = st.1.doms N ∧ st'.1.vertex = st.1.vertex ∧ st'.1.index = st.1.index := by
  unfold computeOneAt at h
  cases hv : st.1.vertex i with
  | none => rw [hv] at h; simp at h
  | some b =>
    rw [hv] at h
    simp only [Option.some_bind] at h
    cases hf : (g.block b).predecessors.foldlM (foldIdom fuel st.1) none with
    | none => rw [hf] at h; simp at h
    | some newIdom =>
      rw [hf, hvi b hv] at h
      simp only [Option.some_bind] at h
      by_cases hd : st.1.doms i ≠ newIdom
      · rw [if_pos hd] at h
        cases h
        exact ⟨setAt_ne _ _ (Ne.symm hi), rfl, rfl⟩
      · rw [if_neg hd] at h
        cases h
        exact ⟨rfl, rfl, rfl⟩

/-- A pass of `computeOne`, whatever `doms` holds, leaves the slot of the entry alone. -/
theorem computeOne_root {g : Pipeline} {s : Frontier} (hE : Enumerated g s) {fuel : Nat}
    {st st' : Frontier} {ch : Bool} (hv : st.vertex = s.vertex) (hi : st.index = s.index)
    (hc : st.count = s.count) (h : computeOne fuel g st = some (st', ch)) :
    st'.doms (s.count - 1) = st.doms (s.count - 1) := by
  have hloop : ∀ (k : Nat) (a r : Frontier × Bool), k ≤ s.count - 1 →
      a.1.vertex = s.vertex → a.1.index = s.index →
      (List.range k).reverse.foldlM (computeOneAt fuel g) a = some r →
      r.1.doms (s.count - 1) = a.1.doms (s.count - 1) := by
    intro k
    induction k with
    | zero =>
      intro a r _ _ _ hr
      simp only [List.range_zero, List.reverse_nil, List.foldlM_nil] at hr
      cases hr
      rfl
    | succ k ih =>
      intro a r hk hav hai hr
      rw [List.range_succ, List.reverse_append] at hr
      simp only [List.reverse_cons, List.reverse_nil, List.nil_append, List.singleton_append,
        List.foldlM_cons, Option.bind_eq_bind] at hr
      cases hstep : computeOneAt fuel g a k with
      | none => rw [hstep] at hr; simp at hr
      | some a' =>
        rw [hstep] at hr
        simp only [Option.some_bind] at hr
        have hvi : ∀ b, a.1.vertex k = some b → a.1.index b = some k := by
          intro b hb
          rw [hav] at hb
          rw [hai]
          exact hE.index_vertex (by omega) hb
        obtain ⟨h1, h2, h3⟩ := computeOneAt_root (N := s.count - 1) hvi (by omega) hstep
        rw [ih a' r (by omega) (h2.trans hav) (h3.trans hai) hr, h1]
  have := hloop (s.count - 1) (st, false) (st', ch) le_rfl hv hi (by
    have : computeOne fuel g st
        = (List.range (st.count - 1)).reverse.foldlM (computeOneAt fuel g) (st, false) := rfl
    rw [this, hc] at h
    exact h)
  exact this

/-! ## Counting -/

theorem CountIs.le_length {α : Type} {P : α → Prop} {l : List α} {k : Nat}
    (h : CountIs P l k) : k ≤ l.length := by
  induction h with
  | nil => exact le_rfl
  | hit _ _ ih => simp only [List.length_cons]; omega
  | miss _ _ ih => simp only [List.length_cons]; omega

theorem CountIs.eq_zero {α : Type} {P : α → Prop} {l : List α} {k : Nat}
    (h : CountIs P l k) (hnone : ∀ a ∈ l, ¬ P a) : k = 0 := by
  induction h with
  | nil => rfl
  | hit hp _ _ => exact absurd hp (hnone _ (List.mem_cons_self _ _))
  | miss _ _ ih => exact ih (fun a ha => hnone a (List.mem_cons_of_mem _ ha))

theorem CountIs.of_iff {α : Type} {P Q : α → Prop} {l : List α} {k : Nat}
    (h : CountIs P l k) (hPQ : ∀ a ∈ l, (P a ↔ Q a)) : CountIs Q l k := by
  induction h with
  | nil => exact CountIs.nil
  | hit hp _ ih =>
    exact CountIs.hit ((hPQ _ (List.mem_cons_self _ _)).mp hp)
      (ih (fun a ha => hPQ a (List.mem_cons_of_mem _ ha)))
  | miss hp _ ih =>
    exact CountIs.miss (fun hq => hp ((hPQ _ (List.mem_cons_self _ _)).mpr hq))
      (ih (fun a ha => hPQ a (List.mem_cons_of_mem _ ha)))

/-- Counting over the recorded loops is counting over the blocks that record one. -/
theorem CountIs.of_filterMap {α β : Type} {P : β → Prop} (f : α → Option β) :
    ∀ (l : List α) (k : Nat), CountIs P (l.filterMap f) k →
      CountIs (fun a => ∃ b, f a = some b ∧ P b) l k := by
  intro l
  induction l with
  | nil =>
    intro k h
    cases h
    exact CountIs.nil
  | cons a l ih =>
    intro k h
    cases hfa : f a with
    | none =>
      rw [List.filterMap_cons_none hfa] at h
      refine CountIs.miss ?_ (ih k h)
      rintro ⟨b, hb, _⟩
      rw [hfa] at hb
      cases hb
    | some b =>
      rw [List.filterMap_cons_some hfa] at h
      cases h with
      | hit hp h' => exact CountIs.hit ⟨b, hfa, hp⟩ (ih _ h')
      | miss hp h' =>
        refine CountIs.miss ?_ (ih _ h')
        rintro ⟨b', hb', hp'⟩
        rw [hfa] at hb'
        cases hb'
        exact hp hp'

/-! ## The registered frontier, in terms of dominance -/

/-- A pair of reachable blocks is registered iff the frontier walk from the second
reaches the first. -/
theorem Computed.registered_iff {g : Pipeline}
    {dominates : List (Nat × Nat) → Nat → Nat → Bool} {s : Frontier}
    (hC : Computed g dominates s) {A B a b : Nat} (hA : s.index A = some a)
    (hB : s.index B = some b) : (A, B) ∈ s.frontiers ↔ OnWalk g s a b := by
  have hS := hC.solved
  have hE := hS.enum
  obtain ⟨haN, hvA⟩ := hE.index_lt A a hA
  obtain ⟨hbN, hvB⟩ := hE.index_lt B b hB
  rw [hC.logged A B]
  constructor
  · rintro ⟨r, j, hr, hj, hbit⟩
    obtain ⟨hjN, hwalk⟩ := (hC.bits r j).mp hbit
    have hjb : j = b := hE.vertex_inj hjN hbN hj hvB
    subst hjb
    obtain ⟨b', dom, hvb, _, hd, p, hp, hch, hlt⟩ := hwalk
    obtain ⟨pb, _, hip⟩ := (mem_predsI hvb).mp hp
    have hpN := (hE.index_lt pb p hip).1
    have hrN : r ≤ s.count - 1 := hch.le_root hS.forest (by omega)
    have hra : r = a := hE.vertex_inj (by omega) haN hr hvA
    subst hra
    exact ⟨b', dom, hvb, by assumption, hd, p, hp, hch, hlt⟩
  · intro hwalk
    exact ⟨a, b, hvA, hvB, (hC.bits a b).mpr ⟨hbN, hwalk⟩⟩

/-- What a frontier walk means: the owner dominates a reachable predecessor of the join
block and does not strictly dominate the join block, which lists two predecessors. -/
theorem Solved.walk_dominates {g : Pipeline} (wf : WellFormed g) {s : Frontier}
    (hS : Solved g s) {A B a b : Nat} (hA : s.index A = some a) (hB : s.index B = some b)
    (h : OnWalk g s a b) :
    2 ≤ (g.block B).predecessors.length ∧
    (∃ p ∈ (g.block B).predecessors, Reachable g p ∧ Dominates g A p) ∧
    ¬ StrictlyDominates g A B := by
  have hE := hS.enum
  obtain ⟨hbN, hvB⟩ := hE.index_lt B b hB
  obtain ⟨B', dom, hvb, hlen, hd, p, hp, hch, hlt⟩ := h
  rw [hvB] at hvb
  cases hvb
  obtain ⟨pb, hpb, hip⟩ := (mem_predsI hvB).mp hp
  refine ⟨hlen, ⟨pb, hpb, hE.reachable hip, (hS.chain_iff wf hA hip).mp hch⟩, ?_⟩
  rintro ⟨hdom, hne⟩
  have hba : Chain s.doms b a := (hS.chain_iff wf hA hB).mpr hdom
  rcases hba.inv with h | ⟨c, hc, h'⟩
  · subst h
    exact hne (hE.index_inj hA hB)
  · rw [hd] at hc
    cases hc
    have := h'.le hS.forest
    omega

/-- The converse: a block that dominates a reachable predecessor of a join block without
strictly dominating the join block is reached by the frontier walk. -/
theorem Solved.walk_of_dominates {g : Pipeline} (wf : WellFormed g) {s : Frontier}
    (hS : Solved g s) {A B a b pb : Nat} (hA : s.index A = some a) (hB : s.index B = some b)
    (hpb : pb ∈ (g.block B).predecessors) (hreach : Reachable g pb)
    (hdom : Dominates g A pb) (hns : ¬ StrictlyDominates g A B)
    (hlen : 2 ≤ (g.block B).predecessors.length ∨ B ≠ 0) (hAB : A ≠ 0 ∨ B ≠ 0) :
    OnWalk g s a b := by
  have hE := hS.enum
  have F := hS.forest
  obtain ⟨hbN, hvB⟩ := hE.index_lt B b hB
  obtain ⟨haN, hvA⟩ := hE.index_lt A a hA
  obtain ⟨p, hip, hpN, _⟩ := hS.index_of_reachable hreach
  have hp : p ∈ predsI g s b := (mem_predsI hvB).mpr ⟨pb, hpb, hip⟩
  obtain ⟨dom, hd⟩ := Option.ne_none_iff_exists'.mp (hS.all_set hbN)
  have hpdom : Chain s.doms p dom := hS.dom_on_chain hbN hd hp
  have hpa : Chain s.doms p a := (hS.chain_iff wf hA hip).mpr hdom
  have hlt : a < dom := by
    by_contra hge
    have hda : Chain s.doms dom a := hpdom.linear F hpa (by omega)
    by_cases hB0 : B = 0
    · subst hB0
      rw [hE.entry_index] at hB
      cases hB
      rw [F.root] at hd
      cases hd
      have haroot : a = s.count - 1 := by omega
      subst haroot
      rcases hAB with h | h
      · exact h (hE.index_inj hA hE.entry_index)
      · exact h rfl
    · have hroot := hS.index_ne_root hB hB0
      have hup := F.up b dom hd hroot
      have hAB' : Dominates g A B := (hS.chain_iff wf hA hB).mp (Chain.step hd hda)
      have : A = B := by
        by_contra hne
        exact hns ⟨hAB', hne⟩
      subst this
      rw [hA] at hB
      cases hB
      have := hda.le F
      omega
  refine ⟨B, dom, hvB, ?_, hd, p, hp, hpa, hlt⟩
  by_contra hlen'
  have hB0 : B ≠ 0 := by
    rcases hlen with h | h
    · exact absurd h hlen'
    · exact h
  have hroot := hS.index_ne_root hB hB0
  obtain ⟨c, hc, hnca⟩ := hS.fix.2 b hroot
  rw [mix_self] at hnca
  rw [hd] at hc
  cases hc
  have hsingle : (g.block B).predecessors = [pb] := by
    cases hl : (g.block B).predecessors with
    | nil => rw [hl] at hpb; cases hpb
    | cons x rest =>
      rw [hl] at hpb hlen'
      cases rest with
      | nil =>
        simp only [List.mem_singleton] at hpb
        rw [hpb]
      | cons y r => simp at hlen'
  have hP : predsI g s b = [p] := by
    simp [predsI, hvB, hsingle, List.filterMap_cons, hip]
  have hdp : Chain s.doms dom p := by
    apply hnca.2.2 p
    intro q hq _
    rw [hP] at hq
    simp only [List.mem_singleton] at hq
    subst hq
    exact Chain.refl _
  have := hdp.le F
  have := hpa.le F
  omega

/-! ## The claims -/

/-- C1: on every well-formed CFG, `enumerate` followed by `computeDominance` runs to
completion, and for every reachable block `b` other than the entry the block
`vertex[doms[index[b]]]` is the immediate dominator of `b`: it strictly dominates `b`,
every strict dominator of `b` dominates it, and it is the only block with these two
properties. -/
theorem computeDominance_immediate_dominator (g : Pipeline) (wf : WellFormed g) :
    (∃ fuel s, dominance fuel g = some s) ∧
    ∀ fuel s, dominance fuel g = some s →
      ∀ b, Reachable g b → b ≠ 0 →
        ∃ i c a, s.index b = some i ∧ s.doms i = some c ∧ s.vertex c = some a ∧
          ImmediateDominator g a b ∧ ∀ a', ImmediateDominator g a' b → a' = a := by
  refine ⟨(dominance_spec g wf).1, ?_⟩
  intro fuel s hs b hb hb0
  exact ((dominance_spec g wf).2 fuel s hs).1.idom wf hb hb0

/-- C1, on the diamond. -/
theorem computeDominance_immediate_dominator_witness :
    WellFormed diamond ∧
    ((∃ fuel s, dominance fuel diamond = some s) ∧
    ∀ fuel s, dominance fuel diamond = some s →
      ∀ b, Reachable diamond b → b ≠ 0 →
        ∃ i c a, s.index b = some i ∧ s.doms i = some c ∧ s.vertex c = some a ∧
          ImmediateDominator diamond a b ∧ ∀ a', ImmediateDominator diamond a' b → a' = a) :=
  ⟨by decide, computeDominance_immediate_dominator diamond (by decide)⟩

/-- C2: on every well-formed CFG, `enumerate` runs to completion; afterwards a block has a
non-null `index` iff it is reachable from the entry, `index` maps the reachable blocks
one-to-one onto `0..count-1`, `vertex` is its inverse, and unreachable blocks keep
`index = null`. -/
theorem enumerate_index_bijection (g : Pipeline) (wf : WellFormed g) :
    (∃ fuel s, enumerate fuel g (Frontier.create g) = some s) ∧
    ∀ fuel s, enumerate fuel g (Frontier.create g) = some s →
      (∀ b, s.index b ≠ none ↔ Reachable g b) ∧
      (∀ b, Reachable g b → ∃ k, k < s.count ∧ s.index b = some k ∧ s.vertex k = some b) ∧
      (∀ a b k, s.index a = some k → s.index b = some k → a = b) ∧
      (∀ k, k < s.count → ∃ b, Reachable g b ∧ s.vertex k = some b ∧ s.index b = some k) ∧
      (∀ b, ¬ Reachable g b → s.index b = none) := by
  constructor
  · obtain ⟨s, hs⟩ := (enumerate_spec g wf).1 (2 * g.blocks.length + 1) (by omega)
    exact ⟨_, s, hs⟩
  · intro fuel s hs
    obtain ⟨hE, _⟩ := (enumerate_spec g wf).2 fuel s hs
    refine ⟨hE.reach, ?_, ?_, ?_, ?_⟩
    · intro b hb
      obtain ⟨k, hk⟩ := Option.ne_none_iff_exists'.mp ((hE.reach b).mpr hb)
      exact ⟨k, (hE.index_lt b k hk).1, hk, (hE.index_lt b k hk).2⟩
    · intro a b k ha hb
      exact hE.index_inj ha hb
    · intro k hk
      obtain ⟨b, hv, hi⟩ := hE.vertex_index k hk
      exact ⟨b, hE.reachable hi, hv, hi⟩
    · intro b hb
      by_contra h
      exact hb ((hE.reach b).mp h)

/-- C2, on the graph with an unreachable block. -/
theorem enumerate_index_bijection_witness :
    WellFormed danglingPred ∧
    ((∃ fuel s, enumerate fuel danglingPred (Frontier.create danglingPred) = some s) ∧
    ∀ fuel s, enumerate fuel danglingPred (Frontier.create danglingPred) = some s →
      (∀ b, s.index b ≠ none ↔ Reachable danglingPred b) ∧
      (∀ b, Reachable danglingPred b →
        ∃ k, k < s.count ∧ s.index b = some k ∧ s.vertex k = some b) ∧
      (∀ a b k, s.index a = some k → s.index b = some k → a = b) ∧
      (∀ k, k < s.count →
        ∃ b, Reachable danglingPred b ∧ s.vertex k = some b ∧ s.index b = some k) ∧
      (∀ b, ¬ Reachable danglingPred b → s.index b = none)) :=
  ⟨by decide, enumerate_index_bijection danglingPred (by decide)⟩

/-- C3: on the acyclic well-formed graph entry -> A, entry -> B, A -> B (successors of
the entry listed as `[A, B]`), `enumerate` numbers `A` with `0` and its successor `B`
with `1`: the edge `A -> B` has `index[B] > index[A]`, so `vertex` is not a depth-first
postorder. -/
theorem enumerate_numbers_successor_later :
    WellFormed forwardEdge ∧ Edge forwardEdge 1 2 ∧
    (enumerate 7 forwardEdge (Frontier.create forwardEdge)).map
      (fun s => (s.index 1, s.index 2, s.index 0, s.count))
      = some (some 0, some 1, some 2, 3) := by
  refine ⟨by decide, ?_, by decide⟩
  show 2 ∈ (forwardEdge.block 1).successors
  decide

/-- C4, as stated, fails. On a single entry block with an edge to itself, the entry
dominates a predecessor of itself and does not strictly dominate itself, yet `compute`
registers nothing. On the graph entry -> B with an unreachable block U -> B, the block
`B` dominates, vacuously, the predecessor `U` of `B` and does not strictly dominate
itself, yet `compute` registers nothing. -/
theorem frontier_iff_fails :
    (WellFormed selfLoop ∧ Reachable selfLoop 0 ∧
      (∃ p ∈ (selfLoop.block 0).predecessors, Dominates selfLoop 0 p) ∧
      ¬ StrictlyDominates selfLoop 0 0 ∧
      ∃ s, compute 20 selfLoop treeDominates = some s ∧ (0, 0) ∉ s.frontiers) ∧
    (WellFormed danglingPred ∧ Reachable danglingPred 1 ∧
      (∃ p ∈ (danglingPred.block 1).predecessors, Dominates danglingPred 1 p) ∧
      ¬ StrictlyDominates danglingPred 1 1 ∧
      ∃ s, compute 20 danglingPred treeDominates = some s ∧ (1, 1) ∉ s.frontiers) := by
  constructor
  · refine ⟨by decide, reachable_entry _, ⟨0, by decide, Dominates.refl _ _⟩,
      fun h => h.2 rfl, ?_⟩
    have h : (compute 20 selfLoop treeDominates).map (fun s => s.frontiers) = some [] := by
      decide
    obtain ⟨s, hs, hf⟩ := Option.map_eq_some'.mp h
    refine ⟨s, hs, ?_⟩
    rw [hf]
    exact List.not_mem_nil _
  · have hunreach : ¬ Reachable danglingPred 2 := by
      intro h
      have := Reachable.closure (g := danglingPred) (fun b => b = 0 ∨ b = 1) (Or.inl rfl)
        (by
          rintro u v (rfl | rfl) hv
          · right
            have : v ∈ [1] := hv
            simpa using this
          · have : v ∈ ([] : List Nat) := hv
            cases this) h
      omega
    refine ⟨by decide, ?_, ⟨2, by decide, fun l hl => absurd ⟨l, hl⟩ hunreach⟩,
      fun h => h.2 rfl, ?_⟩
    · exact (reachable_entry danglingPred).step (by decide)
    · have h : (compute 20 danglingPred treeDominates).map (fun s => s.frontiers)
          = some [] := by decide
      obtain ⟨s, hs, hf⟩ := Option.map_eq_some'.mp h
      refine ⟨s, hs, ?_⟩
      rw [hf]
      exact List.not_mem_nil _

/-- C4, amended: on every well-formed CFG `compute` runs to completion, and for all
reachable blocks `A` and `B` with `B` not the entry block, `A.addFrontier(B)` is invoked
iff `A` dominates some reachable predecessor of `B` and `A` does not strictly dominate
`B`. -/
theorem frontier_iff_dominance (g : Pipeline) (wf : WellFormed g)
    (dominates : List (Nat × Nat) → Nat → Nat → Bool) :
    (∃ fuel s, compute fuel g dominates = some s) ∧
    ∀ fuel s, compute fuel g dominates = some s →
      ∀ A B, Reachable g A → Reachable g B → B ≠ 0 →
        ((A, B) ∈ s.frontiers ↔
          (∃ p ∈ (g.block B).predecessors, Reachable g p ∧ Dominates g A p) ∧
          ¬ StrictlyDominates g A B) := by
  refine ⟨(compute_spec g wf dominates).1, ?_⟩
  intro fuel s hs A B hA hB hB0
  have hC := (compute_spec g wf dominates).2 fuel s hs
  obtain ⟨a, ha, _, _⟩ := hC.solved.index_of_reachable hA
  obtain ⟨b, hb, _, _⟩ := hC.solved.index_of_reachable hB
  rw [hC.registered_iff ha hb]
  constructor
  · intro h
    exact (hC.solved.walk_dominates wf ha hb h).2
  · rintro ⟨⟨p, hp, hreach, hdom⟩, hns⟩
    exact hC.solved.walk_of_dominates wf ha hb hp hreach hdom hns (Or.inr hB0) (Or.inr hB0)

/-- C4, amended, on the diamond. -/
theorem frontier_iff_dominance_witness :
    WellFormed diamond ∧
    ((∃ fuel s, compute fuel diamond treeDominates = some s) ∧
    ∀ fuel s, compute fuel diamond treeDominates = some s →
      ∀ A B, Reachable diamond A → Reachable diamond B → B ≠ 0 →
        ((A, B) ∈ s.frontiers ↔
          (∃ p ∈ (diamond.block B).predecessors, Reachable diamond p ∧ Dominates diamond A p) ∧
          ¬ StrictlyDominates diamond A B)) :=
  ⟨by decide, frontier_iff_dominance diamond (by decide) treeDominates⟩

/-- C5, as stated, fails. On the graph 0 -> 1, 0 -> 2, 1 -> 2, 2 -> 3, 2 -> 4, 3 -> 5,
4 -> 5 the block `5` has two predecessors, block `1` has a path reaching it and does not
strictly dominate it, yet `1.addFrontier(5)` is not invoked. On the entry with an edge to
itself and a second predecessor, the entry has a path reaching itself and does not
strictly dominate itself, yet it is not registered in its own frontier. -/
theorem frontier_of_reaching_fails :
    (WellFormed lateJoin ∧ 2 ≤ (lateJoin.block 5).predecessors.length ∧
      Relation.ReflTransGen (Edge lateJoin) 1 5 ∧ ¬ StrictlyDominates lateJoin 1 5 ∧
      ∃ s, compute 20 lateJoin treeDominates = some s ∧ (1, 5) ∉ s.frontiers) ∧
    (WellFormed entryCycle ∧ 2 ≤ (entryCycle.block 0).predecessors.length ∧
      Relation.ReflTransGen (Edge entryCycle) 0 0 ∧ ¬ StrictlyDominates entryCycle 0 0 ∧
      ∃ s, compute 20 entryCycle treeDominates = some s ∧ (0, 0) ∉ s.frontiers) := by
  constructor
  · refine ⟨by decide, by decide, ?_, ?_, ?_⟩
    · have h12 : Edge lateJoin 1 2 := by show 2 ∈ (lateJoin.block 1).successors; decide
      have h23 : Edge lateJoin 2 3 := by show 3 ∈ (lateJoin.block 2).successors; decide
      have h35 : Edge lateJoin 3 5 := by show 5 ∈ (lateJoin.block 3).successors; decide
      exact ((Relation.ReflTransGen.single h12).tail h23).tail h35
    · rintro ⟨hdom, _⟩
      have hpath : EPath lateJoin [5, 3, 2, 0] 5 :=
        EPath.step (EPath.step (EPath.step EPath.entry (by decide)) (by decide)) (by decide)
      have := hdom _ hpath
      revert this
      decide
    · have h : (compute 20 lateJoin treeDominates).map
          (fun s => decide ((1, 5) ∈ s.frontiers)) = some false := by decide
      obtain ⟨s, hs, hf⟩ := Option.map_eq_some'.mp h
      exact ⟨s, hs, by simpa using hf⟩
  · refine ⟨by decide, by decide, Relation.ReflTransGen.refl, fun h => h.2 rfl, ?_⟩
    have h : (compute 20 entryCycle treeDominates).map
        (fun s => decide ((0, 0) ∈ s.frontiers)) = some false := by decide
    obtain ⟨s, hs, hf⟩ := Option.map_eq_some'.mp h
    exact ⟨s, hs, by simpa using hf⟩

/-- C5, amended: on every well-formed CFG `compute` runs to completion, and every block
`j` with at least two predecessors is registered in the dominance frontier of every
reachable block `n`, other than the entry block, that dominates a reachable predecessor
of `j` and does not strictly dominate `j`. -/
theorem frontier_of_dominating (g : Pipeline) (wf : WellFormed g)
    (dominates : List (Nat × Nat) → Nat → Nat → Bool) :
    (∃ fuel s, compute fuel g dominates = some s) ∧
    ∀ fuel s, compute fuel g dominates = some s →
      ∀ j n, 2 ≤ (g.block j).predecessors.length → Reachable g n → n ≠ 0 →
        (∃ p ∈ (g.block j).predecessors, Reachable g p ∧ Dominates g n p) →
        ¬ StrictlyDominates g n j → (n, j) ∈ s.frontiers := by
  refine ⟨(compute_spec g wf dominates).1, ?_⟩
  intro fuel s hs j n hlen hn hn0 ⟨p, hp, hreach, hdom⟩ hns
  have hC := (compute_spec g wf dominates).2 fuel s hs
  have hj : Reachable g j :=
    hreach.step ((wf.2.2.2 p (hreach.lt wf) j (by
      by_contra hlt
      have : g.block j = ⟨[], []⟩ := by
        unfold Pipeline.block
        exact List.getD_eq_default _ _ (by omega)
      rw [this] at hp
      cases hp)).mpr hp)
  obtain ⟨a, ha, _, _⟩ := hC.solved.index_of_reachable hn
  obtain ⟨b, hb, _, _⟩ := hC.solved.index_of_reachable hj
  rw [hC.registered_iff ha hb]
  exact hC.solved.walk_of_dominates wf ha hb hp hreach hdom hns (Or.inl hlen) (Or.inl hn0)

/-- C5, amended, on the graph with the late join. -/
theorem frontier_of_dominating_witness :
    WellFormed lateJoin ∧
    ((∃ fuel s, compute fuel lateJoin treeDominates = some s) ∧
    ∀ fuel s, compute fuel lateJoin treeDominates = some s →
      ∀ j n, 2 ≤ (lateJoin.block j).predecessors.length → Reachable lateJoin n → n ≠ 0 →
        (∃ p ∈ (lateJoin.block j).predecessors, Reachable lateJoin p ∧ Dominates lateJoin n p) →
        ¬ StrictlyDominates lateJoin n j → (n, j) ∈ s.frontiers) :=
  ⟨by decide, frontier_of_dominating lateJoin (by decide) treeDominates⟩

/-- C6, as stated, fails. On the graph entry -> H, H -> A, H -> B, A -> H, B -> H the edge
`A -> H` is a back edge (its target `H` dominates its source `A`) and the header `H` lies
in its natural loop, yet after `compute` the depth of `H` is `0`. -/
theorem loopDepth_natural_loops_fails :
    WellFormed threeWay ∧ Edge threeWay 2 1 ∧ Dominates threeWay 1 2 ∧
    FloodReach threeWay 1 2 1 ∧
    ∃ s, compute 20 threeWay treeDominates = some s ∧ s.loopDepth 1 = 0 := by
  refine ⟨by decide, ?_, ?_, ?_, ?_⟩
  · show 1 ∈ (threeWay.block 2).successors
    decide
  · intro l hl
    cases hl with
    | @step l' u _ hu hv =>
      have hu1 : u = 1 := by
        match u, hv with
        | 0, hv => exact absurd hv (by decide)
        | 1, _ => rfl
        | 2, hv => exact absurd hv (by decide)
        | 3, hv => exact absurd hv (by decide)
        | n + 4, hv =>
          have : threeWay.block (n + 4) = ⟨[], []⟩ := rfl
          rw [this] at hv
          cases hv
      subst hu1
      exact List.mem_cons_of_mem _ hu.mem_self
  · exact FloodReach.step (by decide) (by decide) (FloodReach.refl 1)
  · have h : (compute 20 threeWay treeDominates).map (fun s => s.loopDepth 1) = some 0 := by
      decide
    obtain ⟨s, hs, hf⟩ := Option.map_eq_some'.mp h
    exact ⟨s, hs, hf⟩

/-- C6, amended: on every well-formed CFG `compute` runs to completion, and afterwards the
depth of every block `b` is the number of recognised natural loops that contain it. A
loop is recognised at a block `h` only when `h` lists exactly two predecessors, its back
edge then being the edge from the first listed predecessor `e` that `h` dominates
according to the `dominates` test of the pipeline; its natural loop is the set of blocks
reachable backward from `e` up to and including the header `h`. -/
theorem loopDepth_recognised_loops (g : Pipeline) (wf : WellFormed g)
    (dominates : List (Nat × Nat) → Nat → Nat → Bool) :
    (∃ fuel s, compute fuel g dominates = some s) ∧
    ∀ fuel s, compute fuel g dominates = some s →
      ∀ b, b < g.blocks.length →
        CountIs
          (fun h => (g.block h).predecessors.length = 2 ∧
            ∃ e, (g.block h).predecessors.find? (fun p => dominates s.children h p) = some e ∧
              FloodReach g h e b)
          (List.range g.blocks.length) (s.loopDepth b) := by
  refine ⟨(compute_spec g wf dominates).1, ?_⟩
  intro fuel s hs b hb
  have hC := (compute_spec g wf dominates).2 fuel s hs
  have hcount := hC.depth b hb
  rw [recorded_eq] at hcount
  refine (CountIs.of_filterMap _ _ _ hcount).of_iff ?_
  intro h _
  by_cases hlen : (g.block h).predecessors.length = 2
  · simp only [hlen, ne_eq, not_true_eq_false, if_false, Option.map_eq_some', true_and]
    constructor
    · rintro ⟨l, ⟨e, he, rfl⟩, hflood⟩
      exact ⟨e, he, hflood⟩
    · rintro ⟨e, he, hflood⟩
      exact ⟨⟨h, e⟩, ⟨e, he, rfl⟩, hflood⟩
  · simp [hlen]

/-- C6, amended, on the simple loop. -/
theorem loopDepth_recognised_loops_witness :
    WellFormed simpleLoop ∧
    ((∃ fuel s, compute fuel simpleLoop treeDominates = some s) ∧
    ∀ fuel s, compute fuel simpleLoop treeDominates = some s →
      ∀ b, b < simpleLoop.blocks.length →
        CountIs
          (fun h => (simpleLoop.block h).predecessors.length = 2 ∧
            ∃ e, (simpleLoop.block h).predecessors.find?
                (fun p => treeDominates s.children h p) = some e ∧
              FloodReach simpleLoop h e b)
          (List.range simpleLoop.blocks.length) (s.loopDepth b)) :=
  ⟨by decide, loopDepth_recognised_loops simpleLoop (by decide) treeDominates⟩

/-- C7: on every well-formed CFG `compute` runs to completion, and afterwards the depth of
every block is the number of recorded loops `{start, end}` whose backward flood contains
it (the blocks reached from `end` by following predecessors, never expanding `start`); a
block in no flood has depth `0`, and a block is incremented at most once per recorded
loop. On entry -> H, H -> Body, Body -> H, H -> Exit exactly the loop
`{start: H, end: Body}` is recorded, `H` and `Body` have depth `1` and `Exit` has
depth `0`. -/
theorem loopDepth_counts_floods (g : Pipeline) (wf : WellFormed g)
    (dominates : List (Nat × Nat) → Nat → Nat → Bool) :
    ((∃ fuel s, compute fuel g dominates = some s) ∧
    ∀ fuel s, compute fuel g dominates = some s →
      ∀ b, b < g.blocks.length →
        CountIs (InFlood g b) (recorded g (dominates s.children)) (s.loopDepth b) ∧
        ((∀ l ∈ recorded g (dominates s.children), ¬ InFlood g b l) → s.loopDepth b = 0) ∧
        s.loopDepth b ≤ (recorded g (dominates s.children)).length) ∧
    ∃ s, compute 20 simpleLoop treeDominates = some s ∧
      (recorded simpleLoop (treeDominates s.children)).map (fun l => (l.start, l.stop))
        = [(1, 2)] ∧
      s.loopDepth 1 = 1 ∧ s.loopDepth 2 = 1 ∧ s.loopDepth 3 = 0 := by
  refine ⟨⟨(compute_spec g wf dominates).1, ?_⟩, ?_⟩
  · intro fuel s hs b hb
    have hcount := ((compute_spec g wf dominates).2 fuel s hs).depth b hb
    exact ⟨hcount, hcount.eq_zero, hcount.le_length⟩
  · have h : (compute 20 simpleLoop treeDominates).map
        (fun s => ((recorded simpleLoop (treeDominates s.children)).map
          (fun l => (l.start, l.stop)), s.loopDepth 1, s.loopDepth 2, s.loopDepth 3))
        = some ([(1, 2)], 1, 1, 0) := by decide
    obtain ⟨s, hs, hf⟩ := Option.map_eq_some'.mp h
    simp only [Prod.mk.injEq] at hf
    exact ⟨s, hs, hf.1, hf.2.1, hf.2.2.1, hf.2.2.2⟩

/-- C7, on the simple loop. -/
theorem loopDepth_counts_floods_witness :
    WellFormed simpleLoop ∧
    (((∃ fuel s, compute fuel simpleLoop treeDominates = some s) ∧
    ∀ fuel s, compute fuel simpleLoop treeDominates = some s →
      ∀ b, b < simpleLoop.blocks.length →
        CountIs (InFlood simpleLoop b) (recorded simpleLoop (treeDominates s.children))
          (s.loopDepth b) ∧
        ((∀ l ∈ recorded simpleLoop (treeDominates s.children), ¬ InFlood simpleLoop b l) →
          s.loopDepth b = 0) ∧
        s.loopDepth b ≤ (recorded simpleLoop (treeDominates s.children)).length) ∧
    ∃ s, compute 20 simpleLoop treeDominates = some s ∧
      (recorded simpleLoop (treeDominates s.children)).map (fun l => (l.start, l.stop))
        = [(1, 2)] ∧
      s.loopDepth 1 = 1 ∧ s.loopDepth 2 = 1 ∧ s.loopDepth 3 = 0) :=
  ⟨by decide, loopDepth_counts_floods simpleLoop (by decide) treeDominates⟩

/-- C8: on every well-formed CFG `enumerate` followed by `computeDominance` runs to
completion and invokes `addChild` exactly `count - 1` times, the call number `i` being
`vertex[doms[i]].addChild(vertex[i])`; every reachable block other than the entry is the
child of exactly one call; following the registered parent links leads from every
reachable block to the entry, and the links have no cycle. -/
theorem addChild_registers_tree (g : Pipeline) (wf : WellFormed g) :
    (∃ fuel s, dominance fuel g = some s) ∧
    ∀ fuel s, dominance fuel g = some s →
      s.children.length = s.count - 1 ∧
      (∀ i, i < s.count - 1 →
        ∃ c p ch, s.doms i = some c ∧ s.vertex c = some p ∧ s.vertex i = some ch ∧
          s.children[i]? = some (p, ch)) ∧
      (s.children.map Prod.snd).Nodup ∧
      (∀ b, b ∈ s.children.map Prod.snd ↔ (Reachable g b ∧ b ≠ 0)) ∧
      (∀ b, Reachable g b → Relation.ReflTransGen (ParentOf s) b 0) ∧
      (∀ b, ¬ Relation.TransGen (ParentOf s) b b) := by
  refine ⟨(dominance_spec g wf).1, ?_⟩
  intro fuel s hs
  obtain ⟨hS, hch, _, _⟩ := (dominance_spec g wf).2 fuel s hs
  refine ⟨by rw [hch, childList_length], ?_, ?_, ?_, ?_, hS.acyclic hch⟩
  · intro i hi
    obtain ⟨c, p, ch, hc, _, hp, hvch, _, _, hget⟩ := hS.childList_get hi
    exact ⟨c, p, ch, hc, hp, hvch, by rw [hch]; exact hget⟩
  · rw [hch]; exact hS.children_snd.1
  · rw [hch]; exact hS.children_snd.2
  · intro b hb
    obtain ⟨i, hi, _, _⟩ := hS.index_of_reachable hb
    exact hS.to_entry hch (s.count - 1 - i) b i le_rfl hi

/-- C8, on the simple loop. -/
theorem addChild_registers_tree_witness :
    WellFormed simpleLoop ∧
    ((∃ fuel s, dominance fuel simpleLoop = some s) ∧
    ∀ fuel s, dominance fuel simpleLoop = some s →
      s.children.length = s.count - 1 ∧
      (∀ i, i < s.count - 1 →
        ∃ c p ch, s.doms i = some c ∧ s.vertex c = some p ∧ s.vertex i = some ch ∧
          s.children[i]? = some (p, ch)) ∧
      (s.children.map Prod.snd).Nodup ∧
      (∀ b, b ∈ s.children.map Prod.snd ↔ (Reachable simpleLoop b ∧ b ≠ 0)) ∧
      (∀ b, Reachable simpleLoop b → Relation.ReflTransGen (ParentOf s) b 0) ∧
      (∀ b, ¬ Relation.TransGen (ParentOf s) b b)) :=
  ⟨by decide, addChild_registers_tree simpleLoop (by decide)⟩

/-- C9: on every well-formed CFG the dominator solve converges, and then `doms[i]` is a
non-null postorder index strictly greater than `i` for every `i` in `0..count-2`. -/
theorem doms_points_up (g : Pipeline) (wf : WellFormed g) :
    (∃ fuel s, solved fuel g = some s) ∧
    ∀ fuel s, solved fuel g = some s →
      ∀ i, i < s.count - 1 → ∃ c, s.doms i = some c ∧ i < c ∧ c ≤ s.count - 1 := by
  refine ⟨(solved_spec g wf).1, ?_⟩
  intro fuel s hs i hi
  exact ((solved_spec g wf).2 fuel s hs).up hi

/-- C9, on the graph with the late join. -/
theorem doms_points_up_witness :
    WellFormed lateJoin ∧
    ((∃ fuel s, solved fuel lateJoin = some s) ∧
    ∀ fuel s, solved fuel lateJoin = some s →
      ∀ i, i < s.count - 1 → ∃ c, s.doms i = some c ∧ i < c ∧ c ≤ s.count - 1) :=
  ⟨by decide, doms_points_up lateJoin (by decide)⟩

/-- C10: on every well-formed CFG, also when the entry has predecessors or an edge to
itself, `compute` runs to completion and leaves the entry block in the last postorder
slot (`vertex[count-1]` is the entry and `index[0] = count-1`) with
`doms[count-1] = count-1`; and a pass of `computeOne`, whatever `doms` holds when it
starts, never assigns `doms[count-1]`. -/
theorem entry_is_last (g : Pipeline) (wf : WellFormed g)
    (dominates : List (Nat × Nat) → Nat → Nat → Bool) :
    (∃ fuel s, compute fuel g dominates = some s) ∧
    ∀ fuel s, compute fuel g dominates = some s →
      0 < s.count ∧ s.vertex (s.count - 1) = some 0 ∧ s.index 0 = some (s.count - 1) ∧
      s.doms (s.count - 1) = some (s.count - 1) ∧
      ∀ (st st' : Frontier) (fuel' : Nat) (changed : Bool),
        st.vertex = s.vertex → st.index = s.index → st.count = s.count →
        computeOne fuel' g st = some (st', changed) →
        st'.doms (s.count - 1) = st.doms (s.count - 1) := by
  refine ⟨(compute_spec g wf dominates).1, ?_⟩
  intro fuel s hs
  have hS := ((compute_spec g wf dominates).2 fuel s hs).solved
  refine ⟨hS.enum.count_pos, hS.enum.vertex_root, hS.enum.entry_index, hS.forest.root, ?_⟩
  intro st st' fuel' changed hv hi hc hrun
  exact computeOne_root hS.enum hv hi hc hrun

/-- C10, on an entry block with an edge to itself and a second predecessor. -/
theorem entry_is_last_witness :
    WellFormed entryCycle ∧
    ((∃ fuel s, compute fuel entryCycle treeDominates = some s) ∧
    ∀ fuel s, compute fuel entryCycle treeDominates = some s →
      0 < s.count ∧ s.vertex (s.count - 1) = some 0 ∧ s.index 0 = some (s.count - 1) ∧
      s.doms (s.count - 1) = some (s.count - 1) ∧
      ∀ (st st' : Frontier) (fuel' : Nat) (changed : Bool),
        st.vertex = s.vertex → st.index = s.index → st.count = s.count →
        computeOne fuel' entryCycle st = some (st', changed) →
        st'.doms (s.count - 1) = st.doms (s.count - 1)) :=
  ⟨by decide, entry_is_last entryCycle (by decide) treeDominates⟩

/-! ## Loops under a change of state -/

/-- A loop commutes with a map of states that commutes with its condition and body. -/
theorem whileLoop_comm {σ τ : Type} {cond : σ → Bool} {body : σ → Option σ}
    {cond' : τ → Bool} {body' : τ → Option τ} (φ : σ → τ)
    (hc : ∀ s, cond' (φ s) = cond s) (hb : ∀ s, body' (φ s) = (body s).map φ) :
    ∀ (fuel : Nat) (s : σ),
      whileLoop cond' body' fuel (φ s) = (whileLoop cond body fuel s).map φ := by
  intro fuel
  induction fuel with
  | zero => intro s; rfl
  | succ n ih =>
    intro s
    unfold whileLoop
    rw [hc s, hb s]
    by_cases h : cond s = true
    · rw [if_pos h, if_pos h]
      cases body s with
      | none => rfl
      | some b => exact ih b
    · rw [if_neg h, if_neg h]
      rfl

/-- A `for` loop over a list commutes with a map of states that commutes with its body. -/
theorem foldlM_comm {σ τ α : Type} {f : σ → α → Option σ} {f' : τ → α → Option τ}
    (φ : σ → τ) (hf : ∀ s a, f' (φ s) a = (f s a).map φ) :
    ∀ (l : List α) (s : σ), l.foldlM f' (φ s) = (l.foldlM f s).map φ := by
  intro l
  induction l with
  | nil => intro s; rfl
  | cons a l ih =>
    intro s
    simp only [List.foldlM_cons, Option.bind_eq_bind]
    rw [hf s a]
    cases f s a with
    | none => rfl
    | some b => exact ih b

/-- An invariant of the body of a `for` loop over a list holds of its result. -/
theorem foldlM_inv {σ α : Type} {f : σ → α → Option σ} (I : σ → Prop) (l : List α)
    (hI : ∀ s a r, a ∈ l → I s → f s a = some r → I r) :
    ∀ (s r : σ), I s → l.foldlM f s = some r → I r := by
  induction l with
  | nil =>
    intro s r hs h
    cases h
    exact hs
  | cons a l ih =>
    intro s r hs h
    simp only [List.foldlM_cons, Option.bind_eq_bind] at h
    cases hfa : f s a with
    | none => rw [hfa] at h; simp at h
    | some b =>
      rw [hfa] at h
      exact ih (fun s a r ha => hI s a r (List.mem_cons_of_mem _ ha)) b r
        (hI s a b (List.mem_cons_self _ _) hs hfa) h

/-- Two bodies that agree wherever an invariant holds give the same `for` loop. -/
theorem foldlM_agree {σ α : Type} {f f' : σ → α → Option σ} (I : σ → Prop) (l : List α)
    (hf : ∀ s a, a ∈ l → I s → f' s a = f s a)
    (hI : ∀ s a r, a ∈ l → I s → f s a = some r → I r) :
    ∀ (s : σ), I s → l.foldlM f' s = l.foldlM f s := by
  induction l with
  | nil => intro s _; rfl
  | cons a l ih =>
    intro s hs
    simp only [List.foldlM_cons, Option.bind_eq_bind]
    rw [hf s a (List.mem_cons_self _ _) hs]
    cases hfa : f s a with
    | none => rfl
    | some b =>
      exact ih (fun s a ha => hf s a (List.mem_cons_of_mem _ ha))
        (fun s a r ha => hI s a r (List.mem_cons_of_mem _ ha)) b
        (hI s a b (List.mem_cons_self _ _) hs hfa)

/-- Two bodies that agree wherever an invariant holds give the same `while` loop. -/
theorem whileLoop_agree {σ : Type} {cond : σ → Bool} {body body' : σ → Option σ}
    (I : σ → Prop) (hb : ∀ s, I s → body' s = body s)
    (hI : ∀ s r, I s → body s = some r → I r) :
    ∀ (fuel : Nat) (s : σ), I s → whileLoop cond body' fuel s = whileLoop cond body fuel s := by
  intro fuel
  induction fuel with
  | zero => intro s _; rfl
  | succ n ih =>
    intro s hs
    unfold whileLoop
    rw [hb s hs]
    by_cases h : cond s = true
    · rw [if_pos h, if_pos h]
      cases hbs : body s with
      | none => rfl
      | some b => exact ih b (hI s b hs hbs)
    · rw [if_neg h, if_neg h]

/-- The entries of a list on which the body does nothing can be left out of a `for` loop. -/
theorem foldlM_filter {σ α : Type} (f : σ → α → Option σ) (p : α → Bool) (I : σ → Prop)
    (hskip : ∀ s a, I s → p a = false → f s a = some s)
    (hI : ∀ s a r, I s → f s a = some r → I r) :
    ∀ (l : List α) (s : σ), I s → (l.filter p).foldlM f s = l.foldlM f s := by
  intro l
  induction l with
  | nil => intro s _; rfl
  | cons a l ih =>
    intro s hs
    cases hp : p a with
    | false =>
      rw [List.filter_cons_of_neg (by simp [hp])]
      simp only [List.foldlM_cons, Option.bind_eq_bind]
      rw [hskip s a hs hp]
      exact ih s hs
    | true =>
      rw [List.filter_cons_of_pos (by simp [hp])]
      simp only [List.foldlM_cons, Option.bind_eq_bind]
      cases hfa : f s a with
      | none => rfl
      | some b => exact ih b (hI s a b hs hfa)

/-! ## A run on a pipeline that already holds registrations -/

theorem enumerate_onto (cs fs : List (Nat × Nat)) (depth : Nat → Nat) (fuel : Nat)
    (g : Pipeline) (s : Frontier) :
    enumerate fuel g (onto cs fs depth s) = (enumerate fuel g s).map (onto cs fs depth) := by
  unfold enumerate
  rw [Option.map_map]
  rfl

theorem computeOneAt_onto (cs fs : List (Nat × Nat)) (depth : Nat → Nat) (fuel : Nat)
    (g : Pipeline) (st : Frontier × Bool) (i : Nat) :
    computeOneAt fuel g (Prod.map (onto cs fs depth) id st) i
      = (computeOneAt fuel g st i).map (Prod.map (onto cs fs depth) id) := by
  obtain ⟨s, c⟩ := st
  have hfold : foldIdom fuel (onto cs fs depth s) = foldIdom fuel s := rfl
  simp only [computeOneAt, Prod.map, id, hfold]
  show ((s.vertex i).bind _) = _
  cases s.vertex i with
  | none => rfl
  | some b =>
    simp only [Option.some_bind]
    cases (g.block b).predecessors.foldlM (foldIdom fuel s) none with
    | none => rfl
    | some newIdom =>
      simp only [Option.some_bind]
      show ((s.index b).bind _) = _
      cases s.index b with
      | none => rfl
      | some bi =>
        simp only [Option.some_bind]
        show (if s.doms bi ≠ newIdom then _ else _) = _
        by_cases h : s.doms bi ≠ newIdom
        · rw [if_pos h, if_pos h]
          rfl
        · rw [if_neg h, if_neg h]
          rfl

theorem computeOne_onto (cs fs : List (Nat × Nat)) (depth : Nat → Nat) (fuel : Nat)
    (g : Pipeline) (s : Frontier) :
    computeOne fuel g (onto cs fs depth s)
      = (computeOne fuel g s).map (Prod.map (onto cs fs depth) id) :=
  foldlM_comm (Prod.map (onto cs fs depth) id) (computeOneAt_onto cs fs depth fuel g)
    (List.range (s.count - 1)).reverse (s, false)

theorem solve_onto (cs fs : List (Nat × Nat)) (depth : Nat → Nat) (fuel : Nat)
    (g : Pipeline) (s : Frontier) :
    solve fuel g (onto cs fs depth s) = (solve fuel g s).map (onto cs fs depth) := by
  unfold solve
  have := @whileLoop_comm (Frontier × Bool) (Frontier × Bool)
    (fun st => st.2) (fun st => computeOne fuel g st.1)
    (fun st => st.2) (fun st => computeOne fuel g st.1)
    (Prod.map (onto cs fs depth) id) (fun _ => rfl)
    (fun st => computeOne_onto cs fs depth fuel g st.1) fuel (s, true)
  have h2 : Prod.map (onto cs fs depth) id (s, true) = (onto cs fs depth s, true) := rfl
  rw [h2] at this
  rw [this, Option.map_map, Option.map_map]
  rfl

theorem addChildAt_onto (cs fs : List (Nat × Nat)) (depth : Nat → Nat) (s : Frontier)
    (i : Nat) :
    addChildAt (onto cs fs depth s) i = (addChildAt s i).map (onto cs fs depth) := by
  unfold addChildAt
  show ((s.doms i).bind _) = _
  cases s.doms i with
  | none => rfl
  | some d =>
    simp only [Option.some_bind]
    show ((s.vertex d).bind _) = _
    cases s.vertex d with
    | none => rfl
    | some parent =>
      simp only [Option.some_bind]
      show ((s.vertex i).bind _) = _
      cases s.vertex i with
      | none => rfl
      | some child =>
        simp only [Option.some_bind, Option.map_some', onto, List.append_assoc]

theorem computeDominance_onto (cs fs : List (Nat × Nat)) (depth : Nat → Nat) (fuel : Nat)
    (g : Pipeline) (s : Frontier) :
    computeDominance fuel g (onto cs fs depth s)
      = (computeDominance fuel g s).map (onto cs fs depth) := by
  unfold computeDominance
  rw [solve_onto]
  cases solve fuel g s with
  | none => rfl
  | some s1 =>
    simp only [Option.map_some', Option.some_bind]
    exact foldlM_comm (onto cs fs depth) (addChildAt_onto cs fs depth) _ s1

theorem runnerStep_onto (cs fs : List (Nat × Nat)) (depth : Nat → Nat) (i b : Nat)
    (r : Runner) :
    runnerStep i b ⟨r.runner, onto cs fs depth r.state⟩
      = (runnerStep i b r).map fun r' => ⟨r'.runner, onto cs fs depth r'.state⟩ := by
  obtain ⟨x, s⟩ := r
  simp only [runnerStep, bitSet]
  show (Option.bind (if (!s.frontier x i) = true then _ else _) _) = _
  by_cases h : (!s.frontier x i) = true
  · rw [if_pos h, if_pos h]
    show (Option.bind (Option.map _ (s.vertex x)) _) = _
    cases s.vertex x with
    | none => rfl
    | some owner =>
      simp only [Option.map_some', Option.some_bind]
      show (Option.map _ (s.doms x)) = _
      cases s.doms x with
      | none => rfl
      | some d => simp only [Option.map_some', onto, List.append_assoc]
  · rw [if_neg h, if_neg h]
    simp only [Option.some_bind]
    show (Option.map _ (s.doms x)) = _
    cases s.doms x with
    | none => rfl
    | some d => rfl

theorem frontierPred_onto (cs fs : List (Nat × Nat)) (depth : Nat → Nat) (fuel i b : Nat)
    (dom : Option Nat) (s : Frontier) (p : Nat) :
    frontierPred fuel i b dom (onto cs fs depth s) p
      = (frontierPred fuel i b dom s p).map (onto cs fs depth) := by
  unfold frontierPred
  show (match s.index p with
    | none => some (onto cs fs depth s)
    | some runner => _) = _
  cases s.index p with
  | none => rfl
  | some runner =>
    simp only
    have := @whileLoop_comm Runner Runner
      (fun r => decide (some r.runner ≠ dom)) (runnerStep i b)
      (fun r => decide (some r.runner ≠ dom)) (runnerStep i b)
      (fun r => ⟨r.runner, onto cs fs depth r.state⟩) (fun _ => rfl)
      (runnerStep_onto cs fs depth i b) fuel ⟨runner, s⟩
    rw [this, Option.map_map, Option.map_map]
    rfl

theorem computeFrontierAt_onto (cs fs : List (Nat × Nat)) (depth : Nat → Nat) (fuel : Nat)
    (g : Pipeline) (s : Frontier) (i : Nat) :
    computeFrontierAt fuel g (onto cs fs depth s) i
      = (computeFrontierAt fuel g s i).map (onto cs fs depth) := by
  unfold computeFrontierAt
  show ((s.vertex i).bind _) = _
  cases s.vertex i with
  | none => rfl
  | some b =>
    simp only [Option.some_bind]
    by_cases h : (g.block b).predecessors.length < 2
    · rw [if_pos h, if_pos h]
      rfl
    · rw [if_neg h, if_neg h]
      unfold computeOneFrontier
      show ((s.index b).bind _) = _
      cases s.index b with
      | none => rfl
      | some bi =>
        simp only [Option.some_bind]
        exact foldlM_comm (onto cs fs depth)
          (frontierPred_onto cs fs depth fuel i b (s.doms bi)) _ s

theorem computeFrontier_onto (cs fs : List (Nat × Nat)) (depth : Nat → Nat) (fuel : Nat)
    (g : Pipeline) (s : Frontier) :
    computeFrontier fuel g (onto cs fs depth s)
      = (computeFrontier fuel g s).map (onto cs fs depth) :=
  foldlM_comm (onto cs fs depth) (computeFrontierAt_onto cs fs depth fuel g)
    (List.range s.count) s

/-- The first three phases of `compute` on a pipeline that already holds registrations. -/
theorem front_onto (cs fs : List (Nat × Nat)) (depth : Nat → Nat) (fuel : Nat)
    (g : Pipeline) :
    ((enumerate fuel g (onto cs fs depth (Frontier.create g))).bind fun s1 =>
      (computeDominance fuel g s1).bind fun s2 => computeFrontier fuel g s2)
      = (front fuel g).map (onto cs fs depth) := by
  unfold front
  rw [enumerate_onto]
  cases enumerate fuel g (Frontier.create g) with
  | none => rfl
  | some s1 =>
    simp only [Option.map_some', Option.some_bind]
    rw [computeDominance_onto]
    cases computeDominance fuel g s1 with
    | none => rfl
    | some s2 =>
      simp only [Option.map_some', Option.some_bind]
      exact computeFrontier_onto cs fs depth fuel g s2

/-- The run `compute` is the run `front` followed by `computeLoops`. -/
theorem compute_front (fuel : Nat) (g : Pipeline)
    (dominates : List (Nat × Nat) → Nat → Nat → Bool) :
    compute fuel g dominates
      = (front fuel g).bind fun s3 => computeLoops fuel g (dominates s3.children) s3 := by
  unfold compute computeFrom front
  cases enumerate fuel g (Frontier.create g) with
  | none => rfl
  | some s1 =>
    simp only [Option.some_bind]
    cases computeDominance fuel g s1 with
    | none => rfl
    | some s2 => rfl

/-- The run `front` is the run `dominance` followed by `computeFrontier`. -/
theorem front_dominance (fuel : Nat) (g : Pipeline) :
    front fuel g = (dominance fuel g).bind (computeFrontier fuel g) := by
  unfold front dominance
  cases enumerate fuel g (Frontier.create g) with
  | none => rfl
  | some s1 => rfl

/-! ## The `addFrontier` log has no duplicate -/

/-- Setting a bit leaves every bit that was set as it is. -/
theorem setAt_bit (f : Nat → Nat → Bool) (x i : Nat) {r j : Nat} (h : f r j = true) :
    setAt f x (setAt (f x) i true) r j = true := by
  unfold setAt
  by_cases hr : r = x
  · subst hr
    by_cases hj : j = i
    · simp [hj]
    · simp [hj, h]
  · simp [hr, h]

theorem runnerStep_log {g : Pipeline} {s : Frontier} (hS : Solved g s) {i b : Nat}
    (hi : i < s.count) (hb : s.vertex i = some b) {r r' : Runner}
    (hinv : LogInv s r.state) (hr : r.runner < s.count)
    (hstep : runnerStep i b r = some r') :
    LogInv s r'.state ∧ r'.runner < s.count := by
  obtain ⟨x, t⟩ := r
  obtain ⟨hv, hix, hd, hc, hnd, hmem⟩ := hinv
  simp only at hv hix hd hc hnd hmem hr
  have hN : 0 < s.count := hS.enum.count_pos
  simp only [runnerStep, bitSet] at hstep
  by_cases hfresh : (!t.frontier x i) = true
  · rw [if_pos hfresh] at hstep
    have hbit : t.frontier x i = false := by simpa using hfresh
    cases hown : t.vertex x with
    | none => rw [hown] at hstep; simp at hstep
    | some owner =>
      rw [hown] at hstep
      simp only [Option.map_some', Option.some_bind] at hstep
      cases hdx : t.doms x with
      | none => rw [hdx] at hstep; simp at hstep
      | some d =>
        rw [hdx] at hstep
        simp only [Option.map_some', Option.some.injEq] at hstep
        subst hstep
        have hown' : s.vertex x = some owner := by rw [← hv]; exact hown
        have hdx' : s.doms x = some d := by rw [← hd]; exact hdx
        refine ⟨⟨hv, hix, hd, hc, ?_, ?_⟩, ?_⟩
        · show (t.frontiers ++ [(owner, b)]).Nodup
          rw [List.nodup_append]
          refine ⟨hnd, List.nodup_singleton _, ?_⟩
          intro e he he'
          rw [List.mem_singleton] at he'
          subst he'
          obtain ⟨r, j, hrN, hjN, hvr, hvj, hbit'⟩ := hmem owner b he
          have h1 : r = x := hS.enum.vertex_inj hrN hr hvr hown'
          have h2 : j = i := hS.enum.vertex_inj hjN hi hvj hb
          rw [h1, h2, hbit] at hbit'
          cases hbit'
        · intro A B hAB
          have hAB' : (A, B) ∈ t.frontiers ++ [(owner, b)] := hAB
          rw [List.mem_append, List.mem_singleton] at hAB'
          show ∃ r j, r < s.count ∧ j < s.count ∧ s.vertex r = some A ∧ s.vertex j = some B ∧
            setAt t.frontier x (setAt (t.frontier x) i true) r j = true
          rcases hAB' with h | h
          · obtain ⟨r, j, hrN, hjN, hvr, hvj, hbit'⟩ := hmem A B h
            refine ⟨r, j, hrN, hjN, hvr, hvj, ?_⟩
            exact setAt_bit _ _ _ hbit'
          · cases h
            refine ⟨x, i, hr, hi, hown', hb, ?_⟩
            simp [setAt]
        · have := (hS.forest.bound x d hdx').2
          show d < s.count
          omega
  · rw [if_neg hfresh] at hstep
    simp only [Option.some_bind] at hstep
    cases hdx : t.doms x with
    | none => rw [hdx] at hstep; simp at hstep
    | some d =>
      rw [hdx] at hstep
      simp only [Option.map_some', Option.some.injEq] at hstep
      subst hstep
      have hdx' : s.doms x = some d := by rw [← hd]; exact hdx
      refine ⟨⟨hv, hix, hd, hc, hnd, ?_⟩, ?_⟩
      · intro A B hAB
        obtain ⟨r, j, hrN, hjN, hvr, hvj, hbit'⟩ := hmem A B hAB
        refine ⟨r, j, hrN, hjN, hvr, hvj, ?_⟩
        exact setAt_bit _ _ _ hbit'
      · have := (hS.forest.bound x d hdx').2
        show d < s.count
        omega

theorem frontierPred_log {g : Pipeline} {s : Frontier} (hS : Solved g s) {i b : Nat}
    (hi : i < s.count) (hb : s.vertex i = some b) (fuel : Nat) (dom : Option Nat)
    {t t' : Frontier} (p : Nat) (hinv : LogInv s t)
    (hrun : frontierPred fuel i b dom t p = some t') : LogInv s t' := by
  unfold frontierPred at hrun
  cases hp : t.index p with
  | none =>
    rw [hp] at hrun
    cases hrun
    exact hinv
  | some runner =>
    rw [hp] at hrun
    simp only [Option.map_eq_some'] at hrun
    obtain ⟨r', hr', rfl⟩ := hrun
    have hp' : s.index p = some runner := by rw [← hinv.2.1]; exact hp
    have := whileLoop_inv (fun (r : Runner) => LogInv s r.state ∧ r.runner < s.count)
      (fun a c ha _ hstep => runnerStep_log hS hi hb ha.1 ha.2 hstep) fuel _ r'
      ⟨hinv, (hS.enum.index_lt p runner hp').1⟩ hr'
    exact this.1.1

theorem computeFrontierAt_log {g : Pipeline} {s : Frontier} (hS : Solved g s) (fuel : Nat)
    {i : Nat} (hi : i < s.count) {t t' : Frontier} (hinv : LogInv s t)
    (hrun : computeFrontierAt fuel g t i = some t') : LogInv s t' := by
  unfold computeFrontierAt at hrun
  cases hb : t.vertex i with
  | none => rw [hb] at hrun; simp at hrun
  | some b =>
    rw [hb] at hrun
    simp only [Option.some_bind] at hrun
    have hb' : s.vertex i = some b := by rw [← hinv.1]; exact hb
    by_cases hlen : (g.block b).predecessors.length < 2
    · rw [if_pos hlen] at hrun
      cases hrun
      exact hinv
    · rw [if_neg hlen] at hrun
      unfold computeOneFrontier at hrun
      cases hbi : t.index b with
      | none => rw [hbi] at hrun; simp at hrun
      | some bi =>
        rw [hbi] at hrun
        simp only [Option.some_bind] at hrun
        exact foldlM_inv (LogInv s) _
          (fun a p r _ ha hr => frontierPred_log hS hi hb' fuel _ p ha hr) t t' hinv hrun

/-- After `computeFrontier` on the state left by the solve, with an empty log, no pair of
blocks is logged twice. -/
theorem computeFrontier_log {g : Pipeline} {s : Frontier} (hS : Solved g s)
    (hlog : s.frontiers = []) (fuel : Nat) {t : Frontier}
    (hrun : computeFrontier fuel g s = some t) : LogInv s t := by
  have h0 : LogInv s s := by
    refine ⟨rfl, rfl, rfl, rfl, ?_, ?_⟩
    · rw [hlog]
      exact List.nodup_nil
    · intro A B h
      rw [hlog] at h
      cases h
  exact foldlM_inv (LogInv s) _
    (fun a i r hi ha hr => computeFrontierAt_log hS fuel (List.mem_range.mp hi) ha hr)
    s t h0 hrun

/-! ## The run up to `computeFrontier` -/

/-- The parts of a run of `compute`: the run `front`, then `computeLoops`, which only
writes the `loopDepth` fields. -/
theorem compute_parts {g : Pipeline} {dominates : List (Nat × Nat) → Nat → Nat → Bool}
    {fuel : Nat} {s : Frontier} (h : compute fuel g dominates = some s) :
    ∃ s3, front fuel g = some s3 ∧ computeLoops fuel g (dominates s3.children) s3 = some s ∧
      Keeps s3 s ∧ s.frontier = s3.frontier ∧ s.frontiers = s3.frontiers := by
  rw [compute_front] at h
  cases h3 : front fuel g with
  | none => rw [h3] at h; simp at h
  | some s3 =>
    rw [h3] at h
    simp only [Option.some_bind] at h
    refine ⟨s3, rfl, h, ?_⟩
    simp only [computeLoops, Option.map_eq_some'] at h
    obtain ⟨depth, _, rfl⟩ := h
    exact ⟨⟨rfl, rfl, rfl, rfl, rfl⟩, rfl, rfl⟩

theorem front_mono {g : Pipeline} {r : Frontier} {fuel fuel' : Nat} (hle : fuel ≤ fuel')
    (h : front fuel g = some r) : front fuel' g = some r := by
  rw [front_dominance] at h ⊢
  exact bind_mono (f := fun n (_ : Unit) => dominance n g)
    (k := fun n s => computeFrontier n g s) (a := ())
    (fun _ _ _ _ hnm h => dominance_mono hnm h)
    (fun _ _ _ _ hnm h => computeFrontier_mono hnm h) hle h

/-- With enough fuel the run `front` completes. -/
theorem front_run (g : Pipeline) (wf : WellFormed g) (fuel : Nat)
    (hfuel : fuelBound g ≤ fuel) : ∃ s, front fuel g = some s := by
  obtain ⟨s, hs, _⟩ := compute_run g wf (fun _ _ _ => false) fuel hfuel
  obtain ⟨s3, h3, _⟩ := compute_parts hs
  exact ⟨s3, h3⟩

/-- What the run `front` leaves: the solved arrays, the bits of the frontier walks, and a
log of the bits that holds no pair twice. -/
theorem front_spec {g : Pipeline} (wf : WellFormed g) {fuel : Nat} {s : Frontier}
    (h : front fuel g = some s) :
    Solved g s ∧ s.children = childList s ∧
      (∀ r j, s.frontier r j = true ↔ (j < s.count ∧ OnWalk g s r j)) ∧
      Logged s s.frontier s.frontiers ∧ s.frontiers.Nodup ∧
      ∃ s2, dominance fuel g = some s2 ∧ computeFrontier fuel g s2 = some s ∧ Keeps s2 s := by
  rw [front_dominance] at h
  cases h2 : dominance fuel g with
  | none => rw [h2] at h; simp at h
  | some s2 =>
    rw [h2] at h
    simp only [Option.some_bind] at h
    obtain ⟨hS2, hch2, hfr2, hbits2⟩ := (dominance_spec g wf).2 fuel s2 h2
    obtain ⟨s3, hrun3, hS3, hch3, hcl3, hb3, hl3⟩ :=
      computeFrontier_result hS2 hbits2 hfr2 (max fuel (s2.count + 1))
        (by have := le_max_right fuel (s2.count + 1); omega)
    have hbig := computeFrontier_mono (le_max_left fuel (s2.count + 1)) h
    rw [hrun3] at hbig
    cases hbig
    obtain ⟨hv, hi, hd, hc, hnd, _⟩ := computeFrontier_log hS2 hfr2 fuel h
    exact ⟨hS3, by rw [hch3, hcl3, hch2], hb3, hl3, hnd, s2, rfl, h, hv, hi, hd, hc, hch3⟩

/-! ## Deleting unreachable blocks from the predecessor lists -/

theorem prune_block (keep : Nat → Bool) (g : Pipeline) (b : Nat) :
    (prune keep g).block b
      = ⟨(g.block b).predecessors.filter keep, (g.block b).successors⟩ := by
  simp only [Pipeline.block, prune, List.getD_eq_getElem?_getD, List.getElem?_map]
  cases g.blocks[b]? with
  | none => rfl
  | some x => rfl

theorem enumerate_prune (keep : Nat → Bool) (fuel : Nat) (g : Pipeline) (s : Frontier) :
    enumerate fuel (prune keep g) s = enumerate fuel g s := by
  have hstep : enumStep (prune keep g) = enumStep g := by
    funext e
    unfold enumStep
    cases e.queue with
    | nil => rfl
    | cons block rest =>
      simp only [prune_block]
  unfold enumerate enumLoop
  rw [hstep]

/-- The body of `computeOne` writes neither `index` nor `count`. -/
theorem computeOneAt_index {g : Pipeline} {fuel : Nat} {st st' : Frontier × Bool} {i : Nat}
    (h : computeOneAt fuel g st i = some st') :
    st'.1.index = st.1.index ∧ st'.1.count = st.1.count := by
  unfold computeOneAt at h
  cases hv : st.1.vertex i with
  | none => rw [hv] at h; simp at h
  | some b =>
    rw [hv] at h
    simp only [Option.some_bind] at h
    cases hf : (g.block b).predecessors.foldlM (foldIdom fuel st.1) none with
    | none => rw [hf] at h; simp at h
    | some newIdom =>
      rw [hf] at h
      simp only [Option.some_bind] at h
      cases hb : st.1.index b with
      | none => rw [hb] at h; simp at h
      | some bi =>
        rw [hb] at h
        simp only [Option.some_bind] at h
        by_cases hne : st.1.doms bi ≠ newIdom
        · rw [if_pos hne] at h
          cases h
          exact ⟨rfl, rfl⟩
        · rw [if_neg hne] at h
          cases h
          exact ⟨rfl, rfl⟩

theorem computeOne_index {g : Pipeline} {fuel : Nat} {s : Frontier} {st' : Frontier × Bool}
    (h : computeOne fuel g s = some st') :
    st'.1.index = s.index ∧ st'.1.count = s.count :=
  foldlM_inv (fun (st : Frontier × Bool) => st.1.index = s.index ∧ st.1.count = s.count) _
    (fun _ _ _ _ ha hr => by
      obtain ⟨h1, h2⟩ := computeOneAt_index hr
      exact ⟨h1.trans ha.1, h2.trans ha.2⟩) (s, false) st' ⟨rfl, rfl⟩ h

theorem computeOneAt_prune (keep : Nat → Bool) (fuel : Nat) (g : Pipeline)
    (st : Frontier × Bool) (hidx : ∀ p, keep p = false → st.1.index p = none) (i : Nat) :
    computeOneAt fuel (prune keep g) st i = computeOneAt fuel g st i := by
  unfold computeOneAt
  cases st.1.vertex i with
  | none => rfl
  | some b =>
    simp only [Option.some_bind, prune_block]
    rw [foldlM_filter (foldIdom fuel st.1) keep (fun _ => True)
      (fun acc p _ hp => by simp [foldIdom, hidx p hp]) (fun _ _ _ _ _ => trivial) _ _ trivial]

theorem computeOne_prune (keep : Nat → Bool) (fuel : Nat) (g : Pipeline) (s : Frontier)
    (hidx : ∀ p, keep p = false → s.index p = none) :
    computeOne fuel (prune keep g) s = computeOne fuel g s :=
  foldlM_agree (fun (st : Frontier × Bool) => st.1.index = s.index) _
    (fun st i _ hst => computeOneAt_prune keep fuel g st (by rw [hst]; exact hidx) i)
    (fun _ _ _ _ ha hr => (computeOneAt_index hr).1.trans ha) (s, false) rfl

theorem solve_prune (keep : Nat → Bool) (fuel : Nat) (g : Pipeline) (s : Frontier)
    (hidx : ∀ p, keep p = false → s.index p = none) :
    solve fuel (prune keep g) s = solve fuel g s := by
  unfold solve
  rw [whileLoop_agree (fun (st : Frontier × Bool) => st.1.index = s.index)
    (fun st hst => computeOne_prune keep fuel g st.1 (by rw [hst]; exact hidx))
    (fun st r hst hr => (computeOne_index hr).1.trans hst) fuel (s, true) rfl]

theorem computeDominance_prune (keep : Nat → Bool) (fuel : Nat) (g : Pipeline) (s : Frontier)
    (hidx : ∀ p, keep p = false → s.index p = none) :
    computeDominance fuel (prune keep g) s = computeDominance fuel g s := by
  unfold computeDominance
  rw [solve_prune keep fuel g s hidx]

/-- The run `enumerate(); computeDominance();` does not read the unreachable blocks of the
predecessor lists. -/
theorem dominance_prune {g : Pipeline} (wf : WellFormed g) (keep : Nat → Bool)
    (hkeep : ∀ p, keep p = true ↔ Reachable g p) (fuel : Nat) :
    dominance fuel (prune keep g) = dominance fuel g := by
  unfold dominance
  have hc : Frontier.create (prune keep g) = Frontier.create g := rfl
  rw [hc, enumerate_prune]
  cases hs : enumerate fuel g (Frontier.create g) with
  | none => rfl
  | some s1 =>
    simp only [Option.some_bind]
    obtain ⟨hE, _⟩ := (enumerate_spec g wf).2 fuel s1 hs
    apply computeDominance_prune
    intro p hp
    by_contra hne
    have := (hkeep p).mpr ((hE.reach p).mp hne)
    rw [hp] at this
    cases this

theorem filterMap_filter_none {α β : Type} (f : α → Option β) (p : α → Bool)
    (h : ∀ a, p a = false → f a = none) :
    ∀ l : List α, (l.filter p).filterMap f = l.filterMap f := by
  intro l
  induction l with
  | nil => rfl
  | cons a l ih =>
    cases hp : p a with
    | false =>
      rw [List.filter_cons_of_neg (by simp [hp]), List.filterMap_cons_none (h a hp), ih]
    | true =>
      rw [List.filter_cons_of_pos (by simp [hp])]
      cases hf : f a with
      | none => rw [List.filterMap_cons_none hf, List.filterMap_cons_none hf, ih]
      | some b => rw [List.filterMap_cons_some hf, List.filterMap_cons_some hf, ih]

/-- At the fixpoint a block whose only usable predecessor is `p` has `p` in its `doms`
slot. -/
theorem Solved.single_pred {g : Pipeline} {s : Frontier} (hS : Solved g s) {i runner : Nat}
    (hi : i < s.count - 1) (hp : predsI g s i = [runner]) : s.doms i = some runner := by
  obtain ⟨c, hc, hnca⟩ := hS.fix.2 i hi
  rw [mix_self, hp] at hnca
  obtain ⟨⟨p, hpm, hpset⟩, hall, hmin⟩ := hnca
  rw [List.mem_singleton] at hpm
  subst hpm
  have h1 : Chain s.doms p c := hall p (List.mem_singleton_self _) hpset
  have h2 : Chain s.doms c p := hmin p (fun q hq _ => by
    rw [List.mem_singleton] at hq
    rw [hq]
    exact Chain.refl _)
  have : c = p := le_antisymm (h2.le hS.forest) (h1.le hS.forest)
  rw [hc, this]

/-- The body of `computeFrontier` does not read the unreachable blocks of the predecessor
lists, unless the entry block is a join block only through them. -/
theorem computeFrontierAt_prune {g : Pipeline} {s : Frontier} (hS : Solved g s)
    (keep : Nat → Bool) (hkeep : ∀ p, keep p = true ↔ Reachable g p)
    (hentry : 2 ≤ (g.block 0).predecessors.length →
      ∀ x, (g.block 0).predecessors.filter keep = [x] → x = 0)
    {fuel : Nat} (hfuel : 0 < fuel) {t : Frontier} (hinv : LogInv s t) {i : Nat}
    (hi : i < s.count) :
    computeFrontierAt fuel (prune keep g) t i = computeFrontierAt fuel g t i := by
  have hE := hS.enum
  obtain ⟨b, hb, hbi⟩ := hE.vertex_index i hi
  have hidx : ∀ p, keep p = false → s.index p = none := by
    intro p hp
    by_contra hne
    have := (hkeep p).mpr ((hE.reach p).mp hne)
    rw [hp] at this
    cases this
  have htb : t.vertex i = some b := by rw [hinv.1]; exact hb
  have htbi : t.index b = some i := by rw [hinv.2.1]; exact hbi
  have hfold : ((g.block b).predecessors.filter keep).foldlM
      (frontierPred fuel i b (t.doms i)) t
      = (g.block b).predecessors.foldlM (frontierPred fuel i b (t.doms i)) t :=
    foldlM_filter _ keep (LogInv s)
      (fun u p hu hp => by
        have : u.index p = none := by rw [hu.2.1]; exact hidx p hp
        simp [frontierPred, this])
      (fun u p r hu hr => frontierPred_log hS hi hb fuel _ p hu hr) _ t hinv
  unfold computeFrontierAt
  rw [htb]
  simp only [Option.some_bind, prune_block, computeOneFrontier, htbi]
  by_cases hlen : (g.block b).predecessors.length < 2
  · have hle := List.length_filter_le keep (g.block b).predecessors
    rw [if_pos hlen, if_pos (by omega)]
  · rw [if_neg hlen, ← hfold]
    by_cases hlen' : ((g.block b).predecessors.filter keep).length < 2
    · rw [if_pos hlen']
      cases hP : (g.block b).predecessors.filter keep with
      | nil => rfl
      | cons p rest =>
        cases rest with
        | cons q rest' =>
          rw [hP] at hlen'
          simp only [List.length_cons] at hlen'
          omega
        | nil =>
          have hpk : keep p = true := by
            have : p ∈ (g.block b).predecessors.filter keep := by
              rw [hP]
              exact List.mem_singleton_self _
            exact (List.mem_filter.mp this).2
          obtain ⟨runner, hrun⟩ := Option.ne_none_iff_exists'.mp
            ((hE.reach p).mpr ((hkeep p).mp hpk))
          have hdom : s.doms i = some runner := by
            by_cases hroot : i = s.count - 1
            · have hb0 : b = 0 := by
                have := hE.vertex_root
                rw [← hroot, hb] at this
                exact Option.some.inj this
              subst hb0
              have := hentry (by omega) p hP
              subst this
              rw [hE.entry_index] at hrun
              cases hrun
              rw [hroot]
              exact hS.forest.root
            · apply hS.single_pred (by omega)
              unfold predsI
              rw [hb]
              simp only
              rw [← filterMap_filter_none s.index keep hidx, hP]
              simp [hrun]
          have htd : t.doms i = some runner := by rw [hinv.2.2.1]; exact hdom
          have hti : t.index p = some runner := by rw [hinv.2.1]; exact hrun
          obtain ⟨n, rfl⟩ : ∃ n, fuel = n + 1 := ⟨fuel - 1, by omega⟩
          simp [frontierPred, hti, htd, whileLoop]
    · rw [if_neg hlen']

theorem computeFrontier_prune {g : Pipeline} {s : Frontier} (hS : Solved g s)
    (keep : Nat → Bool) (hkeep : ∀ p, keep p = true ↔ Reachable g p)
    (hentry : 2 ≤ (g.block 0).predecessors.length →
      ∀ x, (g.block 0).predecessors.filter keep = [x] → x = 0)
    (hlog : s.frontiers = []) {fuel : Nat} (hfuel : 0 < fuel) :
    computeFrontier fuel (prune keep g) s = computeFrontier fuel g s := by
  have h0 : LogInv s s := by
    refine ⟨rfl, rfl, rfl, rfl, ?_, ?_⟩
    · rw [hlog]
      exact List.nodup_nil
    · intro A B h
      rw [hlog] at h
      cases h
  exact foldlM_agree (LogInv s) _
    (fun t i hi ht => computeFrontierAt_prune hS keep hkeep hentry hfuel ht
      (List.mem_range.mp hi))
    (fun t i r hi ht hr => computeFrontierAt_log hS fuel (List.mem_range.mp hi) ht hr) s h0

/-- The run `front` does not read the unreachable blocks of the predecessor lists, unless
the entry block is a join block only through them. -/
theorem front_prune {g : Pipeline} (wf : WellFormed g) (keep : Nat → Bool)
    (hkeep : ∀ p, keep p = true ↔ Reachable g p)
    (hentry : 2 ≤ (g.block 0).predecessors.length →
      ∀ x, (g.block 0).predecessors.filter keep = [x] → x = 0) (fuel : Nat) :
    front fuel (prune keep g) = front fuel g := by
  rw [front_dominance, front_dominance, dominance_prune wf keep hkeep]
  cases hs : dominance fuel g with
  | none => rfl
  | some s2 =>
    simp only [Option.some_bind]
    obtain ⟨hS2, _, hfr2, _⟩ := (dominance_spec g wf).2 fuel s2 hs
    cases fuel with
    | zero => simp [dominance, enumerate, enumLoop, whileLoop] at hs
    | succ n => exact computeFrontier_prune hS2 keep hkeep hentry hfr2 (Nat.succ_pos n)

/-! ## A second run -/

theorem CountIs.unique {α : Type} {P : α → Prop} {l : List α} {k k' : Nat}
    (h : CountIs P l k) (h' : CountIs P l k') : k = k' := by
  induction h generalizing k' with
  | nil => cases h'; rfl
  | hit hp _ ih =>
    cases h' with
    | hit _ h2 => rw [ih h2]
    | miss hn _ => exact absurd hp hn
  | miss hn _ ih =>
    cases h' with
    | hit hp _ => exact absurd hp hn
    | miss _ h2 => exact ih h2

/-- The recorded loops depend on the `dominates` test only through its answers on a block
and its predecessors. -/
theorem recorded_agree {g : Pipeline} (wf : WellFormed g) {d1 d2 : Nat → Nat → Bool}
    (h : ∀ a, a < g.blocks.length → ∀ b, b < g.blocks.length → d1 a b = d2 a b) :
    recorded g d1 = recorded g d2 := by
  rw [recorded_eq, recorded_eq]
  apply List.filterMap_congr
  intro i hi
  have hi' := List.mem_range.mp hi
  have hfind : (g.block i).predecessors.find? (fun pred => d1 i pred)
      = (g.block i).predecessors.find? (fun pred => d2 i pred) := by
    have hall : ∀ p ∈ (g.block i).predecessors, d1 i p = d2 i p :=
      fun p hp => h i hi' p (wf.2.2.1 i hi' p hp)
    revert hall
    generalize (g.block i).predecessors = l
    intro hall
    induction l with
    | nil => rfl
    | cons a l ih =>
      simp only [List.find?_cons]
      rw [hall a (List.mem_cons_self _ _), ih (fun p hp => hall p (List.mem_cons_of_mem _ hp))]
  rw [hfind]

theorem computeFrom_front (fuel : Nat) (g : Pipeline)
    (dominates : List (Nat × Nat) → Nat → Nat → Bool) (s : Frontier) :
    computeFrom fuel g dominates s
      = ((enumerate fuel g s).bind fun s1 =>
          (computeDominance fuel g s1).bind fun s2 => computeFrontier fuel g s2).bind
        fun s3 => computeLoops fuel g (dominates s3.children) s3 := by
  unfold computeFrom
  cases enumerate fuel g s with
  | none => rfl
  | some s1 =>
    simp only [Option.some_bind]
    cases computeDominance fuel g s1 with
    | none => rfl
    | some s2 => rfl

/-- A run of `compute` on a second object, in terms of the run `front` on a fresh one. -/
theorem computeFrom_renew (fuel : Nat) (g : Pipeline)
    (dominates : List (Nat × Nat) → Nat → Nat → Bool) (s : Frontier) :
    computeFrom fuel g dominates (renew g s)
      = (front fuel g).bind fun s3 =>
          computeLoops fuel g (dominates (s.children ++ s3.children))
            (onto s.children s.frontiers s.loopDepth s3) := by
  have hr : renew g s = onto s.children s.frontiers s.loopDepth (Frontier.create g) := by
    simp [renew, onto, Frontier.create]
  rw [computeFrom_front, hr, front_onto]
  cases front fuel g with
  | none => rfl
  | some s3 => rfl

/-! ## Claims on repeated runs, duplicate registrations and unreachable predecessors -/

/-- C11, as stated, fails. On the diamond a second `compute` on the same object finds the
`index` slots of the first run still set, so `enumerate` discovers no block: `count` is
`1` where it was `4`, and `vertex[0]` and `index[entry]`, `doms[0]` differ from the first
run. -/
theorem compute_twice_fails :
    WellFormed diamond ∧
    ∃ s1 s2, compute 20 diamond treeDominates = some s1 ∧
      computeFrom 20 diamond treeDominates s1 = some s2 ∧
      s1.count = 4 ∧ s2.count = 1 ∧ s1.vertex 0 = some 3 ∧ s2.vertex 0 = some 0 ∧
      s1.index 0 = some 3 ∧ s2.index 0 = some 0 ∧ s1.doms 0 = some 3 ∧ s2.doms 0 = some 0 := by
  refine ⟨by decide, ?_⟩
  have h : ((compute 20 diamond treeDominates).bind fun s1 =>
      (computeFrom 20 diamond treeDominates s1).map fun s2 =>
        ((s1.count, s2.count, s1.vertex 0, s2.vertex 0),
          (s1.index 0, s2.index 0, s1.doms 0, s2.doms 0)))
      = some ((4, 1, some 3, some 0), (some 3, some 0, some 3, some 0)) := by decide
  obtain ⟨s1, hs1, h⟩ := Option.bind_eq_some.mp h
  obtain ⟨s2, hs2, hf⟩ := Option.map_eq_some'.mp h
  simp only [Prod.mk.injEq] at hf
  exact ⟨s1, s2, hs1, hs2, hf.1.1, hf.1.2.1, hf.1.2.2.1, hf.1.2.2.2, hf.2.1,
    hf.2.2.1, hf.2.2.2.1, hf.2.2.2.2⟩

/-- C11, amended: for every well-formed CFG, after `compute` has run on one `Frontier`
object, a run of `compute` on a second `Frontier` object constructed on the same pipeline
(the constructor, not `compute`, resets the working arrays) completes and leaves `count`,
`vertex`, `index` and `doms` equal to those of the first run, and the `loopDepth` of
every block equal to that after the first run, provided the `dominates` test of the
pipeline answers the same on the blocks once the children are registered a second
time. -/
theorem compute_again_on_new_object (g : Pipeline) (wf : WellFormed g)
    (dominates : List (Nat × Nat) → Nat → Nat → Bool) :
    (∃ fuel s1, compute fuel g dominates = some s1) ∧
    ∀ fuel s1, compute fuel g dominates = some s1 →
      (∀ a, a < g.blocks.length → ∀ b, b < g.blocks.length →
        dominates (s1.children ++ s1.children) a b = dominates s1.children a b) →
      (∃ fuel2 s2, computeFrom fuel2 g dominates (renew g s1) = some s2) ∧
      ∀ fuel2 s2, computeFrom fuel2 g dominates (renew g s1) = some s2 →
        s2.count = s1.count ∧ s2.vertex = s1.vertex ∧ s2.index = s1.index ∧
        s2.doms = s1.doms ∧ ∀ b, b < g.blocks.length → s2.loopDepth b = s1.loopDepth b := by
  refine ⟨(compute_spec g wf dominates).1, ?_⟩
  intro fuel s1 h1 hdom
  have hC := (compute_spec g wf dominates).2 fuel s1 h1
  obtain ⟨s3, h3, _, ⟨hv1, hi1, hd1, hc1, hch⟩, _, _⟩ := compute_parts h1
  constructor
  · obtain ⟨s3', h3'⟩ := front_run g wf (fuelBound g) le_rfl
    obtain ⟨depth, hrun, _⟩ := computeLoops_spec wf (dominates (s1.children ++ s3'.children))
      (onto s1.children s1.frontiers s1.loopDepth s3') (fuelBound g)
      (by unfold fuelBound; omega)
    rw [← Option.some_bind s3' (fun s3 =>
      computeLoops (fuelBound g) g (dominates (s1.children ++ s3.children))
        (onto s1.children s1.frontiers s1.loopDepth s3)), ← h3', ← computeFrom_renew] at hrun
    exact ⟨fuelBound g, _, hrun⟩
  · intro fuel2 s2 h2
    rw [computeFrom_renew] at h2
    cases h3' : front fuel2 g with
    | none => rw [h3'] at h2; simp at h2
    | some s3' =>
      rw [h3'] at h2
      simp only [Option.some_bind] at h2
      have e1 := front_mono (le_max_left fuel fuel2) h3
      have e2 := front_mono (le_max_right fuel fuel2) h3'
      rw [e1] at e2
      cases e2
      rw [← hch] at h2
      obtain ⟨depth, hrun, hcount⟩ :=
        computeLoops_spec wf (dominates (s1.children ++ s1.children))
          (onto s1.children s1.frontiers s1.loopDepth s3)
          (max fuel2 (floodWork g (fun _ => false) + 2))
          (by have := le_max_right fuel2 (floodWork g (fun _ => false) + 2); omega)
      have hbig := computeLoops_mono
        (le_max_left fuel2 (floodWork g (fun _ => false) + 2)) h2
      rw [hrun] at hbig
      cases hbig
      refine ⟨hc1.symm, hv1.symm, hi1.symm, hd1.symm, ?_⟩
      intro b hb
      have c2 := hcount b hb
      rw [recorded_agree wf hdom] at c2
      exact c2.unique (hC.depth b hb)

/-- C11, amended, on the simple loop with the dominator-tree ancestor test. -/
theorem compute_again_on_new_object_witness :
    WellFormed simpleLoop ∧
    ∃ s1, compute 20 simpleLoop treeDominates = some s1 ∧
      (∃ fuel2 s2, computeFrom fuel2 simpleLoop treeDominates (renew simpleLoop s1) = some s2) ∧
      ∀ fuel2 s2, computeFrom fuel2 simpleLoop treeDominates (renew simpleLoop s1) = some s2 →
        s2.count = s1.count ∧ s2.vertex = s1.vertex ∧ s2.index = s1.index ∧
        s2.doms = s1.doms ∧
        ∀ b, b < simpleLoop.blocks.length → s2.loopDepth b = s1.loopDepth b := by
  have h : (compute 20 simpleLoop treeDominates).map (fun s1 =>
      decide (∀ a, a < simpleLoop.blocks.length → ∀ b, b < simpleLoop.blocks.length →
        treeDominates (s1.children ++ s1.children) a b = treeDominates s1.children a b))
      = some true := by decide
  obtain ⟨s1, hs1, hd⟩ := Option.map_eq_some'.mp h
  exact ⟨by decide, s1, hs1,
    (compute_again_on_new_object simpleLoop (by decide) treeDominates).2 20 s1 hs1
      (of_decide_eq_true hd)⟩

/-- C12: on every well-formed CFG `compute` runs to completion, and for every pair of an
owner block `r` and a join block `b` the call `r.addFrontier(b)` is made at most once: the
list of the calls, which holds the pair `(r, b)` for each call `r.addFrontier(b)`, holds no
pair twice. -/
theorem addFrontier_at_most_once (g : Pipeline) (wf : WellFormed g)
    (dominates : List (Nat × Nat) → Nat → Nat → Bool) :
    (∃ fuel s, compute fuel g dominates = some s) ∧
    ∀ fuel s, compute fuel g dominates = some s →
      s.frontiers.Nodup := by
  refine ⟨(compute_spec g wf dominates).1, ?_⟩
  intro fuel s hs
  obtain ⟨s3, h3, _, _, _, hfr⟩ := compute_parts hs
  rw [hfr]
  exact (front_spec wf h3).2.2.2.2.1

/-- C12, on a loop whose back edge is listed twice. -/
theorem addFrontier_at_most_once_witness :
    WellFormed twinBackEdge ∧
    ((∃ fuel s, compute fuel twinBackEdge treeDominates = some s) ∧
    ∀ fuel s, compute fuel twinBackEdge treeDominates = some s →
      s.frontiers.Nodup) :=
  ⟨by decide, addFrontier_at_most_once twinBackEdge (by decide) treeDominates⟩

/-- The reachable blocks of the graph entry -> B with the unreachable block U -> B. -/
theorem danglingPred_reachable :
    ∀ p, decide (p < 2) = true ↔ Reachable danglingPred p := by
  intro p
  rw [decide_eq_true_iff]
  constructor
  · intro hp
    have h1 : Reachable danglingPred 1 := (reachable_entry danglingPred).step (by decide)
    obtain rfl | rfl : p = 0 ∨ p = 1 := by omega
    · exact reachable_entry _
    · exact h1
  · intro h
    have := Reachable.closure (g := danglingPred) (fun b => b = 0 ∨ b = 1) (Or.inl rfl)
      (by
        rintro u v (rfl | rfl) hv
        · right
          have : v ∈ [1] := hv
          simpa using this
        · have : v ∈ ([] : List Nat) := hv
          cases this) h
    omega

/-- The reachable blocks of the graph entry -> B, B -> entry with the unreachable block
U -> entry. -/
theorem entryDangling_reachable :
    ∀ p, decide (p < 2) = true ↔ Reachable entryDangling p := by
  intro p
  rw [decide_eq_true_iff]
  constructor
  · intro hp
    have h1 : Reachable entryDangling 1 := (reachable_entry entryDangling).step (by decide)
    obtain rfl | rfl : p = 0 ∨ p = 1 := by omega
    · exact reachable_entry _
    · exact h1
  · intro h
    have := Reachable.closure (g := entryDangling) (fun b => b = 0 ∨ b = 1) (Or.inl rfl)
      (by
        rintro u v (rfl | rfl) hv
        · right
          have : v ∈ [1] := hv
          simpa using this
        · left
          have : v ∈ [0] := hv
          simpa using this) h
    omega

/-- C13, as stated, fails. On the well-formed graph entry -> B, B -> entry with an
unreachable block U -> entry, the entry lists the predecessors `[B, U]`, so
`computeFrontier` walks from `B` and calls `B.addFrontier(entry)`. With `U` deleted from
the predecessor lists the entry lists one predecessor, `computeFrontier` skips it, and
there is no `addFrontier` call. -/
theorem unreachable_preds_fails :
    WellFormed entryDangling ∧
    (∀ p, decide (p < 2) = true ↔ Reachable entryDangling p) ∧
    (prune (fun p => decide (p < 2)) entryDangling).blocks.map
      (fun b => (b.predecessors, b.successors)) = [([1], [1]), ([0], [0]), ([], [0])] ∧
    (front 20 entryDangling).map (fun s => s.frontiers) = some [(1, 0)] ∧
    (front 20 (prune (fun p => decide (p < 2)) entryDangling)).map (fun s => s.frontiers)
      = some [] :=
  ⟨by decide, entryDangling_reachable, by decide, by decide, by decide⟩

/-- C13, amended: for every well-formed CFG `G` the run of `enumerate`,
`computeDominance` and `computeFrontier` completes, and its result (`count`, `vertex`,
`index`, `doms`, the `addChild` and the `addFrontier` registrations) is the result on the
CFG that differs from `G` only by deleting every unreachable block from every
`predecessors` list, provided the entry block is not a join block through unreachable
predecessors only: if the entry lists two or more predecessors, the reachable ones among
them, counted as often as listed, are not one single block other than the entry. -/
theorem front_skips_unreachable_preds (g : Pipeline) (wf : WellFormed g) (keep : Nat → Bool)
    (hkeep : ∀ p, keep p = true ↔ Reachable g p)
    (hentry : 2 ≤ (g.block 0).predecessors.length →
      ∀ x, (g.block 0).predecessors.filter keep = [x] → x = 0) :
    (∃ fuel s, front fuel g = some s) ∧
    ∀ fuel, front fuel (prune keep g) = front fuel g := by
  constructor
  · obtain ⟨s, hs⟩ := front_run g wf (fuelBound g) le_rfl
    exact ⟨_, s, hs⟩
  · exact front_prune wf keep hkeep hentry

/-- C13, amended, on the graph entry -> B with an unreachable block U -> B. -/
theorem front_skips_unreachable_preds_witness :
    WellFormed danglingPred ∧
    (prune (fun p => decide (p < 2)) danglingPred).blocks.map
      (fun b => (b.predecessors, b.successors)) = [([], [1]), ([0], []), ([], [1])] ∧
    ((∃ fuel s, front fuel danglingPred = some s) ∧
    ∀ fuel, front fuel (prune (fun p => decide (p < 2)) danglingPred)
      = front fuel danglingPred) :=
  ⟨by decide, by decide,
    front_skips_unreachable_preds danglingPred (by decide) (fun p => decide (p < 2))
      danglingPred_reachable (fun h => absurd h (by decide))⟩

/-! ## Unreachable blocks -/

/-- Every registered frontier pair is a pair of numbered blocks. -/
theorem Computed.logged_index {g : Pipeline}
    {dominates : List (Nat × Nat) → Nat → Nat → Bool} {s : Frontier}
    (hC : Computed g dominates s) {A B : Nat} (h : (A, B) ∈ s.frontiers) :
    ∃ a b, s.index A = some a ∧ s.index B = some b := by
  have hS := hC.solved
  have hE := hS.enum
  obtain ⟨r, j, hr, hj, hbit⟩ := (hC.logged A B).mp h
  obtain ⟨hjN, b', dom, hvb, _, hd, p, hp, hch, hlt⟩ := (hC.bits r j).mp hbit
  obtain ⟨pb, _, hip⟩ := (mem_predsI hvb).mp hp
  have hpN := (hE.index_lt pb p hip).1
  have hrN : r ≤ s.count - 1 := hch.le_root hS.forest (by omega)
  have hpos := hE.count_pos
  exact ⟨r, j, hE.index_vertex (by omega) hr, hE.index_vertex hjN hj⟩

/-- C14: on every well-formed CFG `compute` runs to completion, and every block `U` that
is not reachable from the entry has `index[U] = null`, occurs nowhere in
`vertex[0..count-1]`, is neither the parent nor the child of any `addChild` call, and is
neither the receiver nor the argument of any `addFrontier` call. -/
theorem unreachable_never_registered (g : Pipeline) (wf : WellFormed g)
    (dominates : List (Nat × Nat) → Nat → Nat → Bool) :
    (∃ fuel s, compute fuel g dominates = some s) ∧
    ∀ fuel s, compute fuel g dominates = some s →
      ∀ U, ¬ Reachable g U →
        s.index U = none ∧ (∀ k, k < s.count → s.vertex k ≠ some U) ∧
        (∀ parent child, (parent, child) ∈ s.children → parent ≠ U ∧ child ≠ U) ∧
        (∀ r b, (r, b) ∈ s.frontiers → r ≠ U ∧ b ≠ U) := by
  refine ⟨(compute_spec g wf dominates).1, ?_⟩
  intro fuel s hs U hU
  have hC := (compute_spec g wf dominates).2 fuel s hs
  have hS := hC.solved
  have hE := hS.enum
  have hnone : s.index U = none := by
    by_contra hne
    exact hU ((hE.reach U).mp hne)
  have hof : ∀ x k, s.index x = some k → x ≠ U := by
    rintro x k hx rfl
    rw [hnone] at hx
    cases hx
  refine ⟨hnone, ?_, ?_, ?_⟩
  · intro k hk hv
    exact hof U k (hE.index_vertex hk hv) rfl
  · intro parent child h
    rw [hC.children] at h
    obtain ⟨i, c, _, hich, hip, _, _⟩ := hS.mem_childList h
    exact ⟨hof parent c hip, hof child i hich⟩
  · intro r b h
    obtain ⟨a, b', ha, hb⟩ := hC.logged_index h
    exact ⟨hof r a ha, hof b b' hb⟩

/-- C14, on the graph entry -> B with an unreachable block U -> B. -/
theorem unreachable_never_registered_witness :
    WellFormed danglingPred ∧ ¬ Reachable danglingPred 2 ∧
    ((∃ fuel s, compute fuel danglingPred treeDominates = some s) ∧
    ∀ fuel s, compute fuel danglingPred treeDominates = some s →
      ∀ U, ¬ Reachable danglingPred U →
        s.index U = none ∧ (∀ k, k < s.count → s.vertex k ≠ some U) ∧
        (∀ parent child, (parent, child) ∈ s.children → parent ≠ U ∧ child ≠ U) ∧
        (∀ r b, (r, b) ∈ s.frontiers → r ≠ U ∧ b ≠ U)) :=
  ⟨by decide, fun h => absurd ((danglingPred_reachable 2).mpr h) (by decide),
    unreachable_never_registered danglingPred (by decide) treeDominates⟩

/-! ## The diamond, termination, and `intersect` -/

/-- C15, as stated, fails. On the diamond (blocks: entry `0`, A `1`, B `2`, C `3`) `compute`
leaves `doms[index[C]] = index[entry]`, and `computeDominance` therefore calls
`entry.addChild(C)` besides `entry.addChild(A)` and `entry.addChild(B)`: the children
registered for the entry are not exactly A and B. -/
theorem diamond_children_fails :
    WellFormed diamond ∧
    ∃ s, compute 20 diamond treeDominates = some s ∧
      (s.index 3).bind s.doms = s.index 0 ∧ (0, 3) ∈ s.children ∧
      ¬ (∀ c, (0, c) ∈ s.children ↔ (c = 1 ∨ c = 2)) := by
  refine ⟨by decide, ?_⟩
  have h : (compute 20 diamond treeDominates).map
      (fun s => ((s.index 3).bind s.doms, s.index 0, s.children))
      = some (some 3, some 3, [(0, 3), (0, 1), (0, 2)]) := by decide
  obtain ⟨s, hs, hf⟩ := Option.map_eq_some'.mp h
  simp only [Prod.mk.injEq] at hf
  obtain ⟨h1, h2, h3⟩ := hf
  refine ⟨s, hs, by rw [h1, h2], by rw [h3]; decide, ?_⟩
  intro hall
  have := (hall 3).mp (by rw [h3]; decide)
  omega

/-- C15, amended: on the diamond `compute` runs to completion and yields
`doms[C] = entry` (the slot `doms[index[C]]` holds `index[entry]`, and the block at that
index is the entry), and the set of blocks registered as dominator-tree children of the
entry (via `entry.addChild`) is exactly {A, B, C}. -/
theorem diamond_doms_and_children (dominates : List (Nat × Nat) → Nat → Nat → Bool) :
    (∃ fuel s, compute fuel diamond dominates = some s) ∧
    ∀ fuel s, compute fuel diamond dominates = some s →
      (s.index 3).bind s.doms = s.index 0 ∧
      ((s.index 3).bind s.doms).bind s.vertex = some 0 ∧
      ∀ c, (0, c) ∈ s.children ↔ (c = 1 ∨ c = 2 ∨ c = 3) := by
  have wf : WellFormed diamond := by decide
  refine ⟨(compute_spec diamond wf dominates).1, ?_⟩
  intro fuel s hs
  obtain ⟨s3, h3, _, ⟨hv, hi, hd, _, hch⟩, _, _⟩ := compute_parts hs
  obtain ⟨_, _, _, _, _, s2, h2, _, hv2, hi2, hd2, _, hch2⟩ := front_spec wf h3
  have h : (dominance 20 diamond).map
      (fun s => ((s.index 3).bind s.doms, s.index 0,
        ((s.index 3).bind s.doms).bind s.vertex, s.children))
      = some (some 3, some 3, some 0, [(0, 3), (0, 1), (0, 2)]) := by decide
  obtain ⟨s2', hs2', hf⟩ := Option.map_eq_some'.mp h
  have e1 := dominance_mono (le_max_left fuel 20) h2
  have e2 := dominance_mono (le_max_right fuel 20) hs2'
  rw [e1] at e2
  cases e2
  simp only [Prod.mk.injEq] at hf
  obtain ⟨f1, f2, f3, f4⟩ := hf
  rw [hv, hi, hd, hch, hv2, hi2, hd2, hch2]
  refine ⟨by rw [f1, f2], f3, ?_⟩
  intro c
  rw [f4]
  simp only [List.mem_cons, Prod.mk.injEq, true_and, List.mem_nil_iff, or_false]
  omega

/-- C16: on every well-formed CFG, for every fuel from `fuelBound` on, every loop of
`compute` runs to completion: `enumerate` returns (its stack empties), the fixpoint loop
of `computeDominance` leaves with `changed` false (and with it every `intersect` call
returned), `computeDominance` and `computeFrontier` return (every runner walk met its
stopping index) and `computeLoops` returns (every flood emptied its queue). -/
theorem compute_terminates (g : Pipeline) (wf : WellFormed g)
    (dominates : List (Nat × Nat) → Nat → Nat → Bool) (fuel : Nat)
    (hfuel : fuelBound g ≤ fuel) :
    ∃ s1 st s2 s3 s4, enumerate fuel g (Frontier.create g) = some s1 ∧
      whileLoop (fun (st : Frontier × Bool) => st.2) (fun st => computeOne fuel g st.1)
        fuel (s1, true) = some st ∧ st.2 = false ∧
      computeDominance fuel g s1 = some s2 ∧
      computeFrontier fuel g s2 = some s3 ∧
      computeLoops fuel g (dominates s3.children) s3 = some s4 ∧
      compute fuel g dominates = some s4 := by
  obtain ⟨s4, hs4, _⟩ := compute_run g wf dominates fuel hfuel
  have h := hs4
  unfold compute computeFrom at h
  cases h1 : enumerate fuel g (Frontier.create g) with
  | none => rw [h1] at h; simp at h
  | some s1 =>
    rw [h1] at h
    simp only [Option.some_bind] at h
    cases h2 : computeDominance fuel g s1 with
    | none => rw [h2] at h; simp at h
    | some s2 =>
      rw [h2] at h
      simp only [Option.some_bind] at h
      cases h3 : computeFrontier fuel g s2 with
      | none => rw [h3] at h; simp at h
      | some s3 =>
        rw [h3] at h
        simp only [Option.some_bind] at h
        have hsolve := h2
        unfold computeDominance solve at hsolve
        cases hw : whileLoop (fun (st : Frontier × Bool) => st.2)
            (fun st => computeOne fuel g st.1) fuel (s1, true) with
        | none => rw [hw] at hsolve; simp at hsolve
        | some st =>
          have hexit := (whileLoop_inv (fun _ => True) (fun _ _ _ _ _ => trivial)
            fuel _ st trivial hw).2
          exact ⟨s1, st, s2, s3, s4, rfl, hw, hexit, h2, h3, h, hs4⟩

/-- C16, on the simple loop: from `54` units of fuel on, `compute` returns. -/
theorem compute_terminates_witness :
    WellFormed simpleLoop ∧ fuelBound simpleLoop ≤ 54 ∧
    ∃ s1 st s2 s3 s4, enumerate 54 simpleLoop (Frontier.create simpleLoop) = some s1 ∧
      whileLoop (fun (st : Frontier × Bool) => st.2)
        (fun st => computeOne 54 simpleLoop st.1) 54 (s1, true) = some st ∧ st.2 = false ∧
      computeDominance 54 simpleLoop s1 = some s2 ∧
      computeFrontier 54 simpleLoop s2 = some s3 ∧
      computeLoops 54 simpleLoop (treeDominates s3.children) s3 = some s4 ∧
      compute 54 simpleLoop treeDominates = some s4 :=
  ⟨by decide, by decide,
    compute_terminates simpleLoop (by decide) treeDominates 54 (by decide)⟩

/-- A `doms` array over `0..count-1` whose root points to itself and whose other slots
point to larger slots is a forest. -/
theorem forest_of_tree {d : Nat → Option Nat} {count : Nat} (hcount : 0 < count)
    (hroot : d (count - 1) = some (count - 1))
    (hup : ∀ i, i < count - 1 → ∃ j, d i = some j ∧ i < j ∧ j < count)
    (hout : ∀ i, count ≤ i → d i = none) :
    Forest d (count - 1) ∧ ∀ a, a < count → d a ≠ none := by
  have hset : ∀ a, a < count → d a ≠ none := by
    intro a ha
    by_cases h : a < count - 1
    · obtain ⟨j, hj, _⟩ := hup a h
      rw [hj]
      simp
    · have : a = count - 1 := by omega
      rw [this, hroot]
      simp
  have hin : ∀ i j, d i = some j → i < count ∧ j < count := by
    intro i j hij
    have hi : i < count := by
      by_contra h
      rw [hout i (by omega)] at hij
      cases hij
    refine ⟨hi, ?_⟩
    by_cases h : i < count - 1
    · obtain ⟨j', hj', _, hlt⟩ := hup i h
      rw [hij] at hj'
      cases hj'
      exact hlt
    · have : i = count - 1 := by omega
      rw [this, hroot] at hij
      cases hij
      omega
  refine ⟨⟨hroot, ?_, ?_, ?_⟩, hset⟩
  · intro i j hij hi
    obtain ⟨j', hj', hlt, _⟩ := hup i hi
    rw [hij] at hj'
    cases hj'
    exact hlt
  · intro i j hij
    have := hin i j hij
    omega
  · intro i j hij
    exact hset j (hin i j hij).2

/-- C17: for every `doms` array over `0..count-1` with `doms[count-1] = count-1` and
`doms[i] > i` for all `i < count-1`, and all indices `a, b < count`, `intersect(a, b)`
terminates and returns the smallest index `m` that lies on both the `doms`-chain of `a`
and the `doms`-chain of `b`; `intersect(b, a)` returns the same `m`, `intersect(a, a)`
returns `a`, and `m >= max(a, b)`. -/
theorem intersect_nearest_common_ancestor (d : Nat → Option Nat) (count : Nat)
    (hcount : 0 < count) (hroot : d (count - 1) = some (count - 1))
    (hup : ∀ i, i < count - 1 → ∃ j, d i = some j ∧ i < j ∧ j < count)
    (hout : ∀ i, count ≤ i → d i = none)
    (a b : Nat) (ha : a < count) (hb : b < count) :
    ∃ m, (∀ fuel, 2 * count < fuel →
        intersect d fuel a b = some m ∧ intersect d fuel b a = some m ∧
        intersect d fuel a a = some a) ∧
      (∀ fuel r, intersect d fuel a b = some r → r = m) ∧
      Chain d a m ∧ Chain d b m ∧ (∀ z, Chain d a z → Chain d b z → m ≤ z) ∧
      max a b ≤ m := by
  obtain ⟨F, hset⟩ := forest_of_tree hcount hroot hup hout
  have hfuel0 : 2 * (count - 1) < 2 * count + 1 := by omega
  obtain ⟨m, hm, ham, hbm, hmin⟩ :=
    intersect_spec F (2 * count + 1) a b hfuel0 (hset a ha) (hset b hb)
  have hsym : ∀ fuel, 2 * count < fuel → intersect d fuel b a = some m := by
    intro fuel hfuel
    obtain ⟨m', hm', hbm', ham', hmin'⟩ :=
      intersect_spec F fuel b a (by omega) (hset b hb) (hset a ha)
    have h1 := (hmin m' ham' hbm').le F
    have h2 := (hmin' m hbm ham).le F
    have : m' = m := by omega
    rw [hm', this]
  have hidem : ∀ fuel, 2 * count < fuel → intersect d fuel a a = some a := by
    intro fuel hfuel
    obtain ⟨m', hm', ham', _, hmin'⟩ :=
      intersect_spec F fuel a a (by omega) (hset a ha) (hset a ha)
    have h1 := ham'.le F
    have h2 := (hmin' a (Chain.refl a) (Chain.refl a)).le F
    have : m' = a := by omega
    rw [hm', this]
  refine ⟨m, ?_, ?_, ham, hbm, fun z hz1 hz2 => (hmin z hz1 hz2).le F, ?_⟩
  · intro fuel hfuel
    exact ⟨intersect_mono (by omega) hm, hsym fuel hfuel, hidem fuel hfuel⟩
  · intro fuel r hr
    have e1 := intersect_mono (le_max_left fuel (2 * count + 1)) hr
    have e2 := intersect_mono (le_max_right fuel (2 * count + 1)) hm
    rw [e1] at e2
    exact Option.some.inj e2
  · have h1 := ham.le F
    have h2 := hbm.le F
    exact max_le h1 h2

/-- C17, on the array `[2, 2, 3, 3]` with `a = 0` and `b = 1`. -/
theorem intersect_nearest_common_ancestor_witness :
    intersect sampleDoms 9 0 1 = some 2 ∧
    ∃ m, (∀ fuel, 2 * 4 < fuel →
        intersect sampleDoms fuel 0 1 = some m ∧ intersect sampleDoms fuel 1 0 = some m ∧
        intersect sampleDoms fuel 0 0 = some 0) ∧
      (∀ fuel r, intersect sampleDoms fuel 0 1 = some r → r = m) ∧
      Chain sampleDoms 0 m ∧ Chain sampleDoms 1 m ∧
      (∀ z, Chain sampleDoms 0 z → Chain sampleDoms 1 z → m ≤ z) ∧
      max 0 1 ≤ m :=
  ⟨by decide,
    intersect_nearest_common_ancestor sampleDoms 4 (by decide) (by decide)
      (fun i hi => by
        have h3 : i < 3 := hi
        interval_cases i
        · exact ⟨2, by decide, by decide, by decide⟩
        · exact ⟨2, by decide, by decide, by decide⟩
        · exact ⟨3, by decide, by decide, by decide⟩)
      (fun i hi => by
        unfold sampleDoms
        rw [if_neg (by omega), if_neg (by omega)])
      0 1 (by decide) (by decide)⟩

/-! ## The frontier walk, the recorded loops and the first pass -/

/-- The values of a runner that climbs a chain through `dom` are the points of the chain
below `dom`. -/
theorem runnerAt_iff {d : Nat → Option Nat} {N : Nat} (F : Forest d N) {dom a k : Nat}
    (hdom : Chain d a dom) : RunnerAt d dom a k ↔ (Chain d a k ∧ k < dom) := by
  have hnext : ∀ {x x' : Nat}, Chain d x dom → x ≠ dom → d x = some x' → Chain d x' dom := by
    intro x x' h hne hx
    rcases h.inv with h | ⟨x'', hx'', h⟩
    · exact absurd h.symm hne
    · rw [hx] at hx''
      cases hx''
      exact h
  constructor
  · intro h
    induction h with
    | here hne =>
      have := hdom.le F
      exact ⟨Chain.refl _, by omega⟩
    | next hne hx _ ih =>
      obtain ⟨h1, h2⟩ := ih (hnext hdom hne hx)
      exact ⟨Chain.step hx h1, h2⟩
  · rintro ⟨h, hlt⟩
    induction h with
    | refl x => exact RunnerAt.here (by omega)
    | @step x x' z hx h ih =>
      have h1 := F.mono _ _ hx
      have h2 := h.le F
      have hne : x ≠ dom := by omega
      exact RunnerAt.next hne hx (ih (hnext hdom hne hx) hlt)

/-- C18: on every well-formed CFG `compute` runs to completion, and `r.addFrontier(b)` is
invoked iff `b` is a reachable block with at least 2 listed predecessors and
`r = vertex[k]` for a value `k` that the runner takes on the walk which starts at
`index[p]`, for a reachable predecessor `p` of `b`, follows `doms` and stops before
`doms[index[b]]`. A join block is never registered in the frontier of the block at its
own `doms` slot, and the entry block is never registered in its own frontier. -/
theorem addFrontier_iff_runner_walk (g : Pipeline) (wf : WellFormed g)
    (dominates : List (Nat × Nat) → Nat → Nat → Bool) :
    (∃ fuel s, compute fuel g dominates = some s) ∧
    ∀ fuel s, compute fuel g dominates = some s →
      (∀ r b, (r, b) ∈ s.frontiers ↔
        (Reachable g b ∧ 2 ≤ (g.block b).predecessors.length ∧
          ∃ p ∈ (g.block b).predecessors, Reachable g p ∧
            ∃ ib dom ip k, s.index b = some ib ∧ s.doms ib = some dom ∧
              s.index p = some ip ∧ RunnerAt s.doms dom ip k ∧ s.vertex k = some r)) ∧
      (∀ b ib dom idom, s.index b = some ib → s.doms ib = some dom →
        s.vertex dom = some idom → (idom, b) ∉ s.frontiers) ∧
      (0, 0) ∉ s.frontiers := by
  refine ⟨(compute_spec g wf dominates).1, ?_⟩
  intro fuel s hs
  have hC := (compute_spec g wf dominates).2 fuel s hs
  have hS := hC.solved
  have hE := hS.enum
  have F := hS.forest
  have hpos := hE.count_pos
  have hmain : ∀ r b, (r, b) ∈ s.frontiers ↔
      (Reachable g b ∧ 2 ≤ (g.block b).predecessors.length ∧
        ∃ p ∈ (g.block b).predecessors, Reachable g p ∧
          ∃ ib dom ip k, s.index b = some ib ∧ s.doms ib = some dom ∧
            s.index p = some ip ∧ RunnerAt s.doms dom ip k ∧ s.vertex k = some r) := by
    intro r b
    constructor
    · intro h
      obtain ⟨kr, j, hr, hj, hbit⟩ := (hC.logged r b).mp h
      obtain ⟨hjN, b', dom, hvb, hlen, hd, ip, hp, hch, hlt⟩ := (hC.bits kr j).mp hbit
      rw [hj] at hvb
      cases hvb
      obtain ⟨p, hpm, hip⟩ := (mem_predsI hj).mp hp
      have hib := hE.index_vertex hjN hj
      refine ⟨hE.reachable hib, hlen, p, hpm, hE.reachable hip, j, dom, ip, kr, hib, hd, hip,
        ?_, hr⟩
      exact (runnerAt_iff F (hS.dom_on_chain hjN hd hp)).mpr ⟨hch, hlt⟩
    · rintro ⟨_, hlen, p, hpm, _, ib, dom, ip, k, hib, hd, hip, hwalk, hr⟩
      obtain ⟨hibN, hvb⟩ := hE.index_lt b ib hib
      have hp : ip ∈ predsI g s ib := (mem_predsI hvb).mpr ⟨p, hpm, hip⟩
      obtain ⟨hch, hlt⟩ := (runnerAt_iff F (hS.dom_on_chain hibN hd hp)).mp hwalk
      exact (hC.logged r b).mpr ⟨k, ib, hr, hvb,
        (hC.bits k ib).mpr ⟨hibN, b, dom, hvb, hlen, hd, ip, hp, hch, hlt⟩⟩
  have hidom : ∀ b ib dom idom, s.index b = some ib → s.doms ib = some dom →
      s.vertex dom = some idom → (idom, b) ∉ s.frontiers := by
    intro b ib dom idom hib hd hv h
    obtain ⟨_, _, p, _, _, ib', dom', ip, k, hib', hd', hip, hwalk, hr⟩ := (hmain idom b).mp h
    rw [hib] at hib'
    cases hib'
    rw [hd] at hd'
    cases hd'
    obtain ⟨hibN, hvb⟩ := hE.index_lt b ib hib
    obtain ⟨p', hpm', hip'⟩ : ∃ p' ∈ (g.block b).predecessors, s.index p' = some ip :=
      ⟨p, by assumption, hip⟩
    have hp : ip ∈ predsI g s ib := (mem_predsI hvb).mpr ⟨p', hpm', hip'⟩
    obtain ⟨hch, hlt⟩ := (runnerAt_iff F (hS.dom_on_chain hibN hd hp)).mp hwalk
    have hdN := (F.bound ib dom hd).2
    have hkd : k = dom := hE.vertex_inj (by omega) (by omega) hr hv
    omega
  refine ⟨hmain, hidom, ?_⟩
  exact hidom 0 (s.count - 1) (s.count - 1) 0 hE.entry_index F.root hE.vertex_root

/-- C18, on the simple loop. -/
theorem addFrontier_iff_runner_walk_witness :
    WellFormed simpleLoop ∧
    ((∃ fuel s, compute fuel simpleLoop treeDominates = some s) ∧
    ∀ fuel s, compute fuel simpleLoop treeDominates = some s →
      (∀ r b, (r, b) ∈ s.frontiers ↔
        (Reachable simpleLoop b ∧ 2 ≤ (simpleLoop.block b).predecessors.length ∧
          ∃ p ∈ (simpleLoop.block b).predecessors, Reachable simpleLoop p ∧
            ∃ ib dom ip k, s.index b = some ib ∧ s.doms ib = some dom ∧
              s.index p = some ip ∧ RunnerAt s.doms dom ip k ∧ s.vertex k = some r)) ∧
      (∀ b ib dom idom, s.index b = some ib → s.doms ib = some dom →
        s.vertex dom = some idom → (idom, b) ∉ s.frontiers) ∧
      (0, 0) ∉ s.frontiers) :=
  ⟨by decide, addFrontier_iff_runner_walk simpleLoop (by decide) treeDominates⟩

/-- The first entry of a list that passes a test, by position. -/
theorem find_iff_first {α : Type} (p : α → Bool) (e : α) :
    ∀ l : List α, l.find? p = some e ↔
      (p e = true ∧ ∃ k : Nat, l[k]? = some e ∧
        ∀ k' : Nat, k' < k → ∀ x, l[k']? = some x → p x = false) := by
  intro l
  induction l with
  | nil => simp
  | cons a l ih =>
    by_cases hpa : p a = true
    · rw [List.find?_cons_of_pos _ hpa]
      constructor
      · intro h
        cases h
        exact ⟨hpa, 0, List.getElem?_cons_zero, fun k' hk' => absurd hk' (Nat.not_lt_zero _)⟩
      · rintro ⟨_, k, hk, hbefore⟩
        cases k with
        | zero =>
          rw [List.getElem?_cons_zero] at hk
          exact hk
        | succ k =>
          have := hbefore 0 (Nat.succ_pos k) a List.getElem?_cons_zero
          rw [hpa] at this
          cases this
    · have hpa' : p a = false := by simpa using hpa
      rw [List.find?_cons_of_neg _ hpa, ih]
      constructor
      · rintro ⟨hpe, k, hk, hbefore⟩
        refine ⟨hpe, k + 1, by rw [List.getElem?_cons_succ]; exact hk, ?_⟩
        intro k' hk' x hx
        cases k' with
        | zero =>
          rw [List.getElem?_cons_zero] at hx
          cases hx
          exact hpa'
        | succ k' =>
          rw [List.getElem?_cons_succ] at hx
          exact hbefore k' (by omega) x hx
      · rintro ⟨hpe, k, hk, hbefore⟩
        cases k with
        | zero =>
          rw [List.getElem?_cons_zero] at hk
          cases hk
          rw [hpa'] at hpe
          cases hpe
        | succ k =>
          rw [List.getElem?_cons_succ] at hk
          exact ⟨hpe, k, hk, fun k' hk' x hx =>
            hbefore (k' + 1) (by omega) x (by rw [List.getElem?_cons_succ]; exact hx)⟩

/-- A reference beyond the blocks of the pipeline denotes no predecessor. -/
theorem block_length {g : Pipeline} {h : Nat}
    (hlen : (g.block h).predecessors.length = 2) : h < g.blocks.length := by
  by_contra hge
  have : g.block h = ⟨[], []⟩ := by
    unfold Pipeline.block
    exact List.getD_eq_default _ _ (by omega)
  rw [this] at hlen
  cases hlen

/-- The starts of the recorded loops, in order, are blocks in increasing order. -/
theorem recorded_starts (g : Pipeline) (dominates : Nat → Nat → Bool) :
    ((recorded g dominates).map Loop.start).Sublist (List.range g.blocks.length) := by
  rw [recorded_eq]
  generalize List.range g.blocks.length = l
  induction l with
  | nil => exact List.Sublist.slnil
  | cons i l ih =>
    by_cases hlen : (g.block i).predecessors.length ≠ 2
    · rw [List.filterMap_cons_none (by rw [if_pos hlen])]
      exact List.Sublist.cons _ ih
    · cases hfind : (g.block i).predecessors.find? (fun pred => dominates i pred) with
      | none =>
        rw [List.filterMap_cons_none (by rw [if_neg hlen, hfind]; rfl)]
        exact List.Sublist.cons _ ih
      | some pred =>
        rw [List.filterMap_cons_some (b := ⟨i, pred⟩) (by rw [if_neg hlen, hfind]; rfl)]
        exact List.Sublist.cons₂ _ ih

/-- C19: in `computeLoops` a loop `{start: h, end: e}` is recorded iff `h` lists exactly 2
predecessors, `h` dominates `e` (by the `dominates` test of the pipeline), and `e` is the
first predecessor of `h` in list order that `h` dominates. Hence every block is the start
of at most one recorded loop, and a block whose predecessor list is not of length 2 is
never the start of a recorded loop. The list of loops that `computeLoops` builds does
not depend on the depths that the blocks had before. -/
theorem recorded_loop_iff (g : Pipeline) (dominates : Nat → Nat → Bool) :
    (∀ depth0 : Nat → Nat,
      ((List.range g.blocks.length).foldl (detectAt g dominates) (depth0, [])).2
        = recorded g dominates) ∧
    (∀ h e, (⟨h, e⟩ : Loop) ∈ recorded g dominates ↔
      ((g.block h).predecessors.length = 2 ∧ dominates h e = true ∧
        ∃ k : Nat, (g.block h).predecessors[k]? = some e ∧
          ∀ k' : Nat, k' < k → ∀ p, (g.block h).predecessors[k']? = some p →
            dominates h p = false)) ∧
    ((recorded g dominates).map Loop.start).Nodup ∧
    ∀ h, (g.block h).predecessors.length ≠ 2 →
      ∀ l ∈ recorded g dominates, l.start ≠ h := by
  have hmem : ∀ l, l ∈ recorded g dominates ↔
      ((g.block l.start).predecessors.length = 2 ∧
        (g.block l.start).predecessors.find? (fun pred => dominates l.start pred)
          = some l.stop) := by
    intro l
    rw [recorded_eq, List.mem_filterMap]
    constructor
    · rintro ⟨i, _, hi⟩
      by_cases hlen : (g.block i).predecessors.length ≠ 2
      · rw [if_pos hlen] at hi
        cases hi
      · rw [if_neg hlen] at hi
        obtain ⟨pred, hfind, rfl⟩ := Option.map_eq_some'.mp hi
        exact ⟨by simpa using hlen, hfind⟩
    · rintro ⟨hlen, hfind⟩
      refine ⟨l.start, List.mem_range.mpr (block_length hlen), ?_⟩
      rw [if_neg (by simp [hlen]), hfind]
      rfl
  refine ⟨?_, ?_, ?_, ?_⟩
  · intro depth0
    rw [detect_fold, recorded_eq]
  · intro h e
    rw [hmem ⟨h, e⟩, find_iff_first]
  · exact (recorded_starts g dominates).nodup (List.nodup_range _)
  · intro h hlen l hl hstart
    rw [hmem l, hstart] at hl
    exact hlen hl.1

/-- The first pass of `computeOne` on the state left by `enumerate`: every slot is
assigned, each from a predecessor whose slot was assigned before. -/
theorem computeOne_first {g : Pipeline} (wf : WellFormed g) {s1 : Frontier}
    (hE : Enumerated g s1)
    (hd0 : ∀ i, s1.doms i = if i = s1.count - 1 then some (s1.count - 1) else none) :
    (∀ fuel, 2 * (s1.count - 1) < fuel → ∃ st, computeOne fuel g s1 = some st) ∧
    ∀ fuel st, computeOne fuel g s1 = some st →
      st.1.count = s1.count ∧
      (∀ i, i < s1.count - 1 → ∃ p ∈ predsI g s1 i, mix i st.1.doms s1.doms p ≠ none) ∧
      ∀ i, i < s1.count → st.1.doms i ≠ none := by
  have hrun : ∀ fuel, 2 * (s1.count - 1) < fuel →
      ∃ T ch, computeOne fuel g s1 = some ({ s1 with doms := T }, ch) ∧
        Forest T (s1.count - 1) ∧ PassRel (predsI g s1) (s1.count - 1) s1.doms T := by
    intro fuel hfuel
    obtain ⟨T, ch, hT, FT, _, hpass, _⟩ := computeOne_spec wf hE fuel hfuel (fun _ => True)
      (fun _ _ _ _ _ _ _ _ => trivial) s1.doms (forest_init hd0) trivial
    exact ⟨T, ch, hT, FT, hpass⟩
  constructor
  · intro fuel hfuel
    obtain ⟨T, ch, hT, _⟩ := hrun fuel hfuel
    exact ⟨_, hT⟩
  · intro fuel st hst
    obtain ⟨T, ch, hT, FT, hpass⟩ := hrun (max fuel (2 * (s1.count - 1) + 1))
      (by have := le_max_right fuel (2 * (s1.count - 1) + 1); omega)
    have hbig := computeOne_mono (le_max_left fuel (2 * (s1.count - 1) + 1)) hst
    rw [hT] at hbig
    cases hbig
    refine ⟨rfl, ?_, ?_⟩
    · intro i hi
      obtain ⟨c, _, hnca⟩ := hpass.2 i hi
      exact hnca.1
    · intro i hi
      exact hpass.allSet FT i (by show i ≤ s1.count - 1; omega)

theorem firstPass_mono {g : Pipeline} {r : Frontier × Bool} {fuel fuel' : Nat}
    (hle : fuel ≤ fuel') (h : firstPass fuel g = some r) : firstPass fuel' g = some r :=
  bind_mono (f := fun n (s : Frontier) => enumerate n g s)
    (k := fun n s => computeOne n g s)
    (fun _ _ _ _ hnm h => enumerate_mono hnm h)
    (fun _ _ _ _ hnm h => computeOne_mono hnm h) hle h

/-- C20: on every well-formed CFG `enumerate` followed by one pass of `computeOne` runs to
completion. After `enumerate` every reachable block `b` other than the entry has a
predecessor `p` with `index[p] > index[b]`. In the first pass of `computeOne` every slot
`i` below the root finds a reachable predecessor whose `doms` slot is set at the moment
the slot `i` is processed (`mix i T S` is the array `doms` at that moment, `S` being the
array before the pass and `T` the array after it), so after the pass `doms[i]` is
non-null for every `i < count`. In `computeDominance`, which runs to completion, the
lookups `doms[i]` and `vertex[doms[i]]` are defined for every `i < count - 1`. -/
theorem first_pass_sets_every_slot (g : Pipeline) (wf : WellFormed g) :
    (∃ fuel st, firstPass fuel g = some st) ∧
    (∀ fuel s1, enumerate fuel g (Frontier.create g) = some s1 →
      (∀ b ib, s1.index b = some ib → b ≠ 0 →
        ∃ p ∈ (g.block b).predecessors, ∃ ip, s1.index p = some ip ∧ ib < ip) ∧
      ∀ fuel2 st, computeOne fuel2 g s1 = some st →
        (∀ i, i < s1.count - 1 → ∃ p ∈ predsI g s1 i, mix i st.1.doms s1.doms p ≠ none) ∧
        ∀ i, i < st.1.count → st.1.doms i ≠ none) ∧
    (∃ fuel s, dominance fuel g = some s) ∧
    ∀ fuel s, dominance fuel g = some s →
      ∀ i, i < s.count - 1 → ∃ d parent, s.doms i = some d ∧ s.vertex d = some parent := by
  refine ⟨?_, ?_, (dominance_spec g wf).1, ?_⟩
  · obtain ⟨s1, hs1⟩ := (enumerate_spec g wf).1 (2 * g.blocks.length + 1) (by omega)
    obtain ⟨hE, _, _, _, hd0⟩ := (enumerate_spec g wf).2 _ s1 hs1
    have hcount := hE.count_le wf
    obtain ⟨st, hst⟩ := (computeOne_first wf hE hd0).1 (2 * g.blocks.length + 1) (by omega)
    refine ⟨2 * g.blocks.length + 1, st, ?_⟩
    simp only [firstPass, hs1, Option.some_bind]
    exact hst
  · intro fuel s1 hs1
    obtain ⟨hE, _, _, _, hd0⟩ := (enumerate_spec g wf).2 fuel s1 hs1
    constructor
    · intro b ib hib hb0
      obtain ⟨p, ip, hps, hip, hlt⟩ := hE.pusher b ib hib hb0
      have hpr : Reachable g p := hE.reachable hip
      have hbr : Reachable g b := hE.reachable hib
      exact ⟨p, (wf.2.2.2 p (hpr.lt wf) b (hbr.lt wf)).mp hps, ip, hip, hlt⟩
    · intro fuel2 st hst
      obtain ⟨hc, h1, h2⟩ := (computeOne_first wf hE hd0).2 fuel2 st hst
      exact ⟨h1, fun i hi => h2 i (by rw [← hc]; exact hi)⟩
  · intro fuel s hs i hi
    obtain ⟨hS, _⟩ := (dominance_spec g wf).2 fuel s hs
    obtain ⟨c, p, _, hc, _, hp, _⟩ := hS.childList_get hi
    exact ⟨c, p, hc, hp⟩

/-- C20, on the graph 0 -> 1, 0 -> 2, 1 -> 2, 2 -> 3, 2 -> 4, 3 -> 5, 4 -> 5. -/
theorem first_pass_sets_every_slot_witness :
    WellFormed lateJoin ∧
    ((∃ fuel st, firstPass fuel lateJoin = some st) ∧
    (∀ fuel s1, enumerate fuel lateJoin (Frontier.create lateJoin) = some s1 →
      (∀ b ib, s1.index b = some ib → b ≠ 0 →
        ∃ p ∈ (lateJoin.block b).predecessors, ∃ ip, s1.index p = some ip ∧ ib < ip) ∧
      ∀ fuel2 st, computeOne fuel2 lateJoin s1 = some st →
        (∀ i, i < s1.count - 1 →
          ∃ p ∈ predsI lateJoin s1 i, mix i st.1.doms s1.doms p ≠ none) ∧
        ∀ i, i < st.1.count → st.1.doms i ≠ none) ∧
    (∃ fuel s, dominance fuel lateJoin = some s) ∧
    ∀ fuel s, dominance fuel lateJoin = some s →
      ∀ i, i < s.count - 1 → ∃ d parent, s.doms i = some d ∧ s.vertex d = some parent) :=
  ⟨by decide, first_pass_sets_every_slot lateJoin (by decide)⟩

end DominanceFrontier
